import Mathlib

/-
Verification of the dependency scheduler in `comfy_execution/graph.py`
(DynamicPrompt, TopologicalSort, ExecutionList).

The Python code is shallowly embedded:
  * Python dicts become insertion-ordered association lists (`List (κ × β)`),
    so that iteration order — which the scheduler relies on — is preserved.
  * raising an exception becomes returning `Except.error`; an operation that
    raises produces no successor state.
  * the unbounded `while` loops (`add_node`'s worklist, `get_nodes_in_cycle`'s
    peeling, the ephemeral-ancestry chases) take an explicit fuel argument
    large enough for every terminating run; exhaustion is a distinguished
    error value.
  * machine integers: node identifiers are strings, sockets are `Nat`,
    `blockCount` entries are unbounded `Int` exactly like Python ints.
  * the external collaborators absent from the source tree (the node registry
    `nodes.NODE_CLASS_MAPPINGS`, the link shape from `graph_utils.is_link`)
    are modelled from the spec, as marked below.
-/

namespace ComfySched

/-- Association-list lookup, mirroring Python `d[k]` /`k in d` on dicts
(first matching key wins; well-formed states never hold duplicate keys). -/
def alookup {κ β : Type} [DecidableEq κ] : List (κ × β) → κ → Option β
  | [], _ => none
  | (k, v) :: rest, key => if k = key then some v else alookup rest key

/-- Association-list update, mirroring Python `d[k] = v`: replaces in place
when the key is present, appends at the end when it is new (dict insertion
order). -/
def aset {κ β : Type} [DecidableEq κ] : List (κ × β) → κ → β → List (κ × β)
  | [], key, v => [(key, v)]
  | (k, w) :: rest, key, v =>
      if k = key then (k, v) :: rest else (k, w) :: aset rest key v

/-- Association-list removal, mirroring Python `del d[k]` on a dict whose keys
are unique (the caller checks presence where Python would raise KeyError). -/
def adel {κ β : Type} [DecidableEq κ] : List (κ × β) → κ → List (κ × β)
  | [], _ => []
  | (k, w) :: rest, key => if k = key then rest else (k, w) :: adel rest key

/-- The keys of an association list, in insertion order (Python dict
iteration order). -/
def akeys {κ β : Type} (l : List (κ × β)) : List κ := l.map Prod.fst

/-- Errors a Python run can raise, as bare tags.  `fuelExhausted` stands for a
loop that would not terminate (or fuel that ran out); it corresponds to no
Python exception. -/
inductive PyErr : Type
  | nodeNotFoundError
  | nodeInputError
  | keyError
  | indexError
  | valueError
  | assertionError
  | fuelExhausted
deriving DecidableEq, Repr

instance {ε α : Type} [DecidableEq ε] [DecidableEq α] : DecidableEq (Except ε α) := by
  intro a b
  cases a <;> cases b <;>
    first
      | (apply isFalse; intro h; exact Except.noConfusion h)
      | · rename_i x y
          by_cases h : x = y
          · subst h; exact isTrue rfl
          · apply isFalse; intro hc; cases hc; exact h rfl

/-- An input value of a node: either an opaque constant or a link
`[producer_node_id, producer_socket]`.  Modelled from the spec: the test
`graph_utils.is_link` is not part of the source tree; the spec defines
`Link = (producer_node_ref, producer_socket_index)` and `Value` as an opaque
constant payload. -/
inductive InputVal : Type
  | const (payload : String)
  | link (from_node_id : String) (from_socket : Nat)
deriving DecidableEq, Repr

/-- Modelled from the spec: `graph_utils.is_link` (not under src/) recognises
exactly the two-element link shape. -/
def is_link : InputVal → Bool
  | .link _ _ => true
  | .const _ => false

/-- A node record `{class_type, inputs}` as stored in the prompt. -/
structure NodeRecord : Type where
  class_type : String
  inputs : List (String × InputVal)
deriving DecidableEq, Repr

/-- `DynamicPrompt`: the original graph plus runtime-injected ephemeral
nodes with their parent/display ancestry. -/
structure DynamicPrompt : Type where
  original_prompt : List (String × NodeRecord)
  ephemeral_prompt : List (String × NodeRecord)
  ephemeral_parents : List (String × String)
  ephemeral_display : List (String × String)
deriving DecidableEq, Repr

/-- `DynamicPrompt.get_node`: ephemeral map first, then original, else
`NodeNotFoundError`. -/
def get_node (dp : DynamicPrompt) (node_id : String) : Except PyErr NodeRecord :=
  match alookup dp.ephemeral_prompt node_id with
  | some r => .ok r
  | none =>
      match alookup dp.original_prompt node_id with
      | some r => .ok r
      | none => .error .nodeNotFoundError

/-- `DynamicPrompt.has_node`. -/
def has_node (dp : DynamicPrompt) (node_id : String) : Bool :=
  (alookup dp.original_prompt node_id).isSome || (alookup dp.ephemeral_prompt node_id).isSome

/-- The `while node_id in m: node_id = m[node_id]` chase shared by
`get_real_node_id` and `get_display_node_id`.  `none` means the fuel ran out,
i.e. the Python loop would still be running (possible only on a cyclic
ancestry map, which the spec rules out). -/
def chase (m : List (String × String)) : Nat → String → Option String
  | 0, _ => none
  | fuel + 1, i =>
      match alookup m i with
      | none => some i
      | some j => chase m fuel j

/-- `DynamicPrompt.get_real_node_id`: follow `ephemeral_parents` to fixpoint. -/
def get_real_node_id (dp : DynamicPrompt) (node_id : String) : Option String :=
  chase dp.ephemeral_parents (dp.ephemeral_parents.length + 1) node_id

/-- `DynamicPrompt.get_parent_node_id`. -/
def get_parent_node_id (dp : DynamicPrompt) (node_id : String) : Option String :=
  alookup dp.ephemeral_parents node_id

/-- `DynamicPrompt.get_display_node_id`: follow `ephemeral_display` to
fixpoint. -/
def get_display_node_id (dp : DynamicPrompt) (node_id : String) : Option String :=
  chase dp.ephemeral_display (dp.ephemeral_display.length + 1) node_id

/-- The per-input extra options dict (`InputTypeOptions`).  Only truthiness of
the stored values matters to the scheduler (the `lazy` check), so values are
modelled as the Bool Python truthiness would yield. -/
def ExtraInfo : Type := List (String × Bool)
deriving DecidableEq, Repr

/-- A declared input: the tuple `(type,)` or `(type, options)` of
`INPUT_TYPES()`; `extra = none` models the 1-tuple whose options default
to `{}`. -/
structure InputDecl : Type where
  itype : String
  extra : Option ExtraInfo
deriving DecidableEq, Repr

/-- The `INPUT_TYPES()` dict; each category key may be absent. -/
structure InputSchema : Type where
  required : Option (List (String × InputDecl))
  optional : Option (List (String × InputDecl))
  hidden : Option (List (String × InputDecl))
deriving DecidableEq, Repr

/-- Modelled from the spec: a node class as found in the external registry
`nodes.NODE_CLASS_MAPPINGS` (not under src/): its input schema and its
`OUTPUT_NODE` marker (`is_output_node(class_type) → bool` in the spec). -/
structure NodeClass : Type where
  input_types : InputSchema
  output_node : Bool
deriving DecidableEq, Repr

/-- Modelled from the spec: the injected node-type metadata provider, i.e.
the registry mapping a class name to its metadata. -/
structure Env : Type where
  registry : List (String × NodeClass)
deriving DecidableEq, Repr

/-- The category a resolved input came from. -/
inductive InputCat : Type
  | required
  | optional
  | hidden
deriving DecidableEq, Repr

/-- Module-level `get_input_info(class_def, input_name)`: the
required/optional/hidden cascade; `none` models the `(None, None, None)`
triple, and a missing options tuple yields `{}`. -/
def get_input_info (class_def : NodeClass) (input_name : String) :
    Option (String × InputCat × ExtraInfo) :=
  match class_def.input_types.required.bind (fun m => alookup m input_name) with
  | some d => some (d.itype, InputCat.required, d.extra.getD [])
  | none =>
      match class_def.input_types.optional.bind (fun m => alookup m input_name) with
      | some d => some (d.itype, InputCat.optional, d.extra.getD [])
      | none =>
          match class_def.input_types.hidden.bind (fun m => alookup m input_name) with
          | some d => some (d.itype, InputCat.hidden, d.extra.getD [])
          | none => none

/-- The mutable state of an `ExecutionList` (which extends `TopologicalSort`),
flattened into one record: pending set (dict keys in insertion order), block
counts, forward blocking edges `producer ↦ consumer ↦ socket ↦ True`, the
stored result-cache collaborator, the staged slot and the batching group. -/
structure ExecState : Type where
  pendingNodes : List String
  blockCount : List (String × Int)
  blocking : List (String × List (String × List (Nat × Bool)))
  output_cache : List String
  staged_node_id : Option String
  current_group_class : Option String
deriving DecidableEq, Repr

/-- `ExecutionList.__init__(dynprompt, output_cache)` composed with
`TopologicalSort.__init__`: empty maps, empty slot, no current group. -/
def initState (output_cache : List String) : ExecState :=
  { pendingNodes := [], blockCount := [], blocking := [],
    output_cache := output_cache, staged_node_id := none,
    current_group_class := none }

/-- `TopologicalSort.is_cached`: the source returns `False` unconditionally,
and `ExecutionList` in this file does not override it (the stored
`output_cache` is never consulted). -/
def is_cached (_s : ExecState) (_node_id : String) : Bool := false

/-- `TopologicalSort.get_input_info(unique_id, input_name)`: resolve the
node's class in the registry (KeyError when absent) and delegate. -/
def ts_get_input_info (env : Env) (dp : DynamicPrompt) (unique_id input_name : String) :
    Except PyErr (Option (String × InputCat × ExtraInfo)) := do
  let r ← get_node dp unique_id
  match alookup env.registry r.class_type with
  | none => .error .keyError
  | some class_def => .ok (get_input_info class_def input_name)

/-- A pending strong edge `(from_node_id, from_socket, to_node_id)` recorded
during `add_node`'s reachability walk. -/
structure Link : Type where
  from_node_id : String
  from_socket : Nat
  to_node_id : String
deriving DecidableEq, Repr

/-- The per-node input scan of `add_node`'s worklist body: for each input of
`unique_id`, in declaration order, collect the worklist pushes and the strong
links exactly when the input is a link, inside the subgraph restriction, not
skipped as lazy, and its producer is not cached. -/
def collect_inputs (env : Env) (dp : DynamicPrompt) (include_lazy : Bool)
    (subgraph_nodes : Option (List String)) (s : ExecState) (unique_id : String) :
    List (String × InputVal) → Except PyErr (List String × List Link)
  | [] => .ok ([], [])
  | (input_name, value) :: rest => do
      let (ps, ls) ←
        match value with
        | .const _ => pure (([] : List String), ([] : List Link))
        | .link from_node_id from_socket =>
            if subgraph_nodes.isSome ∧ from_node_id ∉ subgraph_nodes.getD [] then
              pure ([], [])
            else do
              let input_info ← ts_get_input_info env dp unique_id input_name
              let is_lazy :=
                match input_info with
                | some (_, _, extra) => (alookup extra "lazy").getD false
                | none => false
              if (include_lazy || !is_lazy) && !(is_cached s from_node_id) then
                pure ([from_node_id], [⟨from_node_id, from_socket, unique_id⟩])
              else
                pure ([], [])
      let (prest, lrest) ← collect_inputs env dp include_lazy subgraph_nodes s unique_id rest
      .ok (ps ++ prest, ls ++ lrest)

/-- `add_node`'s worklist loop (the `while len(node_ids) > 0` phase): pops
from the end of the Python list, so the model keeps the stack top at the list
head and prepends the reversed pushes.  Visiting a fresh node appends it to
the pending set with `blockCount = 0` and an empty blocking row. -/
def scan (env : Env) (dp : DynamicPrompt) (include_lazy : Bool)
    (subgraph_nodes : Option (List String)) :
    Nat → List String → List Link → ExecState → Except PyErr (ExecState × List Link)
  | 0, _, _, _ => .error .fuelExhausted
  | _ + 1, [], links, s => .ok (s, links)
  | fuel + 1, unique_id :: stack, links, s =>
      if unique_id ∈ s.pendingNodes then
        scan env dp include_lazy subgraph_nodes fuel stack links s
      else
        let s1 : ExecState :=
          { s with pendingNodes := s.pendingNodes ++ [unique_id],
                   blockCount := aset s.blockCount unique_id 0,
                   blocking := aset s.blocking unique_id [] }
        match get_node dp unique_id with
        | .error e => .error e
        | .ok r =>
            match collect_inputs env dp include_lazy subgraph_nodes s1 unique_id r.inputs with
            | .error e => .error e
            | .ok (pushes, newLinks) =>
                scan env dp include_lazy subgraph_nodes fuel
                  (pushes.reverse ++ stack) (links ++ newLinks) s1

/-- Fuel that dominates the worklist potential of `scan`: one unit per stack
slot plus, per node of the prompt, one visit and one push per declared
input. -/
def scanFuel (dp : DynamicPrompt) : Nat :=
  2 + (dp.original_prompt ++ dp.ephemeral_prompt).foldl
        (fun acc p => acc + 1 + p.2.inputs.length) 0

/-- Recursion-depth fuel for the mutual `add_node` / `add_strong_link`
recursion (the real depth is at most two, since every producer folded over is
already pending; any bound of that size or more is conservative). -/
def nodeFuel (dp : DynamicPrompt) : Nat :=
  dp.original_prompt.length + dp.ephemeral_prompt.length + 2

/-- The mutation step of `add_strong_link` after the producer was added:
`blocking[from][to][socket] = True`, incrementing `blockCount[to]` exactly on
the first insertion for the `(from, to)` pair.  Missing rows or counts are
the KeyErrors Python would raise. -/
def branch_update (s : ExecState) (from_node_id : String) (from_socket : Nat)
    (to_node_id : String) : Except PyErr ExecState := do
  let row ←
    match alookup s.blocking from_node_id with
    | some row => pure row
    | none => .error PyErr.keyError
  match alookup row to_node_id with
  | none => do
      let c ←
        match alookup s.blockCount to_node_id with
        | some c => pure c
        | none => .error PyErr.keyError
      .ok { s with
              blocking := aset s.blocking from_node_id
                (aset row to_node_id [(from_socket, true)]),
              blockCount := aset s.blockCount to_node_id (c + 1) }
  | some socks =>
      .ok { s with
              blocking := aset s.blocking from_node_id
                (aset row to_node_id (aset socks from_socket true)) }

/-- The body of `add_strong_link`, abstracted over the `add_node` call it
makes (to tie the fuel-indexed recursion): skip entirely when the producer is
cached, else ensure the producer is present and record the edge. -/
def strong_link_core (addN : String → ExecState → Except PyErr ExecState)
    (from_node_id : String) (from_socket : Nat) (to_node_id : String)
    (s : ExecState) : Except PyErr ExecState :=
  if is_cached s from_node_id then .ok s
  else do
    let s1 ← addN from_node_id s
    branch_update s1 from_node_id from_socket to_node_id

/-- `TopologicalSort.add_node` at explicit recursion depth: run the worklist
scan, then fold `add_strong_link` over the recorded links (which calls
`add_node` with default arguments `include_lazy=False, subgraph_nodes=None`). -/
def add_nodeF (env : Env) (dp : DynamicPrompt) :
    Nat → Bool → Option (List String) → String → ExecState → Except PyErr ExecState
  | 0, _, _, _, _ => .error .fuelExhausted
  | fuel + 1, include_lazy, subgraph_nodes, node_unique_id, s => do
      let (s1, links) ←
        scan env dp include_lazy subgraph_nodes (scanFuel dp) [node_unique_id] [] s
      links.foldlM
        (fun st l =>
          strong_link_core (add_nodeF env dp fuel false none)
            l.from_node_id l.from_socket l.to_node_id st)
        s1

/-- `TopologicalSort.add_node`. -/
def add_node (env : Env) (dp : DynamicPrompt) (include_lazy : Bool)
    (subgraph_nodes : Option (List String)) (node_unique_id : String)
    (s : ExecState) : Except PyErr ExecState :=
  add_nodeF env dp (nodeFuel dp) include_lazy subgraph_nodes node_unique_id s

/-- `TopologicalSort.add_strong_link(from_node_id, from_socket, to_node_id)`. -/
def add_strong_link (env : Env) (dp : DynamicPrompt) (from_node_id : String)
    (from_socket : Nat) (to_node_id : String) (s : ExecState) :
    Except PyErr ExecState :=
  strong_link_core (add_nodeF env dp (nodeFuel dp) false none)
    from_node_id from_socket to_node_id s

/-- `TopologicalSort.make_input_strong_link(to_node_id, to_input)`: fails with
`NodeInputError` when the input is absent or constant, else forwards the
link. -/
def make_input_strong_link (env : Env) (dp : DynamicPrompt) (to_node_id to_input : String)
    (s : ExecState) : Except PyErr ExecState := do
  let r ← get_node dp to_node_id
  match alookup r.inputs to_input with
  | none => .error .nodeInputError
  | some value =>
      match value with
      | .const _ => .error .nodeInputError
      | .link from_node_id from_socket =>
          add_strong_link env dp from_node_id from_socket to_node_id s

/-- The list comprehension of `get_ready_nodes`, parameterised by the fields
it reads. -/
def ready_list (blockCount : List (String × Int)) : List String → Except PyErr (List String)
  | [] => .ok []
  | n :: rest => do
      let c ←
        match alookup blockCount n with
        | some c => pure c
        | none => .error PyErr.keyError
      let r ← ready_list blockCount rest
      .ok (if c = 0 then n :: r else r)

/-- `TopologicalSort.get_ready_nodes`: pending nodes with `blockCount == 0`,
in pending-set insertion order. -/
def get_ready_nodes (s : ExecState) : Except PyErr (List String) :=
  ready_list s.blockCount s.pendingNodes

/-- The decrement loop of `pop_node`: one decrement per dependent recorded in
the popped node's blocking row. -/
def dec_all (blockCount : List (String × Int)) :
    List (String × List (Nat × Bool)) → Except PyErr (List (String × Int))
  | [] => .ok blockCount
  | (t, _) :: rest => do
      let c ←
        match alookup blockCount t with
        | some c => pure c
        | none => .error PyErr.keyError
      dec_all (aset blockCount t (c - 1)) rest

/-- `TopologicalSort.pop_node(unique_id)`: delete from pending (KeyError when
absent), decrement every dependent in the node's blocking row once, delete the
row.  Stale `blockCount` entries are kept, exactly like the source. -/
def pop_node (s : ExecState) (unique_id : String) : Except PyErr ExecState := do
  if unique_id ∈ s.pendingNodes then
    match alookup s.blocking unique_id with
    | none => .error .keyError
    | some row => do
        let bc ← dec_all s.blockCount row
        .ok { s with pendingNodes := s.pendingNodes.erase unique_id,
                     blockCount := bc,
                     blocking := adel s.blocking unique_id }
  else .error .keyError

/-- `TopologicalSort.is_empty`. -/
def is_empty (s : ExecState) : Bool := s.pendingNodes.length = 0

/-- Code-point comparison of characters (Python string comparison is by code
point), in a form the kernel evaluates. -/
def chr_lt (c d : Char) : Bool := decide (c.val < d.val)

/-- Structural lexicographic comparison of character lists; agrees with the
`List Char` order underlying `String`'s order (proved below) but evaluates by
kernel reduction. -/
def charlist_lt : List Char → List Char → Bool
  | [], [] => false
  | [], _ :: _ => true
  | _ :: _, [] => false
  | c :: cs, d :: ds =>
      if chr_lt c d then true else if chr_lt d c then false else charlist_lt cs ds

/-- Executable rendering of `String` lexicographic `<`. -/
def str_lt (a b : String) : Bool := charlist_lt a.data b.data

/-- Python `max(counts.items(), key=lambda kv: (kv[1], kv[0]))` replaces the
running best exactly when the candidate's key `(count, name)` is strictly
greater; on equal keys the earlier item is kept. -/
def kv_gt (x best : String × Nat) : Bool :=
  decide (best.2 < x.2) || (decide (x.2 = best.2) && str_lt best.1 x.1)

/-- The fold realising Python `max` with the `(count, name)` key. -/
def max_loop (best : String × Nat) : List (String × Nat) → String × Nat
  | [] => best
  | x :: rest => max_loop (if kv_gt x best then x else best) rest

/-- The `counts` dict of `_pick_largest_group`, built in first-occurrence
order; `get_node` failures propagate as in Python. -/
def build_counts (dp : DynamicPrompt) : List String → List (String × Nat) →
    Except PyErr (List (String × Nat))
  | [], counts => .ok counts
  | nid :: rest, counts => do
      let r ← get_node dp nid
      build_counts dp rest (aset counts r.class_type ((alookup counts r.class_type).getD 0 + 1))

/-- `ExecutionList._pick_largest_group(node_list)`: the class_type with the
most representatives, ties resolved through the `(count, name)` key of `max`;
`max` of an empty sequence is Python's ValueError. -/
def pick_largest_group (dp : DynamicPrompt) (node_list : List String) :
    Except PyErr String := do
  let counts ← build_counts dp node_list []
  match counts with
  | [] => .error .valueError
  | c0 :: rest => .ok (max_loop c0 rest).1

/-- `ExecutionList._filter_by_group(node_list, group_cls)`: keep the nodes of
the given class (comparison against `None` is always false). -/
def filter_by_group (dp : DynamicPrompt) (group_cls : Option String) :
    List String → Except PyErr (List String)
  | [] => .ok []
  | nid :: rest => do
      let r ← get_node dp nid
      let keep : Bool := match group_cls with
        | some g => decide (r.class_type = g)
        | none => false
      let tail ← filter_by_group dp group_cls rest
      .ok (if keep then nid :: tail else tail)

/-- The `any(get_node(nid)["class_type"] == group for nid in node_list)`
generator, with Python's short-circuit evaluation order. -/
def any_class (dp : DynamicPrompt) (group : String) : List String → Except PyErr Bool
  | [] => .ok false
  | nid :: rest => do
      let r ← get_node dp nid
      if r.class_type = group then .ok true else any_class dp group rest

/-- The local `is_output(node_id)` helper of `ux_friendly_pick_node`:
`OUTPUT_NODE` of the node's class in the registry. -/
def is_output (env : Env) (dp : DynamicPrompt) (node_id : String) : Except PyErr Bool := do
  let r ← get_node dp node_id
  match alookup env.registry r.class_type with
  | none => .error .keyError
  | some class_def => .ok class_def.output_node

/-- Tier 1 of the heuristic: the first candidate that is itself an output
node. -/
def find_output (env : Env) (dp : DynamicPrompt) : List String → Except PyErr (Option String)
  | [] => .ok none
  | nid :: rest => do
      let b ← is_output env dp nid
      if b then .ok (some nid) else find_output env dp rest

/-- `any is_output over the keys of a blocking row`, in row order. -/
def any_output_row (env : Env) (dp : DynamicPrompt) :
    List (String × List (Nat × Bool)) → Except PyErr Bool
  | [] => .ok false
  | (blocked, _) :: rest => do
      let b ← is_output env dp blocked
      if b then .ok true else any_output_row env dp rest

/-- Tier 2: the first candidate that directly blocks an output node
(`for blocked in self.blocking[nid]`; a missing row is Python's KeyError). -/
def find_tier2 (env : Env) (dp : DynamicPrompt)
    (blocking : List (String × List (String × List (Nat × Bool)))) :
    List String → Except PyErr (Option String)
  | [] => .ok none
  | nid :: rest => do
      match alookup blocking nid with
      | none => .error PyErr.keyError
      | some row => do
          let b ← any_output_row env dp row
          if b then .ok (some nid) else find_tier2 env dp blocking rest

/-- The inner two-hop test of tier 3 over one blocking row. -/
def any_output_row2 (env : Env) (dp : DynamicPrompt)
    (blocking : List (String × List (String × List (Nat × Bool)))) :
    List (String × List (Nat × Bool)) → Except PyErr Bool
  | [] => .ok false
  | (blocked, _) :: rest => do
      match alookup blocking blocked with
      | none => .error PyErr.keyError
      | some row2 => do
          let b ← any_output_row env dp row2
          if b then .ok true else any_output_row2 env dp blocking rest

/-- Tier 3: the first candidate that blocks a node that blocks an output
node. -/
def find_tier3 (env : Env) (dp : DynamicPrompt)
    (blocking : List (String × List (String × List (Nat × Bool)))) :
    List String → Except PyErr (Option String)
  | [] => .ok none
  | nid :: rest => do
      match alookup blocking nid with
      | none => .error PyErr.keyError
      | some row => do
          let b ← any_output_row2 env dp blocking row
          if b then .ok (some nid) else find_tier3 env dp blocking rest

/-- Step 1 of `ux_friendly_pick_node`: when there is no current group, or no
node of the ready list belongs to it, re-select it as the largest group (the
Magix debug print has no functional effect and is omitted). -/
def ensure_current_group (dp : DynamicPrompt) (s : ExecState) (node_list : List String) :
    Except PyErr ExecState := do
  let need_repick ←
    match s.current_group_class with
    | none => pure true
    | some g => do
        let b ← any_class dp g node_list
        pure (!b)
  if need_repick then do
    let g ← pick_largest_group dp node_list
    pure { s with current_group_class := some g }
  else pure s

/-- The three-tier output-priority cascade over the candidate list,
defaulting to `candidates[0]` (IndexError when empty). -/
def heuristic_pick (env : Env) (dp : DynamicPrompt)
    (blocking : List (String × List (String × List (Nat × Bool))))
    (candidates : List String) : Except PyErr String := do
  match ← find_output env dp candidates with
  | some nid => .ok nid
  | none =>
    match ← find_tier2 env dp blocking candidates with
    | some nid => .ok nid
    | none =>
      match ← find_tier3 env dp blocking candidates with
      | some nid => .ok nid
      | none =>
        match candidates with
        | [] => .error .indexError
        | c :: _ => .ok c

/-- `ExecutionList.ux_friendly_pick_node(node_list)`: re-select the current
group when absent from the ready set, filter the candidates to that group,
then pick by the tier cascade. -/
def ux_friendly_pick_node (env : Env) (dp : DynamicPrompt) (s : ExecState)
    (node_list : List String) : Except PyErr (String × ExecState) := do
  let s ← ensure_current_group dp s node_list
  let candidates ← filter_by_group dp s.current_group_class node_list
  let nid ← heuristic_pick env dp s.blocking candidates
  .ok (nid, s)

/-- The error dict returned alongside a `DependencyCycleError`. -/
structure ErrPayload : Type where
  node_id : String
  exception_message : String
  exception_type : String
  traceback : List String
  current_inputs : List String
deriving DecidableEq, Repr

/-- The exception value returned as third component by
`stage_node_execution`. -/
inductive ExnVal : Type
  | dependencyCycleError (message : String)
deriving DecidableEq, Repr

/-- The blame loop of the cycle branch: the display id of the first member
whose display id differs from its own id, defaulting to the first member.  A
diverging display chase is the (spec-excluded) non-terminating loop. -/
def blame_loop (dp : DynamicPrompt) (acc : String) : List String → Except PyErr String
  | [] => .ok acc
  | nid :: rest => do
      match get_display_node_id dp nid with
      | none => .error PyErr.fuelExhausted
      | some disp =>
          if disp ≠ nid then .ok disp else blame_loop dp acc rest

/-- `True in blocking[from][to].values()`. -/
def any_true_sock (socks : List (Nat × Bool)) : Bool := socks.any (fun p => p.2)

/-- The reverse-adjacency accumulation of `get_nodes_in_cycle` over one
blocking row: `blocked_by[to][from] = True` for every true-socketed edge
(KeyError when `to` has no `blocked_by` entry). -/
def bb_add_row (from_node_id : String) :
    List (String × List String) → List (String × List (Nat × Bool)) →
    Except PyErr (List (String × List String))
  | bb, [] => .ok bb
  | bb, (to_node_id, socks) :: rest =>
      if any_true_sock socks then
        match alookup bb to_node_id with
        | none => .error PyErr.keyError
        | some l =>
            bb_add_row from_node_id
              (aset bb to_node_id (if from_node_id ∈ l then l else l ++ [from_node_id])) rest
      else bb_add_row from_node_id bb rest

/-- Build `blocked_by` from the pending set and the blocking rows. -/
def build_blocked_by_rows :
    List (String × List String) → List (String × List (String × List (Nat × Bool))) →
    Except PyErr (List (String × List String))
  | bb, [] => .ok bb
  | bb, (from_node_id, row) :: rest => do
      let bb1 ← bb_add_row from_node_id bb row
      build_blocked_by_rows bb1 rest

/-- The full `blocked_by` construction of `get_nodes_in_cycle`. -/
def build_blocked_by (s : ExecState) : Except PyErr (List (String × List String)) :=
  build_blocked_by_rows (s.pendingNodes.map (fun n => (n, ([] : List String)))) s.blocking

/-- `[node_id for node_id in blocked_by if len(blocked_by[node_id]) == 0]`. -/
def to_remove_of (bb : List (String × List String)) : List String :=
  akeys (bb.filter (fun p => p.2.isEmpty))

/-- One removal of the peeling loop: delete `n` from every `blocked_by` set,
then delete `n`'s own entry. -/
def remove_one (bb : List (String × List String)) (n : String) :
    List (String × List String) :=
  adel (bb.map (fun p => (p.1, p.2.erase n))) n

/-- Process one batch `to_remove`, in order, as the inner `for` loop does. -/
def remove_all (bb : List (String × List String)) (ns : List String) :
    List (String × List String) :=
  ns.foldl remove_one bb

/-- The Kahn peeling of `get_nodes_in_cycle`, to fixpoint.  Each productive
round deletes at least one key, so `bb.length + 1` fuel always reaches the
fixpoint. -/
def peel : Nat → List (String × List String) → List (String × List String)
  | 0, bb => bb
  | fuel + 1, bb =>
      let tr := to_remove_of bb
      if tr.isEmpty then bb else peel fuel (remove_all bb tr)

/-- `ExecutionList.get_nodes_in_cycle`. -/
def get_nodes_in_cycle (s : ExecState) : Except PyErr (List String) := do
  let bb ← build_blocked_by s
  .ok (akeys (peel (bb.length + 1) bb))

/-- `ExecutionList.stage_node_execution()`: assert the slot is empty; report
run completion, or a `DependencyCycleError` blaming a member of the peeled
set (without touching the slot), or stage the heuristically picked ready
node. -/
def stage_node_execution (env : Env) (dp : DynamicPrompt) (s : ExecState) :
    Except PyErr ((Option String × Option ErrPayload × Option ExnVal) × ExecState) := do
  match s.staged_node_id with
  | some _ => .error .assertionError
  | none =>
    if is_empty s then .ok ((none, none, none), s)
    else do
      let available ← get_ready_nodes s
      if available.isEmpty then do
        let cycled_nodes ← get_nodes_in_cycle s
        let first ←
          match cycled_nodes with
          | [] => .error PyErr.indexError
          | c :: _ => pure c
        let blamed_node ← blame_loop dp first cycled_nodes
        .ok ((none,
              some { node_id := blamed_node,
                     exception_message := "Dependency cycle detected",
                     exception_type := "graph.DependencyCycleError",
                     traceback := [],
                     current_inputs := [] },
              some (.dependencyCycleError "Dependency cycle detected")), s)
      else do
        let (nid, s1) ← ux_friendly_pick_node env dp s available
        .ok ((some nid, none, none), { s1 with staged_node_id := some nid })

/-- `ExecutionList.unstage_node_execution()`: clear the slot only; the
current group is deliberately kept. -/
def unstage_node_execution (s : ExecState) : ExecState :=
  { s with staged_node_id := none }

/-- `ExecutionList.complete_node_execution()`: assert a node is staged, pop
it, clear the slot, keep the group. -/
def complete_node_execution (s : ExecState) : Except PyErr ExecState :=
  match s.staged_node_id with
  | none => .error .assertionError
  | some nid => do
      let s1 ← pop_node s nid
      .ok { s1 with staged_node_id := none }

/-- Concrete prompt for the C10 witness: original node `P`, ephemeral chain
`e2 → e1 → P` in both ancestry maps. -/
def dpW : DynamicPrompt :=
  { original_prompt := [("P", ⟨"K", []⟩)],
    ephemeral_prompt := [("e1", ⟨"K", []⟩), ("e2", ⟨"K", []⟩)],
    ephemeral_parents := [("e2", "e1"), ("e1", "P")],
    ephemeral_display := [("e2", "e1"), ("e1", "P")] }

/-- A rank function witnessing well-foundedness of `dpW`'s parent chains. -/
def rankW (a : String) : Nat := if a = "e2" then 2 else if a = "e1" then 1 else 0

/-- Registry with the single class `K` for the cache example. -/
def envC4 : Env := ⟨[("K", ⟨⟨none, none, none⟩, false⟩)]⟩

/-- A one-node graph whose only node the result cache already reports
satisfied. -/
def dpC4 : DynamicPrompt := ⟨[("N", ⟨"K", []⟩)], [], [], []⟩

/-- The state `add_node` produces on it. -/
def c4state : ExecState :=
  (add_node envC4 dpC4 false none "N" (initState ["N"])).toOption.getD (initState ["N"])

/-- Two-node prompt with tied single-representative classes `A` and `B`. -/
def dpC1 : DynamicPrompt :=
  ⟨[("n1", ⟨"A", []⟩), ("n2", ⟨"B", []⟩), ("n3", ⟨"A", []⟩)], [], [], []⟩

/-- Two-node prompt for the idempotence witness: a producer `P` and a
consumer `X`, both inputless. -/
def dpC6 : DynamicPrompt :=
  ⟨[("P", ⟨"K", []⟩), ("X", ⟨"K", []⟩)], [], [], []⟩

/-- Registry for `dpC6`. -/
def envC6 : Env := ⟨[("K", ⟨⟨none, none, none⟩, false⟩)]⟩

/-- State with `X` pending. -/
def c6state0 : ExecState :=
  (add_node envC6 dpC6 false none "X" (initState [])).toOption.getD (initState [])

/-- State after one `add_strong_link("P", 0, "X")`. -/
def c6state1 : ExecState :=
  (add_strong_link envC6 dpC6 "P" 0 "X" c6state0).toOption.getD (initState [])

/-- Three-node prompt for the unstage round-trip witness: two nodes of class
`X`, one of class `Y`, no edges. -/
def dpC7 : DynamicPrompt :=
  ⟨[("x1", ⟨"X", []⟩), ("x2", ⟨"X", []⟩), ("y1", ⟨"Y", []⟩)], [], [], []⟩

/-- Registry for `dpC7`. -/
def envC7 : Env :=
  ⟨[("X", ⟨⟨none, none, none⟩, false⟩), ("Y", ⟨⟨none, none, none⟩, false⟩)]⟩

/-- All three nodes pending. -/
def c7state0 : ExecState :=
  (do
    let s ← add_node envC7 dpC7 false none "x1" (initState [])
    let s ← add_node envC7 dpC7 false none "x2" s
    add_node envC7 dpC7 false none "y1" s).toOption.getD (initState [])

/-- The state after the first successful stage. -/
def c7state1 : ExecState :=
  ((stage_node_execution envC7 dpC7 c7state0).toOption.getD
    ((none, none, none), initState [])).2

/-- The dependency relation of a `blocked_by` graph: `blocked_by_rel bb n m`
holds when `m` is recorded as blocking `n`, i.e. `n` depends on `m`. -/
def blocked_by_rel (bb : List (String × List String)) (n m : String) : Prop :=
  m ∈ (alookup bb n).getD []

/-- `n` lies on a dependency cycle of `bb`, or transitively depends on a node
that does. -/
def reaches_cycle (bb : List (String × List String)) (n : String) : Prop :=
  ∃ m, Relation.ReflTransGen (blocked_by_rel bb) n m ∧
    Relation.TransGen (blocked_by_rel bb) m m

/-- Structural well-formedness of a `blocked_by` graph: unique keys, duplicate
free blocker sets, blockers drawn from the keys. -/
def bb_wf (bb : List (String × List String)) : Prop :=
  (akeys bb).Nodup ∧ (∀ p ∈ bb, p.2.Nodup) ∧
  (∀ p ∈ bb, ∀ m ∈ p.2, m ∈ akeys bb)

/-- The three-node prompt whose node `C` consumes the two-cycle `A ↔ B`:
`C`'s input links from `A`, `A`'s from `B`, `B`'s from `A`. -/
def dpC2 : DynamicPrompt :=
  ⟨[("C", ⟨"K", [("a", .link "A" 0)]⟩),
    ("A", ⟨"K", [("a", .link "B" 0)]⟩),
    ("B", ⟨"K", [("a", .link "A" 0)]⟩)], [], [], []⟩

/-- Registry for `dpC2`: class `K` with the single required link input `a`. -/
def envC2 : Env := ⟨[("K", ⟨⟨some [("a", ⟨"T", none⟩)], none, none⟩, false⟩)]⟩

/-- The scheduler state after `add_node("C")` on `dpC2`. -/
def c2state : ExecState :=
  (add_node envC2 dpC2 false none "C" (initState [])).toOption.getD (initState [])

/-- The `blocked_by` graph `get_nodes_in_cycle` builds on `c2state`. -/
def c2bb : List (String × List String) :=
  (build_blocked_by c2state).toOption.getD []

/-- The dependency relation of a scheduler state: `dep_rel s n m` holds when
`m`'s blocking row records `n` behind at least one true socket — `n` depends
on `m`. -/
def dep_rel (s : ExecState) (n m : String) : Prop :=
  ∃ row, alookup s.blocking m = some row ∧
    ∃ socks, alookup row n = some socks ∧ any_true_sock socks = true

/-- The invariant the peeling loop preserves relative to the initial
`blocked_by` graph `bb0`: the current graph is structurally well formed, its
keys and edges are among the original ones, it is closed under blockers, and
every node that can reach a cycle of `bb0` is still present together with a
cycle-reaching blocker. -/
def peel_inv (bb0 cur : List (String × List String)) : Prop :=
  (akeys cur).Nodup ∧
  (∀ p ∈ cur, p.2.Nodup) ∧
  (∀ k ∈ akeys cur, k ∈ akeys bb0) ∧
  (∀ p ∈ cur, ∀ m ∈ p.2, blocked_by_rel bb0 p.1 m) ∧
  (∀ p ∈ cur, ∀ m ∈ p.2, m ∈ akeys cur) ∧
  (∀ n, n ∈ akeys bb0 → reaches_cycle bb0 n → n ∈ akeys cur) ∧
  (∀ n, reaches_cycle bb0 n → ∃ m, reaches_cycle bb0 m ∧ m ∈ (alookup cur n).getD [])

/-- The number of blocking rows whose key set targets `n` — the count
`blockCount[n]` is meant to track. -/
def countTargeting (blocking : List (String × List (String × List (Nat × Bool))))
    (n : String) : Nat :=
  (blocking.filter (fun p => decide (n ∈ akeys p.2))).length

/-- Per-row well-formedness of the blocking map: duplicate-free consumer
keys, consumers pending, and every recorded socket set non-trivially true. -/
def RowsOK (s : ExecState) : Prop :=
  ∀ p ∈ s.blocking, (akeys p.2).Nodup ∧
    ∀ q ∈ p.2, q.1 ∈ s.pendingNodes ∧ any_true_sock q.2 = true

/-- The block-graph state invariant: pending set duplicate free, blocking
rows keyed exactly by the pending nodes, `blockCount` of every pending node
equal to the number of rows targeting it, and rows well formed. -/
def StateInv (s : ExecState) : Prop :=
  s.pendingNodes.Nodup ∧
  akeys s.blocking = s.pendingNodes ∧
  (∀ n ∈ s.pendingNodes, alookup s.blockCount n =
    some ((countTargeting s.blocking n : Int))) ∧
  RowsOK s

/-- States reachable from the initial scheduler by successful operations,
with `add_strong_link` restricted to pending consumers and `pop_node` to
ready nodes (`blockCount` zero) — the discipline the executing driver
follows. -/
inductive Reachable (env : Env) (dp : DynamicPrompt) : ExecState → Prop
  | init : Reachable env dp (initState [])
  | add {s s' : ExecState} {n : String} : Reachable env dp s →
      add_node env dp false none n s = Except.ok s' → Reachable env dp s'
  | strong {s s' : ExecState} {f : String} {sock : Nat} {t : String} :
      Reachable env dp s → t ∈ s.pendingNodes →
      add_strong_link env dp f sock t s = Except.ok s' → Reachable env dp s'
  | pop {s s' : ExecState} {n : String} : Reachable env dp s →
      alookup s.blockCount n = some 0 →
      pop_node s n = Except.ok s' → Reachable env dp s'

/-- Two-node prompt for the lazy-deferral witness: consumer `X` whose single
input `a` links from producer `P`, with `a` declared lazy in the registry. -/
def dpC9 : DynamicPrompt :=
  ⟨[("X", ⟨"KX", [("a", .link "P" 0)]⟩), ("P", ⟨"KP", []⟩)], [], [], []⟩

/-- Registry for `dpC9`: `KX` declares required input `a` with
`lazy: True` in its options; `KP` declares nothing. -/
def envC9 : Env :=
  ⟨[("KX", ⟨⟨some [("a", ⟨"T", some [("lazy", true)]⟩)], none, none⟩, false⟩),
    ("KP", ⟨⟨none, none, none⟩, false⟩)]⟩

/-- The scheduler state after `add_node("X")` on `dpC9`: the lazy edge left
`X` unblocked and `P` untouched. -/
def c9state1 : ExecState := ⟨["X"], [("X", 0)], [("X", [])], [], none, none⟩

/-- The state after `make_input_strong_link("X", "a")` on `c9state1`: `P`
pending and a hard edge `P → X`. -/
def c9state2 : ExecState :=
  ⟨["X", "P"], [("X", 1), ("P", 0)],
    [("X", []), ("P", [("X", [(0, true)])])], [], none, none⟩

/-! Theorems: association-list and chase groundwork, then one theorem per claim. -/

@[simp]
theorem alookup_nil {κ β : Type} [DecidableEq κ] (k : κ) :
    alookup ([] : List (κ × β)) k = none := rfl

@[simp]
theorem alookup_cons {κ β : Type} [DecidableEq κ] (k key : κ) (v : β) (rest : List (κ × β)) :
    alookup ((k, v) :: rest) key = if k = key then some v else alookup rest key := rfl

theorem alookup_aset_self {κ β : Type} [DecidableEq κ] (l : List (κ × β)) (k : κ) (v : β) :
    alookup (aset l k v) k = some v := by
  induction l with
  | nil => simp [aset]
  | cons hd tl ih =>
      obtain ⟨k0, v0⟩ := hd
      by_cases h : k0 = k <;> simp [aset, h, ih]

theorem alookup_aset_ne {κ β : Type} [DecidableEq κ] (l : List (κ × β)) (k k' : κ) (v : β)
    (h : k ≠ k') : alookup (aset l k v) k' = alookup l k' := by
  induction l with
  | nil => simp [aset, alookup, h]
  | cons hd tl ih =>
      obtain ⟨k0, v0⟩ := hd
      by_cases h0 : k0 = k
      · subst h0; simp [aset, alookup, h]
      · simp [aset, h0, alookup, ih]

theorem aset_eq_self {κ β : Type} [DecidableEq κ] (l : List (κ × β)) (k : κ) (v : β)
    (h : alookup l k = some v) : aset l k v = l := by
  induction l with
  | nil => simp [alookup] at h
  | cons hd tl ih =>
      obtain ⟨k0, v0⟩ := hd
      by_cases h0 : k0 = k
      · subst h0
        simp [alookup] at h
        simp [aset, h]
      · simp [alookup, h0] at h
        simp [aset, h0, ih h]

theorem akeys_aset {κ β : Type} [DecidableEq κ] (l : List (κ × β)) (k : κ) (v : β) :
    akeys (aset l k v) = if (alookup l k).isSome then akeys l else akeys l ++ [k] := by
  induction l with
  | nil => simp [aset, akeys, alookup]
  | cons hd tl ih =>
      obtain ⟨k0, v0⟩ := hd
      by_cases h0 : k0 = k
      · subst h0; simp [aset, akeys, alookup]
      · simp [aset, h0, akeys, alookup] at *
        rw [ih]
        by_cases hs : (alookup tl k).isSome <;> simp [hs]

theorem mem_akeys_of_alookup {κ β : Type} [DecidableEq κ] {l : List (κ × β)} {k : κ} {v : β}
    (h : alookup l k = some v) : k ∈ akeys l := by
  induction l with
  | nil => simp [alookup] at h
  | cons hd tl ih =>
      obtain ⟨k0, v0⟩ := hd
      by_cases h0 : k0 = k
      · subst h0; simp [akeys]
      · simp [alookup, h0] at h
        simp [akeys] at *
        exact Or.inr (ih h)

theorem alookup_isSome_of_mem_akeys {κ β : Type} [DecidableEq κ] {l : List (κ × β)} {k : κ}
    (h : k ∈ akeys l) : (alookup l k).isSome := by
  induction l with
  | nil => simp [akeys] at h
  | cons hd tl ih =>
      obtain ⟨k0, v0⟩ := hd
      by_cases h0 : k0 = k
      · subst h0; simp [alookup]
      · simp [akeys, h0] at h
        rcases h with h | h
        · exact absurd h.symm h0
        · simpa [alookup, h0] using ih (by simpa [akeys] using h)

theorem alookup_eq_none_of_not_mem {κ β : Type} [DecidableEq κ] {l : List (κ × β)} {k : κ}
    (h : k ∉ akeys l) : alookup l k = none := by
  cases hl : alookup l k with
  | none => rfl
  | some v => exact absurd (mem_akeys_of_alookup hl) h

theorem chase_skips_unknown (m : List (String × String)) (fuel : Nat) (i : String)
    (h : alookup m i = none) : chase m (fuel + 1) i = some i := by
  simp [chase, h]

theorem chase_result_unmapped (m : List (String × String)) :
    ∀ (fuel : Nat) (i r : String), chase m fuel i = some r → alookup m r = none := by
  intro fuel
  induction fuel with
  | zero => intro i r h; simp [chase] at h
  | succ f ih =>
      intro i r h
      cases hm : alookup m i with
      | none => simp [chase, hm] at h; subst h; exact hm
      | some j => simp [chase, hm] at h; exact ih j r h

theorem chase_follows_chain (m : List (String × String)) :
    ∀ (fuel : Nat) (i r : String), chase m fuel i = some r →
      Relation.ReflTransGen (fun a b => alookup m a = some b) i r := by
  intro fuel
  induction fuel with
  | zero => intro i r h; simp [chase] at h
  | succ f ih =>
      intro i r h
      cases hm : alookup m i with
      | none => simp [chase, hm] at h; subst h; exact Relation.ReflTransGen.refl
      | some j =>
          simp [chase, hm] at h
          exact Relation.ReflTransGen.head hm (ih j r h)

theorem chase_terminates (m : List (String × String)) (rank : String → Nat)
    (hrank : ∀ a b, alookup m a = some b → rank b < rank a) :
    ∀ (fuel : Nat) (i : String), rank i < fuel → (chase m fuel i).isSome := by
  intro fuel
  induction fuel with
  | zero => intro i h; omega
  | succ f ih =>
      intro i h
      cases hm : alookup m i with
      | none => simp [chase, hm]
      | some j =>
          have hj := hrank i j hm
          simp [chase, hm]
          exact ih j (by omega)

/-
Claim C10: ancestry resolution never raises.
-/

/-- C10: `get_real_node_id` and `get_display_node_id` never raise: each
follows its chain and returns an id with no further mapping — in particular
an id unknown to both ancestry maps is returned unchanged immediately, and
the chase terminates whenever the ancestry chains are well-founded (as the
spec's acyclicity invariant guarantees) — whereas `get_node` on an id in
neither prompt map fails with `NodeNotFoundError`. -/
theorem c10_ancestry_resolution_total (dp : DynamicPrompt) (node_id : String) :
    (alookup dp.ephemeral_parents node_id = none →
        get_real_node_id dp node_id = some node_id) ∧
    (alookup dp.ephemeral_display node_id = none →
        get_display_node_id dp node_id = some node_id) ∧
    (∀ r, get_real_node_id dp node_id = some r →
        alookup dp.ephemeral_parents r = none ∧
        Relation.ReflTransGen (fun a b => alookup dp.ephemeral_parents a = some b) node_id r) ∧
    (∀ r, get_display_node_id dp node_id = some r →
        alookup dp.ephemeral_display r = none ∧
        Relation.ReflTransGen (fun a b => alookup dp.ephemeral_display a = some b) node_id r) ∧
    (∀ rank : String → Nat,
        (∀ a b, alookup dp.ephemeral_parents a = some b → rank b < rank a) →
        rank node_id ≤ dp.ephemeral_parents.length →
        (get_real_node_id dp node_id).isSome) ∧
    (alookup dp.ephemeral_prompt node_id = none →
        alookup dp.original_prompt node_id = none →
        get_node dp node_id = Except.error PyErr.nodeNotFoundError) := by
  refine ⟨?_, ?_, ?_, ?_, ?_, ?_⟩
  · intro h; exact chase_skips_unknown _ _ _ h
  · intro h; exact chase_skips_unknown _ _ _ h
  · intro r h
    exact ⟨chase_result_unmapped _ _ _ _ h, chase_follows_chain _ _ _ _ h⟩
  · intro r h
    exact ⟨chase_result_unmapped _ _ _ _ h, chase_follows_chain _ _ _ _ h⟩
  · intro rank hrank hb
    exact chase_terminates _ rank hrank _ _ (by omega)
  · intro h1 h2
    simp [get_node, h1, h2]

theorem c10_witness :
    (get_real_node_id dpW "Q" = some "Q" ∧
     get_node dpW "Q" = Except.error PyErr.nodeNotFoundError) ∧
    (get_real_node_id dpW "e2").isSome ∧
    get_real_node_id dpW "e2" = some "P" := by
  have h := c10_ancestry_resolution_total dpW "Q"
  have h2 := c10_ancestry_resolution_total dpW "e2"
  refine ⟨⟨h.1 (by decide), h.2.2.2.2.2 (by decide) (by decide)⟩, ?_, by decide⟩
  refine h2.2.2.2.2.1 rankW ?_ (by decide)
  intro a b hab
  by_cases ha2 : a = "e2"
  · subst ha2
    have : b = "e1" := by simpa [dpW, alookup] using hab.symm
    subst this; decide
  · by_cases ha1 : a = "e1"
    · subst ha1
      have : b = "P" := by simpa [dpW, alookup] using hab.symm
      subst this; decide
    · simp [dpW, alookup, Ne.symm ha2, Ne.symm ha1] at hab

/-
Claim C4: the result cache is never consulted.
-/

/-- C4: the scheduler does not consult the result cache.  `is_cached` is the
constant-`False` base implementation and `ExecutionList` never overrides it,
so a node the `output_cache` collaborator reports as satisfied is still
placed into the pending set by `add_node`. -/
theorem c4_cached_node_still_added :
    add_node envC4 dpC4 false none "N" (initState ["N"]) = Except.ok c4state ∧
    "N" ∈ c4state.output_cache ∧
    "N" ∈ c4state.pendingNodes ∧
    is_cached c4state "N" = false ∧
    (∀ s : ExecState, ∀ node_id : String, is_cached s node_id = false) :=
  ⟨by decide, by decide, by decide, rfl, fun _ _ => rfl⟩

/-
Claim C1: the tie-break of the grouping heuristic.
-/

theorem chr_lt_true {a b : Char} (h : chr_lt a b = true) : a < b :=
  of_decide_eq_true h

theorem chr_lt_false {a b : Char} (h : chr_lt a b = false) : ¬ a < b :=
  of_decide_eq_false h

theorem charlist_lt_iff :
    ∀ as bs : List Char, charlist_lt as bs = true ↔ List.Lex (· < ·) as bs := by
  intro as
  induction as with
  | nil =>
      intro bs
      cases bs with
      | nil =>
          simp only [charlist_lt]
          constructor
          · intro h; cases h
          · intro h; cases h
      | cons b bs =>
          simp only [charlist_lt]
          exact iff_of_true trivial List.Lex.nil
  | cons a as ih =>
      intro bs
      cases bs with
      | nil =>
          simp only [charlist_lt]
          constructor
          · intro h; cases h
          · intro h; cases h
      | cons b bs =>
          simp only [charlist_lt]
          by_cases hab : chr_lt a b = true
          · rw [if_pos hab]
            exact iff_of_true rfl (List.Lex.rel (chr_lt_true hab))
          · rw [if_neg hab]
            have hab' : ¬ a < b := chr_lt_false (Bool.not_eq_true _ ▸ hab)
            by_cases hba : chr_lt b a = true
            · rw [if_pos hba]
              have hba' : b < a := chr_lt_true hba
              refine iff_of_false Bool.false_ne_true ?_
              intro h
              cases h with
              | cons h => exact absurd hba' (lt_irrefl a)
              | rel h => exact absurd h hab'
            · rw [if_neg hba]
              have hba' : ¬ b < a := chr_lt_false (Bool.not_eq_true _ ▸ hba)
              have heq : a = b := le_antisymm (le_of_not_lt hba') (le_of_not_lt hab')
              subst heq
              rw [ih bs]
              constructor
              · intro h; exact List.Lex.cons h
              · intro h
                cases h with
                | cons h => exact h
                | rel h => exact absurd h (lt_irrefl a)

theorem str_lt_iff (a b : String) : str_lt a b = true ↔ a < b := by
  rw [String.lt_iff_toList_lt]
  exact charlist_lt_iff a.data b.data

theorem str_lt_false_iff (a b : String) : str_lt a b = false ↔ ¬ a < b := by
  constructor
  · intro h hc
    rw [(str_lt_iff a b).mpr hc] at h
    exact Bool.noConfusion h
  · intro h
    cases hs : str_lt a b
    · rfl
    · exact absurd ((str_lt_iff a b).mp hs) h

theorem kv_gt_irrefl (x : String × Nat) : kv_gt x x = false := by
  simp [kv_gt, str_lt_false_iff]

theorem kv_gt_trans {a b c : String × Nat} (h1 : kv_gt a b = true)
    (h2 : kv_gt b c = true) : kv_gt a c = true := by
  simp only [kv_gt, Bool.or_eq_true, Bool.and_eq_true, decide_eq_true_eq,
    str_lt_iff] at *
  rcases h1 with h1 | ⟨h1e, h1s⟩ <;> rcases h2 with h2 | ⟨h2e, h2s⟩
  · exact Or.inl (lt_trans h2 h1)
  · exact Or.inl (by omega)
  · exact Or.inl (by omega)
  · exact Or.inr ⟨by omega, lt_trans h2s h1s⟩

theorem kv_gt_neg_trans {a b c : String × Nat} (h1 : kv_gt a b = false)
    (h2 : kv_gt b c = false) : kv_gt a c = false := by
  simp only [kv_gt, Bool.or_eq_false_iff, Bool.and_eq_false_iff,
    decide_eq_false_iff_not, str_lt_false_iff, not_lt] at *
  obtain ⟨h1n, h1d⟩ := h1
  obtain ⟨h2n, h2d⟩ := h2
  refine ⟨le_trans h1n h2n, ?_⟩
  by_cases he : a.2 = c.2
  · have hab : a.2 = b.2 := by omega
    have hbc : b.2 = c.2 := by omega
    rcases h1d with h1d | h1d
    · exact absurd hab h1d
    · rcases h2d with h2d | h2d
      · exact absurd hbc h2d
      · exact Or.inr (le_trans h1d h2d)
  · exact Or.inl he

/-- Python `max` with the `(count, name)` key: the result is one of the
items, and no item has a strictly greater key. -/
theorem max_loop_spec (rest : List (String × Nat)) :
    ∀ best : String × Nat,
      (max_loop best rest = best ∨ max_loop best rest ∈ rest) ∧
      (∀ x, (x = best ∨ x ∈ rest) → kv_gt x (max_loop best rest) = false) := by
  induction rest with
  | nil =>
      intro best
      refine ⟨Or.inl rfl, ?_⟩
      intro x hx
      rcases hx with rfl | hx
      · simp [max_loop, kv_gt_irrefl]
      · cases hx
  | cons y r ih =>
      intro best
      simp only [max_loop]
      by_cases hgt : kv_gt y best = true
      · rw [if_pos hgt]
        obtain ⟨hm, hall⟩ := ih y
        refine ⟨?_, ?_⟩
        · rcases hm with hm | hm
          · exact Or.inr (by simp [hm])
          · exact Or.inr (by simp [hm])
        · intro x hx
          rcases hx with rfl | hx
          · by_contra hc
            have hc' : kv_gt x (max_loop y r) = true := by
              cases h : kv_gt x (max_loop y r)
              · exact absurd h hc
              · rfl
            have := kv_gt_trans hgt hc'
            have hy := hall y (Or.inl rfl)
            rw [hy] at this
            exact Bool.false_ne_true this
          · rcases List.mem_cons.mp hx with rfl | hx
            · exact hall x (Or.inl rfl)
            · exact hall x (Or.inr hx)
      · have hgt' : kv_gt y best = false := by
          cases h : kv_gt y best
          · rfl
          · exact absurd h hgt
        rw [if_neg hgt]
        obtain ⟨hm, hall⟩ := ih best
        refine ⟨?_, ?_⟩
        · rcases hm with hm | hm
          · exact Or.inl hm
          · exact Or.inr (by simp [hm])
        · intro x hx
          rcases hx with rfl | hx
          · exact hall x (Or.inl rfl)
          · rcases List.mem_cons.mp hx with rfl | hx
            · exact kv_gt_neg_trans hgt' (hall best (Or.inl rfl))
            · exact hall x (Or.inr hx)

/-- C1 counterexample: on the ready list `["n1", "n2"]` the classes `A` and
`B` tie at one representative each, `"A" < "B"` lexicographically, yet
`_pick_largest_group` returns `"B"` — the claimed smallest-name tie-break is
false. -/
theorem c1_counterexample :
    build_counts dpC1 ["n1", "n2"] [] = Except.ok [("A", 1), ("B", 1)] ∧
    pick_largest_group dpC1 ["n1", "n2"] = Except.ok "B" ∧
    ("A" : String) < "B" ∧ ("B" : String) ≠ "A" := by
  refine ⟨by decide, by decide, (str_lt_iff "A" "B").mp (by decide), by decide⟩

/-- C1 as amended: `_pick_largest_group` returns a class-type of maximal
representative count in the ready list, and among the class-types of maximal
count it is the lexicographically LARGEST name (Python `max` on the
`(count, name)` key), not the smallest. -/
theorem c1_largest_group_tiebreak (dp : DynamicPrompt) (node_list : List String)
    (counts : List (String × Nat)) (c : String)
    (hc : build_counts dp node_list [] = Except.ok counts)
    (hp : pick_largest_group dp node_list = Except.ok c) :
    ∃ k, (c, k) ∈ counts ∧ ∀ p ∈ counts, p.2 < k ∨ (p.2 = k ∧ p.1 ≤ c) := by
  unfold pick_largest_group at hp
  rw [hc] at hp
  simp only [bind, Except.bind] at hp
  cases counts with
  | nil => exact absurd hp (by simp)
  | cons c0 rest =>
      have hres : c = (max_loop c0 rest).1 := by
        simpa using hp.symm
      obtain ⟨hm, hall⟩ := max_loop_spec rest c0
      refine ⟨(max_loop c0 rest).2, ?_, ?_⟩
      · rw [hres]
        rcases hm with hm | hm
        · simp [hm]
        · simp [List.mem_cons]
          right
          simpa using hm
      · intro p hp'
        have hkv : kv_gt p (max_loop c0 rest) = false := by
          rcases List.mem_cons.mp hp' with rfl | hh
          · exact hall p (Or.inl rfl)
          · exact hall p (Or.inr hh)
        simp only [kv_gt, Bool.or_eq_false_iff, Bool.and_eq_false_iff,
          decide_eq_false_iff_not, str_lt_false_iff, not_lt] at hkv
        obtain ⟨hle, hd⟩ := hkv
        rw [hres]
        rcases lt_or_eq_of_le hle with hlt | heq
        · exact Or.inl hlt
        · refine Or.inr ⟨heq, ?_⟩
          rcases hd with hd | hd
          · exact absurd heq hd
          · exact hd

/-- C1 witness: a ready list where class `A` has two representatives and `B`
one, so the amended theorem applies and its conclusion is inhabited. -/
theorem c1_largest_group_tiebreak_witness :
    build_counts dpC1 ["n1", "n2", "n3"] [] = Except.ok [("A", 2), ("B", 1)] ∧
    pick_largest_group dpC1 ["n1", "n2", "n3"] = Except.ok "A" ∧
    ∃ k, (("A" : String), k) ∈ [(("A" : String), (2 : Nat)), ("B", 1)] ∧
      ∀ p ∈ [(("A" : String), (2 : Nat)), ("B", 1)], p.2 < k ∨ (p.2 = k ∧ p.1 ≤ "A") :=
  ⟨by decide, by decide,
    c1_largest_group_tiebreak dpC1 ["n1", "n2", "n3"] [("A", 2), ("B", 1)] "A"
      (by decide) (by decide)⟩

/-
Claim C8: staging exclusivity.  The assertion faults are exactly the
double-stage and complete-without-stage conditions; no other code path in the
staging machinery produces an `assertionError`.
-/

theorem except_bind_ok {ε α β : Type} (a : α) (f : α → Except ε β) :
    (Except.ok a >>= f) = f a := rfl

theorem except_bind_err {ε α β : Type} (e : ε) (f : α → Except ε β) :
    ((Except.error e : Except ε α) >>= f) = Except.error e := rfl

theorem except_pure_eq_ok {ε α : Type} (a : α) : (pure a : Except ε α) = Except.ok a := rfl

theorem except_bind_pure {ε α β : Type} (a : α) (f : α → Except ε β) :
    ((pure a : Except ε α) >>= f) = f a := rfl

theorem ok_ne_error {ε α : Type} (a : α) (e : ε) :
    (Except.ok a : Except ε α) ≠ Except.error e := fun hc => Except.noConfusion hc

theorem error_ne_error {ε α : Type} {e e' : ε} (h : e ≠ e') :
    (Except.error e : Except ε α) ≠ Except.error e' := by
  intro hc
  injection hc with he
  exact h he

theorem except_bind_no_err {ε α β : Type} {x : Except ε α} {f : α → Except ε β} {e : ε}
    (hx : x ≠ .error e) (hf : ∀ a, f a ≠ .error e) : (x >>= f) ≠ .error e := by
  cases x with
  | error e' =>
      rw [except_bind_err]
      intro hc
      injection hc with he
      exact hx (by rw [he])
  | ok a =>
      rw [except_bind_ok]
      exact hf a

theorem get_node_no_assert (dp : DynamicPrompt) (n : String) :
    get_node dp n ≠ Except.error PyErr.assertionError := by
  unfold get_node
  cases alookup dp.ephemeral_prompt n with
  | some r => exact ok_ne_error _ _
  | none =>
      cases alookup dp.original_prompt n with
      | some r => exact ok_ne_error _ _
      | none => exact error_ne_error (by decide)

theorem ready_list_no_assert (bc : List (String × Int)) :
    ∀ l, ready_list bc l ≠ Except.error PyErr.assertionError := by
  intro l
  induction l with
  | nil => exact ok_ne_error _ _
  | cons n rest ih =>
      simp only [ready_list]
      cases alookup bc n with
      | none => exact error_ne_error (by decide)
      | some c =>
          exact except_bind_no_err (ok_ne_error _ _)
            (fun y => except_bind_no_err ih (fun r => ok_ne_error _ _))

theorem bb_add_row_no_assert (f : String) :
    ∀ (row : List (String × List (Nat × Bool))) (bb : List (String × List String)),
      bb_add_row f bb row ≠ Except.error PyErr.assertionError := by
  intro row
  induction row with
  | nil => intro bb; exact ok_ne_error _ _
  | cons hd rest ih =>
      intro bb
      obtain ⟨t, socks⟩ := hd
      simp only [bb_add_row]
      by_cases h : any_true_sock socks = true
      · rw [if_pos h]
        cases alookup bb t with
        | none => exact error_ne_error (by decide)
        | some l => exact ih _
      · rw [if_neg h]
        exact ih bb

theorem build_blocked_by_rows_no_assert :
    ∀ (rows : List (String × List (String × List (Nat × Bool))))
      (bb : List (String × List String)),
      build_blocked_by_rows bb rows ≠ Except.error PyErr.assertionError := by
  intro rows
  induction rows with
  | nil => intro bb; exact ok_ne_error _ _
  | cons hd rest ih =>
      intro bb
      obtain ⟨f, row⟩ := hd
      simp only [build_blocked_by_rows]
      exact except_bind_no_err (bb_add_row_no_assert f row bb) (fun bb1 => ih bb1)

theorem get_nodes_in_cycle_no_assert (s : ExecState) :
    get_nodes_in_cycle s ≠ Except.error PyErr.assertionError := by
  simp only [get_nodes_in_cycle, build_blocked_by]
  exact except_bind_no_err (build_blocked_by_rows_no_assert _ _) (fun bb => ok_ne_error _ _)

theorem blame_loop_no_assert (dp : DynamicPrompt) :
    ∀ (l : List String) (acc : String),
      blame_loop dp acc l ≠ Except.error PyErr.assertionError := by
  intro l
  induction l with
  | nil => intro acc; exact ok_ne_error _ _
  | cons nid rest ih =>
      intro acc
      simp only [blame_loop]
      cases get_display_node_id dp nid with
      | none => exact error_ne_error (by decide)
      | some disp =>
          show (if disp ≠ nid then Except.ok disp else blame_loop dp acc rest) ≠ _
          by_cases h : disp ≠ nid
          · rw [if_pos h]; exact ok_ne_error _ _
          · rw [if_neg h]; exact ih acc

theorem build_counts_no_assert (dp : DynamicPrompt) :
    ∀ (l : List String) (counts : List (String × Nat)),
      build_counts dp l counts ≠ Except.error PyErr.assertionError := by
  intro l
  induction l with
  | nil => intro counts; exact ok_ne_error _ _
  | cons nid rest ih =>
      intro counts
      simp only [build_counts]
      exact except_bind_no_err (get_node_no_assert dp nid) (fun r => ih _)

theorem pick_largest_group_no_assert (dp : DynamicPrompt) (node_list : List String) :
    pick_largest_group dp node_list ≠ Except.error PyErr.assertionError := by
  simp only [pick_largest_group]
  refine except_bind_no_err (build_counts_no_assert dp node_list []) (fun counts => ?_)
  cases counts with
  | nil => exact error_ne_error (by decide)
  | cons c0 rest => exact ok_ne_error _ _

theorem filter_by_group_no_assert (dp : DynamicPrompt) (g : Option String) :
    ∀ l : List String, filter_by_group dp g l ≠ Except.error PyErr.assertionError := by
  intro l
  induction l with
  | nil => exact ok_ne_error _ _
  | cons nid rest ih =>
      simp only [filter_by_group]
      exact except_bind_no_err (get_node_no_assert dp nid)
        (fun r => except_bind_no_err ih (fun tail => ok_ne_error _ _))

theorem any_class_no_assert (dp : DynamicPrompt) (g : String) :
    ∀ l : List String, any_class dp g l ≠ Except.error PyErr.assertionError := by
  intro l
  induction l with
  | nil => exact ok_ne_error _ _
  | cons nid rest ih =>
      simp only [any_class]
      refine except_bind_no_err (get_node_no_assert dp nid) (fun r => ?_)
      by_cases h : r.class_type = g
      · rw [if_pos h]; exact ok_ne_error _ _
      · rw [if_neg h]; exact ih

theorem is_output_no_assert (env : Env) (dp : DynamicPrompt) (nid : String) :
    is_output env dp nid ≠ Except.error PyErr.assertionError := by
  simp only [is_output]
  refine except_bind_no_err (get_node_no_assert dp nid) (fun r => ?_)
  cases alookup env.registry r.class_type with
  | none => exact error_ne_error (by decide)
  | some cd => exact ok_ne_error _ _

theorem find_output_no_assert (env : Env) (dp : DynamicPrompt) :
    ∀ l : List String, find_output env dp l ≠ Except.error PyErr.assertionError := by
  intro l
  induction l with
  | nil => exact ok_ne_error _ _
  | cons nid rest ih =>
      simp only [find_output]
      refine except_bind_no_err (is_output_no_assert env dp nid) (fun b => ?_)
      cases b
      · exact ih
      · exact ok_ne_error _ _

theorem any_output_row_no_assert (env : Env) (dp : DynamicPrompt) :
    ∀ row : List (String × List (Nat × Bool)),
      any_output_row env dp row ≠ Except.error PyErr.assertionError := by
  intro row
  induction row with
  | nil => exact ok_ne_error _ _
  | cons hd rest ih =>
      obtain ⟨blocked, _⟩ := hd
      simp only [any_output_row]
      refine except_bind_no_err (is_output_no_assert env dp blocked) (fun b => ?_)
      cases b
      · exact ih
      · exact ok_ne_error _ _

theorem find_tier2_no_assert (env : Env) (dp : DynamicPrompt)
    (blocking : List (String × List (String × List (Nat × Bool)))) :
    ∀ l : List String, find_tier2 env dp blocking l ≠ Except.error PyErr.assertionError := by
  intro l
  induction l with
  | nil => exact ok_ne_error _ _
  | cons nid rest ih =>
      simp only [find_tier2]
      cases alookup blocking nid with
      | none => exact error_ne_error (by decide)
      | some row =>
          refine except_bind_no_err (any_output_row_no_assert env dp row) (fun b => ?_)
          cases b
          · exact ih
          · exact ok_ne_error _ _

theorem any_output_row2_no_assert (env : Env) (dp : DynamicPrompt)
    (blocking : List (String × List (String × List (Nat × Bool)))) :
    ∀ row : List (String × List (Nat × Bool)),
      any_output_row2 env dp blocking row ≠ Except.error PyErr.assertionError := by
  intro row
  induction row with
  | nil => exact ok_ne_error _ _
  | cons hd rest ih =>
      obtain ⟨blocked, _⟩ := hd
      simp only [any_output_row2]
      cases alookup blocking blocked with
      | none => exact error_ne_error (by decide)
      | some row2 =>
          refine except_bind_no_err (any_output_row_no_assert env dp row2) (fun b => ?_)
          cases b
          · exact ih
          · exact ok_ne_error _ _

theorem find_tier3_no_assert (env : Env) (dp : DynamicPrompt)
    (blocking : List (String × List (String × List (Nat × Bool)))) :
    ∀ l : List String, find_tier3 env dp blocking l ≠ Except.error PyErr.assertionError := by
  intro l
  induction l with
  | nil => exact ok_ne_error _ _
  | cons nid rest ih =>
      simp only [find_tier3]
      cases alookup blocking nid with
      | none => exact error_ne_error (by decide)
      | some row =>
          refine except_bind_no_err (any_output_row2_no_assert env dp blocking row) (fun b => ?_)
          cases b
          · exact ih
          · exact ok_ne_error _ _

theorem heuristic_pick_no_assert (env : Env) (dp : DynamicPrompt)
    (blocking : List (String × List (String × List (Nat × Bool))))
    (candidates : List String) :
    heuristic_pick env dp blocking candidates ≠ Except.error PyErr.assertionError := by
  simp only [heuristic_pick]
  cases ho : find_output env dp candidates with
  | error e =>
      rw [except_bind_err]
      intro hc
      injection hc with he
      exact find_output_no_assert env dp candidates (he ▸ ho)
  | ok o =>
      rw [except_bind_ok]
      cases o with
      | some nid => exact ok_ne_error _ _
      | none =>
          cases h2 : find_tier2 env dp blocking candidates with
          | error e =>
              rw [except_bind_err]
              intro hc
              injection hc with he
              exact find_tier2_no_assert env dp blocking candidates (he ▸ h2)
          | ok o2 =>
              rw [except_bind_ok]
              cases o2 with
              | some nid => exact ok_ne_error _ _
              | none =>
                  cases h3 : find_tier3 env dp blocking candidates with
                  | error e =>
                      rw [except_bind_err]
                      intro hc
                      injection hc with he
                      exact find_tier3_no_assert env dp blocking candidates (he ▸ h3)
                  | ok o3 =>
                      rw [except_bind_ok]
                      cases o3 with
                      | some nid => exact ok_ne_error _ _
                      | none =>
                          cases candidates with
                          | nil => exact error_ne_error (by decide)
                          | cons c rest => exact ok_ne_error _ _

theorem ensure_group_no_assert (dp : DynamicPrompt) (s : ExecState)
    (node_list : List String) :
    ensure_current_group dp s node_list ≠ Except.error PyErr.assertionError := by
  simp only [ensure_current_group]
  have hcont : ∀ nr : Bool,
      (if nr then
        (do
          let g ← pick_largest_group dp node_list
          pure { s with current_group_class := some g } : Except PyErr ExecState)
      else pure s) ≠ Except.error PyErr.assertionError := by
    intro nr
    cases nr with
    | false => rw [if_neg (by simp)]; exact ok_ne_error _ _
    | true =>
        rw [if_pos rfl]
        exact except_bind_no_err (pick_largest_group_no_assert dp node_list)
          (fun g => ok_ne_error _ _)
  cases s.current_group_class with
  | none => exact hcont true
  | some g =>
      refine except_bind_no_err (any_class_no_assert dp g node_list) (fun b => ?_)
      exact hcont (!b)

theorem ux_pick_no_assert (env : Env) (dp : DynamicPrompt) (s : ExecState)
    (node_list : List String) :
    ux_friendly_pick_node env dp s node_list ≠ Except.error PyErr.assertionError := by
  simp only [ux_friendly_pick_node]
  refine except_bind_no_err (ensure_group_no_assert dp s node_list) (fun s1 => ?_)
  refine except_bind_no_err (filter_by_group_no_assert dp _ node_list) (fun candidates => ?_)
  exact except_bind_no_err (heuristic_pick_no_assert env dp _ candidates)
    (fun nid => ok_ne_error _ _)

theorem dec_all_no_assert :
    ∀ (row : List (String × List (Nat × Bool))) (bc : List (String × Int)),
      dec_all bc row ≠ Except.error PyErr.assertionError := by
  intro row
  induction row with
  | nil => intro bc; exact ok_ne_error _ _
  | cons hd rest ih =>
      intro bc
      obtain ⟨t, socks⟩ := hd
      simp only [dec_all]
      cases alookup bc t with
      | none => exact error_ne_error (by decide)
      | some c => exact ih _

theorem pop_node_no_assert (s : ExecState) (unique_id : String) :
    pop_node s unique_id ≠ Except.error PyErr.assertionError := by
  simp only [pop_node]
  by_cases h : unique_id ∈ s.pendingNodes
  · rw [if_pos h]
    cases alookup s.blocking unique_id with
    | none => exact error_ne_error (by decide)
    | some row =>
        exact except_bind_no_err (dec_all_no_assert row s.blockCount)
          (fun bc => ok_ne_error _ _)
  · rw [if_neg h]
    exact error_ne_error (by decide)

/-- C8: staging exclusivity.  `stage_node_execution` faults (assertion-level)
exactly when a node is already staged, and `complete_node_execution` faults
exactly when no node is staged; with an empty slot neither operation can
reach an assertion fault through any other path, and a successful stage
stages exactly the returned node (leaving the state untouched when it
returns no node) — so under the stage/complete alternation protocol the
assertion branches are unreachable and at most one node is ever staged. -/
theorem c8_staging_exclusivity :
    (∀ (env : Env) (dp : DynamicPrompt) (s : ExecState) (x : String),
        s.staged_node_id = some x →
        stage_node_execution env dp s = Except.error PyErr.assertionError) ∧
    (∀ s : ExecState, s.staged_node_id = none →
        complete_node_execution s = Except.error PyErr.assertionError) ∧
    (∀ (env : Env) (dp : DynamicPrompt) (s : ExecState), s.staged_node_id = none →
        stage_node_execution env dp s ≠ Except.error PyErr.assertionError) ∧
    (∀ (s : ExecState) (nid : String), s.staged_node_id = some nid →
        complete_node_execution s ≠ Except.error PyErr.assertionError) ∧
    (∀ (env : Env) (dp : DynamicPrompt) (s : ExecState) r s',
        stage_node_execution env dp s = Except.ok (r, s') →
        (∀ n, r.1 = some n → s'.staged_node_id = some n) ∧ (r.1 = none → s' = s)) := by
  refine ⟨?_, ?_, ?_, ?_, ?_⟩
  · intro env dp s x h
    simp only [stage_node_execution, h]
  · intro s h
    simp only [complete_node_execution, h]
  · intro env dp s h
    simp only [stage_node_execution, h]
    by_cases he : is_empty s = true
    · rw [if_pos he]; exact ok_ne_error _ _
    · rw [if_neg he]
      refine except_bind_no_err (ready_list_no_assert s.blockCount s.pendingNodes)
        (fun available => ?_)
      by_cases ha : available.isEmpty = true
      · rw [if_pos ha]
        refine except_bind_no_err (get_nodes_in_cycle_no_assert s) (fun cyc => ?_)
        cases cyc with
        | nil => exact error_ne_error (by decide)
        | cons c rest =>
            exact except_bind_no_err (ok_ne_error _ _)
              (fun first => except_bind_no_err (blame_loop_no_assert dp _ first)
                (fun blamed => ok_ne_error _ _))
      · rw [if_neg ha]
        exact except_bind_no_err (ux_pick_no_assert env dp s available)
          (fun p => ok_ne_error _ _)
  · intro s nid h
    simp only [complete_node_execution, h]
    exact except_bind_no_err (pop_node_no_assert s nid) (fun s1 => ok_ne_error _ _)
  · intro env dp s r s' h
    simp only [stage_node_execution] at h
    cases hst : s.staged_node_id with
    | some x => rw [hst] at h; exact absurd h (by simp)
    | none =>
        rw [hst] at h
        by_cases he : is_empty s = true
        · rw [if_pos he] at h
          injection h with h1
          injection h1 with hr hs
          subst hr; subst hs
          exact ⟨fun n hn => by simp at hn, fun _ => rfl⟩
        · rw [if_neg he] at h
          cases hready : get_ready_nodes s with
          | error e =>
              rw [hready, except_bind_err] at h
              exact absurd h (by simp)
          | ok available =>
              rw [hready, except_bind_ok] at h
              by_cases ha : available.isEmpty = true
              · rw [if_pos ha] at h
                cases hcyc : get_nodes_in_cycle s with
                | error e =>
                    rw [hcyc, except_bind_err] at h
                    exact absurd h (by simp)
                | ok cyc =>
                    rw [hcyc, except_bind_ok] at h
                    cases cyc with
                    | nil => exact absurd h (by simp [except_bind_err])
                    | cons c rest =>
                        simp only [except_bind_pure] at h
                        cases hb : blame_loop dp c (c :: rest) with
                        | error e =>
                            rw [hb, except_bind_err] at h
                            exact absurd h (by simp)
                        | ok blamed =>
                            rw [hb, except_bind_ok] at h
                            injection h with h1
                            injection h1 with hr hs
                            subst hr; subst hs
                            exact ⟨fun n hn => by simp at hn, fun _ => rfl⟩
              · rw [if_neg ha] at h
                cases hux : ux_friendly_pick_node env dp s available with
                | error e =>
                    rw [hux, except_bind_err] at h
                    exact absurd h (by simp)
                | ok p =>
                    rw [hux, except_bind_ok] at h
                    obtain ⟨nid, s1⟩ := p
                    injection h with h1
                    injection h1 with hr hs
                    subst hr; subst hs
                    refine ⟨fun n hn => ?_, fun hn => by simp at hn⟩
                    simp at hn
                    simp [hn]

/-- C8 witness: with a node staged, staging again faults; with the slot
empty, completing faults, while staging does not fault. -/
theorem c8_staging_exclusivity_witness :
    stage_node_execution envC4 dpC4
        { initState [] with staged_node_id := some "N" } =
      Except.error PyErr.assertionError ∧
    complete_node_execution (initState []) = Except.error PyErr.assertionError ∧
    stage_node_execution envC4 dpC4 (initState []) ≠
      Except.error PyErr.assertionError :=
  ⟨c8_staging_exclusivity.1 envC4 dpC4 _ "N" rfl,
   c8_staging_exclusivity.2.1 _ rfl,
   c8_staging_exclusivity.2.2.1 envC4 dpC4 _ rfl⟩

/-
Groundwork on `scan` / `add_node`: the pending set only grows (by appending
the newly visited nodes), the scanned target ends up pending, and `add_node`
on an already-pending target is the identity.
-/

theorem branch_update_fields {s : ExecState} {f : String} {sock : Nat} {t : String}
    {s' : ExecState} (h : branch_update s f sock t = Except.ok s') :
    s'.pendingNodes = s.pendingNodes ∧ s'.output_cache = s.output_cache ∧
    s'.staged_node_id = s.staged_node_id ∧
    s'.current_group_class = s.current_group_class := by
  unfold branch_update at h
  cases hrow : alookup s.blocking f with
  | none => simp only [hrow, except_bind_err] at h; exact absurd h (by simp)
  | some row =>
      simp only [hrow, except_bind_pure] at h
      cases hrt : alookup row t with
      | some socks =>
          simp only [hrt] at h
          injection h with h1
          subst h1
          exact ⟨rfl, rfl, rfl, rfl⟩
      | none =>
          simp only [hrt] at h
          cases hbc : alookup s.blockCount t with
          | none => simp only [hbc, except_bind_err] at h; exact absurd h (by simp)
          | some c =>
              simp only [hbc, except_bind_pure] at h
              injection h with h1
              subst h1
              exact ⟨rfl, rfl, rfl, rfl⟩

theorem scan_pending_mono (env : Env) (dp : DynamicPrompt) (il : Bool)
    (sg : Option (List String)) :
    ∀ (fuel : Nat) (stack : List String) (links : List Link) (s s' : ExecState)
      (L : List Link), scan env dp il sg fuel stack links s = Except.ok (s', L) →
      ∃ new, s'.pendingNodes = s.pendingNodes ++ new := by
  intro fuel
  induction fuel with
  | zero => intro stack links s s' L h; exact absurd h (by simp [scan])
  | succ f ih =>
      intro stack links s s' L h
      cases stack with
      | nil =>
          simp only [scan] at h
          injection h with h1
          injection h1 with hs hl
          exact ⟨[], by rw [← hs]; simp⟩
      | cons u rest =>
          simp only [scan] at h
          by_cases hmem : u ∈ s.pendingNodes
          · rw [if_pos hmem] at h
            exact ih rest links s s' L h
          · rw [if_neg hmem] at h
            cases hg : get_node dp u with
            | error e => simp only [hg] at h; exact absurd h (by simp)
            | ok r =>
                simp only [hg] at h
                cases hc : collect_inputs env dp il sg
                    { s with pendingNodes := s.pendingNodes ++ [u],
                             blockCount := aset s.blockCount u 0,
                             blocking := aset s.blocking u [] } u r.inputs with
                | error e => simp only [hc] at h; exact absurd h (by simp)
                | ok pl =>
                    simp only [hc] at h
                    obtain ⟨new, hnew⟩ := ih _ _ _ _ _ h
                    exact ⟨[u] ++ new, by simpa using hnew⟩

theorem scan_stack_pending (env : Env) (dp : DynamicPrompt) (il : Bool)
    (sg : Option (List String)) :
    ∀ (fuel : Nat) (stack : List String) (links : List Link) (s s' : ExecState)
      (L : List Link), scan env dp il sg fuel stack links s = Except.ok (s', L) →
      ∀ u ∈ stack, u ∈ s'.pendingNodes := by
  intro fuel
  induction fuel with
  | zero => intro stack links s s' L h; exact absurd h (by simp [scan])
  | succ f ih =>
      intro stack links s s' L h
      cases stack with
      | nil => intro u hu; cases hu
      | cons v rest =>
          intro u hu
          simp only [scan] at h
          by_cases hmem : v ∈ s.pendingNodes
          · rw [if_pos hmem] at h
            rcases List.mem_cons.mp hu with rfl | hu
            · obtain ⟨new, hnew⟩ := scan_pending_mono env dp il sg f rest links s s' L h
              rw [hnew]
              exact List.mem_append_left _ hmem
            · exact ih rest links s s' L h u hu
          · rw [if_neg hmem] at h
            cases hg : get_node dp v with
            | error e => simp only [hg] at h; exact absurd h (by simp)
            | ok r =>
                simp only [hg] at h
                cases hc : collect_inputs env dp il sg
                    { s with pendingNodes := s.pendingNodes ++ [v],
                             blockCount := aset s.blockCount v 0,
                             blocking := aset s.blocking v [] } v r.inputs with
                | error e => simp only [hc] at h; exact absurd h (by simp)
                | ok pl =>
                    simp only [hc] at h
                    rcases List.mem_cons.mp hu with rfl | hu
                    · obtain ⟨new, hnew⟩ := scan_pending_mono env dp il sg f _ _ _ s' L h
                      rw [hnew]
                      simp
                    · exact ih _ _ _ s' L h u (by simp [hu])

theorem strong_link_core_mono {addN : String → ExecState → Except PyErr ExecState}
    (hmono : ∀ (target : String) (s s' : ExecState), addN target s = Except.ok s' →
      ∃ new, s'.pendingNodes = s.pendingNodes ++ new)
    {f : String} {sock : Nat} {t : String} {s s' : ExecState}
    (h : strong_link_core addN f sock t s = Except.ok s') :
    ∃ new, s'.pendingNodes = s.pendingNodes ++ new := by
  simp only [strong_link_core, is_cached, Bool.false_eq_true, if_false] at h
  cases han : addN f s with
  | error e => rw [han, except_bind_err] at h; exact absurd h (by simp)
  | ok sa =>
      rw [han, except_bind_ok] at h
      obtain ⟨new, hnew⟩ := hmono f s sa han
      obtain ⟨hp, _, _, _⟩ := branch_update_fields h
      exact ⟨new, by rw [hp, hnew]⟩

theorem fold_links_mono (env : Env) (dp : DynamicPrompt) (fuel : Nat)
    (hmono : ∀ (target : String) (s s' : ExecState),
      add_nodeF env dp fuel false none target s = Except.ok s' →
      ∃ new, s'.pendingNodes = s.pendingNodes ++ new) :
    ∀ (links : List Link) (s s' : ExecState),
      links.foldlM
        (fun st l =>
          strong_link_core (add_nodeF env dp fuel false none)
            l.from_node_id l.from_socket l.to_node_id st) s = Except.ok s' →
      ∃ new, s'.pendingNodes = s.pendingNodes ++ new := by
  intro links
  induction links with
  | nil =>
      intro s s' h
      simp only [List.foldlM_nil] at h
      injection h with h1
      exact ⟨[], by rw [h1]; simp⟩
  | cons l rest ih =>
      intro s s' h
      rw [List.foldlM_cons] at h
      cases hstep : strong_link_core (add_nodeF env dp fuel false none)
          l.from_node_id l.from_socket l.to_node_id s with
      | error e => rw [hstep, except_bind_err] at h; exact absurd h (by simp)
      | ok s1 =>
          rw [hstep, except_bind_ok] at h
          obtain ⟨n1, hn1⟩ := strong_link_core_mono hmono hstep
          obtain ⟨n2, hn2⟩ := ih s1 s' h
          exact ⟨n1 ++ n2, by rw [hn2, hn1, List.append_assoc]⟩

theorem add_nodeF_mono (env : Env) (dp : DynamicPrompt) :
    ∀ (fuel : Nat) (il : Bool) (sg : Option (List String)) (target : String)
      (s s' : ExecState), add_nodeF env dp fuel il sg target s = Except.ok s' →
      ∃ new, s'.pendingNodes = s.pendingNodes ++ new := by
  intro fuel
  induction fuel with
  | zero => intro il sg target s s' h; exact absurd h (by simp [add_nodeF])
  | succ f ih =>
      intro il sg target s s' h
      simp only [add_nodeF] at h
      cases hscan : scan env dp il sg (scanFuel dp) [target] [] s with
      | error e => rw [hscan, except_bind_err] at h; exact absurd h (by simp)
      | ok pair =>
          rw [hscan, except_bind_ok] at h
          obtain ⟨s1, L⟩ := pair
          obtain ⟨n1, hn1⟩ := scan_pending_mono env dp il sg _ _ _ _ _ _ hscan
          obtain ⟨n2, hn2⟩ :=
            fold_links_mono env dp f (fun t a b => ih false none t a b) L s1 s' h
          exact ⟨n1 ++ n2, by rw [hn2, hn1, List.append_assoc]⟩

theorem add_nodeF_target_pending (env : Env) (dp : DynamicPrompt)
    (fuel : Nat) (il : Bool) (sg : Option (List String)) (target : String)
    (s s' : ExecState) (h : add_nodeF env dp (fuel + 1) il sg target s = Except.ok s') :
    target ∈ s'.pendingNodes := by
  simp only [add_nodeF] at h
  cases hscan : scan env dp il sg (scanFuel dp) [target] [] s with
  | error e => rw [hscan, except_bind_err] at h; exact absurd h (by simp)
  | ok pair =>
      rw [hscan, except_bind_ok] at h
      obtain ⟨s1, L⟩ := pair
      have h1 : target ∈ s1.pendingNodes :=
        scan_stack_pending env dp il sg _ _ _ _ _ _ hscan target (by simp)
      obtain ⟨n2, hn2⟩ :=
        fold_links_mono env dp fuel
          (fun t a b => add_nodeF_mono env dp fuel false none t a b) L s1 s' h
      rw [hn2]
      exact List.mem_append_left _ h1

theorem scanFuel_ge_two (dp : DynamicPrompt) : ∃ n, scanFuel dp = n + 2 := by
  refine ⟨(dp.original_prompt ++ dp.ephemeral_prompt).foldl
    (fun acc p => acc + 1 + p.2.inputs.length) 0, ?_⟩
  simp [scanFuel]
  omega

theorem scan_pending_target (env : Env) (dp : DynamicPrompt) (il : Bool)
    (sg : Option (List String)) (target : String) (s : ExecState)
    (hmem : target ∈ s.pendingNodes) :
    scan env dp il sg (scanFuel dp) [target] [] s = Except.ok (s, []) := by
  obtain ⟨n, hn⟩ := scanFuel_ge_two dp
  rw [hn]
  show scan env dp il sg (n + 1 + 1) [target] [] s = Except.ok (s, [])
  simp only [scan]
  rw [if_pos hmem]

theorem add_nodeF_pending_id (env : Env) (dp : DynamicPrompt) (fuel : Nat)
    (il : Bool) (sg : Option (List String)) (target : String) (s : ExecState)
    (hmem : target ∈ s.pendingNodes) :
    add_nodeF env dp (fuel + 1) il sg target s = Except.ok s := by
  simp only [add_nodeF]
  rw [scan_pending_target env dp il sg target s hmem, except_bind_ok]
  rfl

theorem nodeFuel_succ (dp : DynamicPrompt) :
    nodeFuel dp = (dp.original_prompt.length + dp.ephemeral_prompt.length + 1) + 1 := rfl

/-
Claim C6: idempotent edge insertion.
-/

theorem branch_update_post {s : ExecState} {f : String} {sock : Nat} {t : String}
    {s' : ExecState} (h : branch_update s f sock t = Except.ok s') :
    ∃ row socks, alookup s'.blocking f = some row ∧ alookup row t = some socks ∧
      alookup socks sock = some true := by
  unfold branch_update at h
  cases hrow : alookup s.blocking f with
  | none => simp only [hrow, except_bind_err] at h; exact absurd h (by simp)
  | some row =>
      simp only [hrow, except_bind_pure] at h
      cases hrt : alookup row t with
      | some socks =>
          simp only [hrt] at h
          injection h with h1
          subst h1
          refine ⟨aset row t (aset socks sock true), aset socks sock true, ?_, ?_, ?_⟩
          · exact alookup_aset_self _ _ _
          · exact alookup_aset_self _ _ _
          · exact alookup_aset_self _ _ _
      | none =>
          simp only [hrt] at h
          cases hbc : alookup s.blockCount t with
          | none => simp only [hbc, except_bind_err] at h; exact absurd h (by simp)
          | some c =>
              simp only [hbc, except_bind_pure] at h
              injection h with h1
              subst h1
              refine ⟨aset row t [(sock, true)], [(sock, true)], ?_, ?_, ?_⟩
              · exact alookup_aset_self _ _ _
              · exact alookup_aset_self _ _ _
              · simp [alookup]

theorem branch_update_idem {s : ExecState} {f : String} {sock : Nat} {t : String}
    {row : List (String × List (Nat × Bool))} {socks : List (Nat × Bool)}
    (hrow : alookup s.blocking f = some row) (hrt : alookup row t = some socks)
    (hsock : alookup socks sock = some true) :
    branch_update s f sock t = Except.ok s := by
  unfold branch_update
  simp only [hrow, except_bind_pure, hrt]
  rw [aset_eq_self socks sock true hsock, aset_eq_self row t socks hrt,
    aset_eq_self s.blocking f row hrow]

/-- C6: `add_strong_link` is idempotent per `(producer, socket, consumer)`
triple: a second identical call after a successful one returns the very same
state — in particular the consumer's `blockCount` is not incremented again,
since the `(producer, consumer)` pair is already recorded in `blocking`. -/
theorem c6_add_strong_link_idempotent (env : Env) (dp : DynamicPrompt)
    (f : String) (sock : Nat) (t : String) (s s₁ : ExecState)
    (h : add_strong_link env dp f sock t s = Except.ok s₁) :
    add_strong_link env dp f sock t s₁ = Except.ok s₁ := by
  simp only [add_strong_link, strong_link_core, is_cached, Bool.false_eq_true,
    if_false] at h ⊢
  cases han : add_nodeF env dp (nodeFuel dp) false none f s with
  | error e => rw [han, except_bind_err] at h; exact absurd h (by simp)
  | ok sa =>
      rw [han, except_bind_ok] at h
      rw [nodeFuel_succ dp] at han
      have hfp : f ∈ sa.pendingNodes :=
        add_nodeF_target_pending env dp _ false none f s sa han
      have hfp1 : f ∈ s₁.pendingNodes := by
        obtain ⟨hp, _, _, _⟩ := branch_update_fields h
        rw [hp]
        exact hfp
      obtain ⟨row, socks, hrow, hrt, hsock⟩ := branch_update_post h
      rw [nodeFuel_succ dp, add_nodeF_pending_id env dp _ false none f s₁ hfp1,
        except_bind_ok]
      exact branch_update_idem hrow hrt hsock

/-- C6 witness: the concrete double insertion on the two-node prompt. -/
theorem c6_add_strong_link_idempotent_witness :
    add_strong_link envC6 dpC6 "P" 0 "X" c6state0 = Except.ok c6state1 ∧
    alookup c6state1.blockCount "X" = some 1 ∧
    add_strong_link envC6 dpC6 "P" 0 "X" c6state1 = Except.ok c6state1 :=
  ⟨by decide, by decide,
   c6_add_strong_link_idempotent envC6 dpC6 "P" 0 "X" c6state0 c6state1 (by decide)⟩

/-
Claim C7: unstaging clears only the slot, and restaging is deterministic.
-/

theorem ensure_group_fields {dp : DynamicPrompt} {s : ExecState}
    {node_list : List String} {se : ExecState}
    (h : ensure_current_group dp s node_list = Except.ok se) :
    se.pendingNodes = s.pendingNodes ∧ se.blockCount = s.blockCount ∧
    se.blocking = s.blocking ∧ se.staged_node_id = s.staged_node_id ∧
    se.output_cache = s.output_cache ∧ ∃ g, se.current_group_class = some g := by
  simp only [ensure_current_group] at h
  have hbranch : ∀ nr : Bool,
      (if nr then
        (do
          let g ← pick_largest_group dp node_list
          pure { s with current_group_class := some g } : Except PyErr ExecState)
      else pure s) = Except.ok se →
      (nr = false → s.current_group_class.isSome) →
      se.pendingNodes = s.pendingNodes ∧ se.blockCount = s.blockCount ∧
      se.blocking = s.blocking ∧ se.staged_node_id = s.staged_node_id ∧
      se.output_cache = s.output_cache ∧ ∃ g, se.current_group_class = some g := by
    intro nr hif hsome
    cases nr with
    | false =>
        rw [if_neg (by simp)] at hif
        injection hif with h1
        subst h1
        have := hsome rfl
        cases hg : s.current_group_class with
        | none => rw [hg] at this; exact absurd this (by simp)
        | some g => exact ⟨rfl, rfl, rfl, rfl, rfl, g, rfl⟩
    | true =>
        rw [if_pos rfl] at hif
        cases hpk : pick_largest_group dp node_list with
        | error e => rw [hpk, except_bind_err] at hif; exact absurd hif (by simp)
        | ok g =>
            rw [hpk, except_bind_ok] at hif
            injection hif with h1
            subst h1
            exact ⟨rfl, rfl, rfl, rfl, rfl, g, rfl⟩
  cases hg : s.current_group_class with
  | none =>
      rw [hg] at h
      exact hbranch true h (by simp)
  | some g =>
      rw [hg] at h
      simp only [except_bind_err, except_bind_ok, except_bind_pure] at h
      cases hac : any_class dp g node_list with
      | error e => rw [hac, except_bind_err] at h; exact absurd h (by simp)
      | ok b =>
          rw [hac, except_bind_ok] at h
          exact hbranch (!b) h (fun _ => by rw [hg]; rfl)

theorem filter_by_group_all_ok {dp : DynamicPrompt} {g : Option String} :
    ∀ {l : List String} {cands : List String},
      filter_by_group dp g l = Except.ok cands →
      ∀ x ∈ l, ∃ r, get_node dp x = Except.ok r := by
  intro l
  induction l with
  | nil => intro cands _ x hx; cases hx
  | cons nid rest ih =>
      intro cands h x hx
      simp only [filter_by_group] at h
      cases hg : get_node dp nid with
      | error e => rw [hg, except_bind_err] at h; exact absurd h (by simp)
      | ok r =>
          rw [hg, except_bind_ok] at h
          cases ht : filter_by_group dp g rest with
          | error e => rw [ht, except_bind_err] at h; exact absurd h (by simp)
          | ok tail =>
              rw [ht, except_bind_ok] at h
              rcases List.mem_cons.mp hx with rfl | hx
              · exact ⟨r, hg⟩
              · exact ih ht x hx

theorem filter_by_group_mem {dp : DynamicPrompt} {g : String} :
    ∀ {l : List String} {cands : List String},
      filter_by_group dp (some g) l = Except.ok cands →
      ∀ x ∈ cands, x ∈ l ∧ ∃ r, get_node dp x = Except.ok r ∧ r.class_type = g := by
  intro l
  induction l with
  | nil =>
      intro cands h x hx
      simp only [filter_by_group] at h
      injection h with h1
      subst h1
      cases hx
  | cons nid rest ih =>
      intro cands h x hx
      simp only [filter_by_group] at h
      cases hg : get_node dp nid with
      | error e => rw [hg, except_bind_err] at h; exact absurd h (by simp)
      | ok r =>
          rw [hg, except_bind_ok] at h
          cases ht : filter_by_group dp (some g) rest with
          | error e => rw [ht, except_bind_err] at h; exact absurd h (by simp)
          | ok tail =>
              rw [ht, except_bind_ok] at h
              injection h with h1
              subst h1
              by_cases hcl : r.class_type = g
              · rw [if_pos (by simp [hcl])] at hx
                rcases List.mem_cons.mp hx with rfl | hx
                · exact ⟨by simp, r, hg, hcl⟩
                · obtain ⟨hmem, hr⟩ := ih ht x hx
                  exact ⟨by simp [hmem], hr⟩
              · rw [if_neg (by simp [hcl])] at hx
                obtain ⟨hmem, hr⟩ := ih ht x hx
                exact ⟨by simp [hmem], hr⟩

theorem any_class_true_of {dp : DynamicPrompt} {g : String} :
    ∀ {l : List String},
      (∀ x ∈ l, ∃ r, get_node dp x = Except.ok r) →
      (∃ x ∈ l, ∃ r, get_node dp x = Except.ok r ∧ r.class_type = g) →
      any_class dp g l = Except.ok true := by
  intro l
  induction l with
  | nil => intro _ hw; obtain ⟨x, hx, _⟩ := hw; cases hx
  | cons nid rest ih =>
      intro hall hw
      obtain ⟨rn, hrn⟩ := hall nid (by simp)
      simp only [any_class]
      rw [hrn, except_bind_ok]
      by_cases hcl : rn.class_type = g
      · rw [if_pos hcl]
      · rw [if_neg hcl]
        obtain ⟨x, hx, r, hr, hrg⟩ := hw
        rcases List.mem_cons.mp hx with rfl | hx
        · rw [hrn] at hr
          injection hr with he
          subst he
          exact absurd hrg hcl
        · exact ih (fun y hy => hall y (by simp [hy])) ⟨x, hx, r, hr, hrg⟩

theorem find_output_mem {env : Env} {dp : DynamicPrompt} :
    ∀ {l : List String} {nid : String},
      find_output env dp l = Except.ok (some nid) → nid ∈ l := by
  intro l
  induction l with
  | nil => intro nid h; simp only [find_output] at h; exact absurd h (by simp)
  | cons x rest ih =>
      intro nid h
      simp only [find_output] at h
      cases hb : is_output env dp x with
      | error e => rw [hb, except_bind_err] at h; exact absurd h (by simp)
      | ok b =>
          rw [hb, except_bind_ok] at h
          cases b with
          | true =>
              injection h with h1
              injection h1 with h2
              simp [h2]
          | false => simp [ih h]

theorem find_tier2_mem {env : Env} {dp : DynamicPrompt}
    {blocking : List (String × List (String × List (Nat × Bool)))} :
    ∀ {l : List String} {nid : String},
      find_tier2 env dp blocking l = Except.ok (some nid) → nid ∈ l := by
  intro l
  induction l with
  | nil => intro nid h; simp only [find_tier2] at h; exact absurd h (by simp)
  | cons x rest ih =>
      intro nid h
      simp only [find_tier2] at h
      cases hrow : alookup blocking x with
      | none => rw [hrow] at h; exact absurd h (by simp)
      | some row =>
          rw [hrow] at h
          simp only [except_bind_err, except_bind_ok] at h
          cases hb : any_output_row env dp row with
          | error e => rw [hb, except_bind_err] at h; exact absurd h (by simp)
          | ok b =>
              rw [hb, except_bind_ok] at h
              cases b with
              | true =>
                  injection h with h1
                  injection h1 with h2
                  simp [h2]
              | false => simp [ih h]

theorem find_tier3_mem {env : Env} {dp : DynamicPrompt}
    {blocking : List (String × List (String × List (Nat × Bool)))} :
    ∀ {l : List String} {nid : String},
      find_tier3 env dp blocking l = Except.ok (some nid) → nid ∈ l := by
  intro l
  induction l with
  | nil => intro nid h; simp only [find_tier3] at h; exact absurd h (by simp)
  | cons x rest ih =>
      intro nid h
      simp only [find_tier3] at h
      cases hrow : alookup blocking x with
      | none => rw [hrow] at h; exact absurd h (by simp)
      | some row =>
          rw [hrow] at h
          simp only [except_bind_err, except_bind_ok] at h
          cases hb : any_output_row2 env dp blocking row with
          | error e => rw [hb, except_bind_err] at h; exact absurd h (by simp)
          | ok b =>
              rw [hb, except_bind_ok] at h
              cases b with
              | true =>
                  injection h with h1
                  injection h1 with h2
                  simp [h2]
              | false => simp [ih h]

theorem heuristic_pick_mem {env : Env} {dp : DynamicPrompt}
    {blocking : List (String × List (String × List (Nat × Bool)))}
    {candidates : List String} {nid : String}
    (h : heuristic_pick env dp blocking candidates = Except.ok nid) :
    nid ∈ candidates := by
  simp only [heuristic_pick] at h
  cases ho : find_output env dp candidates with
  | error e => rw [ho, except_bind_err] at h; exact absurd h (by simp)
  | ok o =>
      rw [ho, except_bind_ok] at h
      cases o with
      | some x =>
          injection h with h1
          subst h1
          exact find_output_mem ho
      | none =>
          cases h2 : find_tier2 env dp blocking candidates with
          | error e => rw [h2, except_bind_err] at h; exact absurd h (by simp)
          | ok o2 =>
              rw [h2, except_bind_ok] at h
              cases o2 with
              | some x =>
                  injection h with h1
                  subst h1
                  exact find_tier2_mem h2
              | none =>
                  cases h3 : find_tier3 env dp blocking candidates with
                  | error e => rw [h3, except_bind_err] at h; exact absurd h (by simp)
                  | ok o3 =>
                      rw [h3, except_bind_ok] at h
                      cases o3 with
                      | some x =>
                          injection h with h1
                          subst h1
                          exact find_tier3_mem h3
                      | none =>
                          cases candidates with
                          | nil => exact absurd h (by simp)
                          | cons c rest =>
                              injection h with h1
                              subst h1
                              simp

/-- Staging from a state whose sub-computations are all pinned down: the
resulting staged node is the heuristic pick and only the slot changes. -/
theorem stage_of_parts (env : Env) (dp : DynamicPrompt) (u : ExecState)
    (available cands : List String) (nid : String)
    (hstaged : u.staged_node_id = none)
    (hempty : is_empty u = false)
    (hready : get_ready_nodes u = Except.ok available)
    (hne : available.isEmpty = false)
    (hens : ensure_current_group dp u available = Except.ok u)
    (hfil : filter_by_group dp u.current_group_class available = Except.ok cands)
    (hhp : heuristic_pick env dp u.blocking cands = Except.ok nid) :
    stage_node_execution env dp u =
      Except.ok ((some nid, none, none), { u with staged_node_id := some nid }) := by
  simp only [stage_node_execution, hstaged]
  rw [hempty]
  simp only [Bool.false_eq_true, if_false]
  rw [hready, except_bind_ok, hne]
  simp only [Bool.false_eq_true, if_false]
  simp only [ux_friendly_pick_node]
  rw [hens, except_bind_ok, hfil, except_bind_ok, hhp, except_bind_ok]
  rfl

/-- C7: `unstage_node_execution` clears only the staged slot — the pending
set, block counts, blocking edges and the tracked current group are left
untouched — and staging again with no intervening graph change returns the
same node id and reproduces the same staged state. -/
theorem c7_unstage_roundtrip (env : Env) (dp : DynamicPrompt) (s s₁ : ExecState)
    (n : String)
    (h : stage_node_execution env dp s = Except.ok ((some n, none, none), s₁)) :
    (unstage_node_execution s₁).pendingNodes = s₁.pendingNodes ∧
    (unstage_node_execution s₁).blockCount = s₁.blockCount ∧
    (unstage_node_execution s₁).blocking = s₁.blocking ∧
    (unstage_node_execution s₁).current_group_class = s₁.current_group_class ∧
    stage_node_execution env dp (unstage_node_execution s₁) =
      Except.ok ((some n, none, none), s₁) := by
  refine ⟨rfl, rfl, rfl, rfl, ?_⟩
  simp only [stage_node_execution] at h
  cases hst : s.staged_node_id with
  | some x => rw [hst] at h; exact absurd h (by simp)
  | none =>
    rw [hst] at h
    by_cases he : is_empty s = true
    · rw [if_pos he] at h
      exact absurd h (by simp)
    · rw [if_neg he] at h
      cases hready : get_ready_nodes s with
      | error e => rw [hready, except_bind_err] at h; exact absurd h (by simp)
      | ok available =>
        rw [hready, except_bind_ok] at h
        by_cases ha : available.isEmpty = true
        · rw [if_pos ha] at h
          cases hcyc : get_nodes_in_cycle s with
          | error e => rw [hcyc, except_bind_err] at h; exact absurd h (by simp)
          | ok cyc =>
            rw [hcyc, except_bind_ok] at h
            cases cyc with
            | nil => exact absurd h (by simp [except_bind_err])
            | cons c rest =>
                simp only [except_bind_pure] at h
                cases hb : blame_loop dp c (c :: rest) with
                | error e => rw [hb, except_bind_err] at h; exact absurd h (by simp)
                | ok blamed => rw [hb, except_bind_ok] at h; exact absurd h (by simp)
        · rw [if_neg ha] at h
          cases hux : ux_friendly_pick_node env dp s available with
          | error e => rw [hux, except_bind_err] at h; exact absurd h (by simp)
          | ok p =>
            rw [hux, except_bind_ok] at h
            obtain ⟨nid, sx⟩ := p
            injection h with h1
            injection h1 with hr hs
            have hnn : nid = n := by
              have := congrArg Prod.fst hr
              simpa using this
            subst hnn
            simp only [ux_friendly_pick_node] at hux
            cases hens : ensure_current_group dp s available with
            | error e => rw [hens, except_bind_err] at hux; exact absurd hux (by simp)
            | ok se =>
              rw [hens, except_bind_ok] at hux
              cases hfil : filter_by_group dp se.current_group_class available with
              | error e => rw [hfil, except_bind_err] at hux; exact absurd hux (by simp)
              | ok cands =>
                rw [hfil, except_bind_ok] at hux
                cases hhp : heuristic_pick env dp se.blocking cands with
                | error e => rw [hhp, except_bind_err] at hux; exact absurd hux (by simp)
                | ok nid2 =>
                  rw [hhp, except_bind_ok] at hux
                  injection hux with h2
                  injection h2 with hnid hse
                  subst hnid
                  subst hse
                  subst hs
                  obtain ⟨hpend, hbc, hblk, hstg, hcache, g, hgroup⟩ :=
                    ensure_group_fields hens
                  rw [hgroup] at hfil
                  have hmemc : nid2 ∈ cands := heuristic_pick_mem hhp
                  obtain ⟨hmema, r, hr, hclass⟩ := filter_by_group_mem hfil nid2 hmemc
                  have hall := filter_by_group_all_ok hfil
                  have hise : is_empty s = false := by
                    cases hb : is_empty s
                    · rfl
                    · exact absurd hb he
                  have hne : available.isEmpty = false := by
                    cases hb : available.isEmpty
                    · rfl
                    · exact absurd hb ha
                  refine stage_of_parts env dp _ available cands nid2 rfl ?_ ?_ hne ?_ ?_ ?_
                  · show decide (se.pendingNodes.length = 0) = false
                    rw [hpend]
                    exact hise
                  · show ready_list se.blockCount se.pendingNodes = Except.ok available
                    rw [hbc, hpend]
                    exact hready
                  · show ensure_current_group dp
                      { se with staged_node_id := (none : Option String) } available =
                      Except.ok { se with staged_node_id := (none : Option String) }
                    simp only [ensure_current_group]
                    simp only [hgroup]
                    rw [any_class_true_of hall ⟨nid2, hmema, r, hr, hclass⟩,
                      except_bind_ok, except_bind_pure]
                    rfl
                  · show filter_by_group dp se.current_group_class available = Except.ok cands
                    rw [hgroup]
                    exact hfil
                  · exact hhp

/-- C7 witness: on the three-node prompt the first stage picks `x1` (largest
group `X`), and unstage followed by stage returns `x1` again with the same
state. -/
theorem c7_unstage_roundtrip_witness :
    stage_node_execution envC7 dpC7 c7state0 =
      Except.ok ((some "x1", none, none), c7state1) ∧
    stage_node_execution envC7 dpC7 (unstage_node_execution c7state1) =
      Except.ok ((some "x1", none, none), c7state1) :=
  ⟨by decide,
   (c7_unstage_roundtrip envC7 dpC7 c7state0 c7state1 "x1" (by decide)).2.2.2.2⟩

/-
Claim C2 (and groundwork shared with C3): characterisation of the peeled
cycle set.
-/

theorem alookup_mem {κ β : Type} [DecidableEq κ] {l : List (κ × β)} {k : κ} {v : β}
    (h : alookup l k = some v) : (k, v) ∈ l := by
  induction l with
  | nil => simp [alookup] at h
  | cons hd tl ih =>
      obtain ⟨k0, v0⟩ := hd
      by_cases h0 : k0 = k
      · subst h0
        simp [alookup] at h
        simp [h]
      · simp [alookup, h0] at h
        simp [ih h]

theorem alookup_of_mem_nodup {κ β : Type} [DecidableEq κ] {l : List (κ × β)} {k : κ} {v : β}
    (hmem : (k, v) ∈ l) (hnd : (akeys l).Nodup) : alookup l k = some v := by
  induction l with
  | nil => cases hmem
  | cons hd tl ih =>
      obtain ⟨k0, v0⟩ := hd
      simp only [akeys, List.map_cons, List.nodup_cons] at hnd
      rcases List.mem_cons.mp hmem with heq | hmem
      · injection heq with h1 h2
        subst h1; subst h2
        simp [alookup]
      · have hk : k0 ≠ k := by
          intro hk
          subst hk
          exact hnd.1 (by simpa [akeys] using List.mem_map_of_mem Prod.fst hmem)
        simp [alookup, hk]
        exact ih hmem (by simpa [akeys] using hnd.2)

theorem alookup_map_values {κ β : Type} [DecidableEq κ] (f : β → β) :
    ∀ (l : List (κ × β)) (k : κ),
      alookup (l.map (fun p => (p.1, f p.2))) k = (alookup l k).map f := by
  intro l
  induction l with
  | nil => intro k; simp [alookup]
  | cons hd tl ih =>
      intro k
      obtain ⟨k0, v0⟩ := hd
      by_cases h0 : k0 = k <;> simp [alookup, h0, ih]

theorem akeys_map_values {κ β : Type} (f : β → β) (l : List (κ × β)) :
    akeys (l.map (fun p => (p.1, f p.2))) = akeys l := by
  induction l with
  | nil => rfl
  | cons hd tl ih => simp [akeys]

theorem alookup_adel_ne {κ β : Type} [DecidableEq κ] {k t : κ} (h : t ≠ k) :
    ∀ l : List (κ × β), alookup (adel l k) t = alookup l t := by
  intro l
  induction l with
  | nil => simp [adel]
  | cons hd tl ih =>
      obtain ⟨k0, v0⟩ := hd
      by_cases h0 : k0 = k
      · subst h0
        simp only [adel, if_pos rfl]
        have hk : k0 ≠ t := Ne.symm h
        simp [alookup, hk]
      · simp only [adel, if_neg h0, alookup]
        by_cases h1 : k0 = t
        · simp [h1]
        · simp [h1, ih]

theorem alookup_adel_self {κ β : Type} [DecidableEq κ] {k : κ} :
    ∀ l : List (κ × β), (akeys l).Nodup → alookup (adel l k) k = none := by
  intro l
  induction l with
  | nil => intro _; simp [adel, alookup]
  | cons hd tl ih =>
      intro hnd
      obtain ⟨k0, v0⟩ := hd
      simp only [akeys, List.map_cons, List.nodup_cons] at hnd
      by_cases h0 : k0 = k
      · subst h0
        simp only [adel, if_pos rfl]
        exact alookup_eq_none_of_not_mem (by simpa [akeys] using hnd.1)
      · simp [adel, h0, alookup, h0]
        exact ih (by simpa [akeys] using hnd.2)

theorem akeys_adel {κ β : Type} [DecidableEq κ] (k : κ) :
    ∀ l : List (κ × β), akeys (adel l k) = (akeys l).erase k := by
  intro l
  induction l with
  | nil => simp [adel, akeys]
  | cons hd tl ih =>
      obtain ⟨k0, v0⟩ := hd
      by_cases h0 : k0 = k
      · subst h0
        simp [adel, akeys, List.erase_cons_head]
      · simp only [adel, if_neg h0, akeys, List.map_cons]
        rw [List.erase_cons_tail]
        · simpa [akeys] using ih
        · simp [h0]

theorem length_adel_of_mem {κ β : Type} [DecidableEq κ] {k : κ} :
    ∀ {l : List (κ × β)}, k ∈ akeys l → (adel l k).length + 1 = l.length := by
  intro l
  induction l with
  | nil => intro h; simp [akeys] at h
  | cons hd tl ih =>
      intro h
      obtain ⟨k0, v0⟩ := hd
      by_cases h0 : k0 = k
      · subst h0; simp [adel]
      · simp only [adel, if_neg h0, List.length_cons]
        rw [ih]
        simp only [akeys, List.map_cons, List.mem_cons] at h
        rcases h with h | h
        · exact absurd h.symm h0
        · simpa [akeys] using h

theorem length_adel_le {κ β : Type} [DecidableEq κ] (k : κ) :
    ∀ l : List (κ × β), (adel l k).length ≤ l.length := by
  intro l
  induction l with
  | nil => simp [adel]
  | cons hd tl ih =>
      obtain ⟨k0, v0⟩ := hd
      by_cases h0 : k0 = k
      · subst h0; simp [adel]
      · simp only [adel, if_neg h0, List.length_cons]
        omega

theorem rc_has_blocker {bb0 : List (String × List String)} {n : String}
    (h : reaches_cycle bb0 n) :
    ∃ m, reaches_cycle bb0 m ∧ blocked_by_rel bb0 n m := by
  obtain ⟨m, hrtg, htg⟩ := h
  rcases Relation.ReflTransGen.cases_head hrtg with heq | ⟨b, hnb, hbm⟩
  · subst heq
    obtain ⟨b, hnb, hbn⟩ := (Relation.TransGen.head'_iff).mp htg
    exact ⟨b, ⟨n, hbn, htg⟩, hnb⟩
  · exact ⟨b, ⟨m, hbm, htg⟩, hnb⟩

theorem rc_mem_keys {bb0 : List (String × List String)} {n : String}
    (h : reaches_cycle bb0 n) : n ∈ akeys bb0 := by
  obtain ⟨m, _, hE⟩ := rc_has_blocker h
  unfold blocked_by_rel at hE
  cases hl : alookup bb0 n with
  | none => rw [hl] at hE; simp at hE
  | some l => exact mem_akeys_of_alookup hl

theorem peel_inv_base {bb0 : List (String × List String)} (hwf : bb_wf bb0) :
    peel_inv bb0 bb0 := by
  obtain ⟨knd, rnd, closed⟩ := hwf
  refine ⟨knd, rnd, fun k hk => hk, ?_, closed, fun n _ h => rc_mem_keys h, ?_⟩
  · intro p hp m hm
    unfold blocked_by_rel
    rw [alookup_of_mem_nodup (by rw [show (p.1, p.2) = p from rfl]; exact hp) knd]
    exact hm
  · intro n hrc
    obtain ⟨m, hm, hE⟩ := rc_has_blocker hrc
    exact ⟨m, hm, hE⟩

theorem mem_of_mem_adel {κ β : Type} [DecidableEq κ] {k : κ} :
    ∀ {l : List (κ × β)} {p : κ × β}, p ∈ adel l k → p ∈ l := by
  intro l
  induction l with
  | nil => intro p h; simp [adel] at h
  | cons hd tl ih =>
      intro p h
      obtain ⟨k0, v0⟩ := hd
      by_cases h0 : k0 = k
      · subst h0
        simp only [adel, if_pos rfl] at h
        exact List.mem_cons_of_mem _ h
      · simp only [adel, if_neg h0] at h
        rcases List.mem_cons.mp h with rfl | h
        · simp
        · exact List.mem_cons_of_mem _ (ih h)

theorem akeys_erase_map (n : String) (l : List (String × List String)) :
    akeys (l.map (fun p => (p.1, p.2.erase n))) = akeys l :=
  akeys_map_values (fun r => r.erase n) l

theorem alookup_erase_map (n : String) (l : List (String × List String)) (k : String) :
    alookup (l.map (fun p => (p.1, p.2.erase n))) k =
      (alookup l k).map (fun r => r.erase n) :=
  alookup_map_values (fun r => r.erase n) l k

theorem remove_one_lookup_ne {cur : List (String × List String)} {n t : String}
    (h : t ≠ n) :
    alookup (remove_one cur n) t = (alookup cur t).map (fun l => l.erase n) := by
  unfold remove_one
  rw [alookup_adel_ne h]
  exact alookup_erase_map n cur t

theorem remove_one_lookup_self {cur : List (String × List String)} {n : String}
    (hnd : (akeys cur).Nodup) : alookup (remove_one cur n) n = none := by
  unfold remove_one
  refine alookup_adel_self _ ?_
  have hk := akeys_erase_map n cur
  rw [hk]
  exact hnd

theorem remove_one_keys (cur : List (String × List String)) (n : String) :
    akeys (remove_one cur n) = (akeys cur).erase n := by
  unfold remove_one
  rw [akeys_adel, akeys_erase_map]

theorem remove_one_length {cur : List (String × List String)} {n : String}
    (h : n ∈ akeys cur) : (remove_one cur n).length + 1 = cur.length := by
  unfold remove_one
  rw [length_adel_of_mem (by rw [akeys_erase_map]; exact h)]
  simp

theorem remove_one_inv {bb0 cur : List (String × List String)} {n : String}
    (hinv : peel_inv bb0 cur) (hrow : alookup cur n = some []) :
    peel_inv bb0 (remove_one cur n) := by
  obtain ⟨knd, rnd, ksub, rsub, closed, kept, wit⟩ := hinv
  have hkeys := remove_one_keys cur n
  have hmem_ro : ∀ p, p ∈ remove_one cur n →
      ∃ q, q ∈ cur ∧ p = (q.1, q.2.erase n) := by
    intro p hp
    unfold remove_one at hp
    have hp' := mem_of_mem_adel hp
    obtain ⟨q, hq, hqe⟩ := List.mem_map.mp hp'
    exact ⟨q, hq, hqe.symm⟩
  refine ⟨?_, ?_, ?_, ?_, ?_, ?_, ?_⟩
  · rw [hkeys]; exact knd.erase n
  · intro p hp
    obtain ⟨q, hq, rfl⟩ := hmem_ro p hp
    exact (rnd q hq).erase n
  · intro k hk
    rw [hkeys] at hk
    exact ksub k (List.mem_of_mem_erase hk)
  · intro p hp m hm
    obtain ⟨q, hq, rfl⟩ := hmem_ro p hp
    exact rsub q hq m (List.mem_of_mem_erase hm)
  · intro p hp m hm
    obtain ⟨q, hq, rfl⟩ := hmem_ro p hp
    have hmq := ((rnd q hq).mem_erase_iff).mp hm
    rw [hkeys]
    exact (knd.mem_erase_iff).mpr ⟨hmq.1, closed q hq m hmq.2⟩
  · intro x hx hrc
    have hxk := kept x hx hrc
    obtain ⟨m, hmrc, hmrow⟩ := wit x hrc
    have hxn : x ≠ n := by
      intro hxeq
      subst hxeq
      rw [hrow] at hmrow
      simp at hmrow
    rw [hkeys]
    exact (knd.mem_erase_iff).mpr ⟨hxn, hxk⟩
  · intro x hrc
    obtain ⟨m, hmrc, hmrow⟩ := wit x hrc
    have hxn : x ≠ n := by
      intro hxeq
      subst hxeq
      rw [hrow] at hmrow
      simp at hmrow
    have hmn : m ≠ n := by
      intro hmeq
      subst hmeq
      obtain ⟨m2, _, hm2row⟩ := wit m hmrc
      rw [hrow] at hm2row
      simp at hm2row
    refine ⟨m, hmrc, ?_⟩
    rw [remove_one_lookup_ne hxn]
    cases hl : alookup cur x with
    | none => rw [hl] at hmrow; simp at hmrow
    | some l =>
        rw [hl] at hmrow
        simp only [Option.getD_some] at hmrow
        simp only [Option.map_some', Option.getD_some]
        exact ((rnd _ (alookup_mem hl)).mem_erase_iff).mpr ⟨hmn, hmrow⟩

theorem to_remove_spec {cur : List (String × List String)}
    (hnd : (akeys cur).Nodup) :
    ∀ t ∈ to_remove_of cur, t ∈ akeys cur ∧ alookup cur t = some [] := by
  intro t ht
  unfold to_remove_of at ht
  simp only [akeys, List.mem_map] at ht
  obtain ⟨p, hp, hpt⟩ := ht
  have hpf := List.mem_filter.mp hp
  have hp2 : p.2 = [] := by
    cases h2 : p.2 with
    | nil => rfl
    | cons a l =>
        have := hpf.2
        rw [h2] at this
        simp at this
  subst hpt
  refine ⟨by simpa [akeys] using List.mem_map_of_mem Prod.fst hpf.1, ?_⟩
  have hentry : (p.1, ([] : List String)) ∈ cur := by
    rw [← hp2]
    exact hpf.1
  exact alookup_of_mem_nodup hentry hnd

theorem to_remove_nodup {cur : List (String × List String)}
    (hnd : (akeys cur).Nodup) : (to_remove_of cur).Nodup := by
  unfold to_remove_of
  unfold akeys at *
  exact hnd.sublist (List.Sublist.map Prod.fst (List.filter_sublist cur))

theorem to_remove_empty {cur : List (String × List String)}
    (h : to_remove_of cur = []) : ∀ p ∈ cur, p.2 ≠ [] := by
  intro p hp hcontra
  unfold to_remove_of at h
  have : p ∈ cur.filter (fun q => q.2.isEmpty) :=
    List.mem_filter.mpr ⟨hp, by simp [hcontra]⟩
  have : p.1 ∈ akeys (cur.filter (fun q => q.2.isEmpty)) := by
    simpa [akeys] using List.mem_map_of_mem Prod.fst this
  rw [h] at this
  cases this

theorem remove_all_spec (bb0 : List (String × List String)) :
    ∀ (tr : List String) (cur : List (String × List String)),
      peel_inv bb0 cur → tr.Nodup →
      (∀ t ∈ tr, alookup cur t = some []) →
      peel_inv bb0 (remove_all cur tr) ∧
        (remove_all cur tr).length + tr.length = cur.length := by
  intro tr
  induction tr with
  | nil => intro cur hinv _ _; exact ⟨hinv, by simp [remove_all]⟩
  | cons t rest ih =>
      intro cur hinv hnd hrows
      have hrow := hrows t (by simp)
      have htk : t ∈ akeys cur := mem_akeys_of_alookup hrow
      have hinv' := remove_one_inv hinv hrow
      have hlen := remove_one_length htk
      have hrest : ∀ r ∈ rest, alookup (remove_one cur t) r = some [] := by
        intro r hr
        have hrt : r ≠ t := by
          intro heq
          subst heq
          exact (List.nodup_cons.mp hnd).1 hr
        rw [remove_one_lookup_ne hrt, hrows r (by simp [hr])]
        rfl
      have hrec := ih (remove_one cur t) hinv' (List.nodup_cons.mp hnd).2 hrest
      refine ⟨hrec.1, ?_⟩
      show (remove_all (remove_one cur t) rest).length + (rest.length + 1) = cur.length
      omega

theorem fixpoint_rc (bb0 cur : List (String × List String))
    (hinv : peel_inv bb0 cur) (hfix : to_remove_of cur = []) :
    ∀ n ∈ akeys cur, reaches_cycle bb0 n := by
  obtain ⟨knd, rnd, ksub, rsub, closed, _, _⟩ := hinv
  have hne := to_remove_empty hfix
  have hstep : ∀ x ∈ akeys cur,
      (((alookup cur x).getD []).headD x) ∈ akeys cur ∧
      blocked_by_rel bb0 x (((alookup cur x).getD []).headD x) := by
    intro x hx
    have hsome := alookup_isSome_of_mem_akeys hx
    cases hl : alookup cur x with
    | none => rw [hl] at hsome; simp at hsome
    | some l =>
        have hmem : (x, l) ∈ cur := alookup_mem hl
        cases l with
        | nil => exact absurd rfl (hne _ hmem)
        | cons m ms =>
            simp only [Option.getD_some, List.headD_cons]
            exact ⟨closed _ hmem m (by simp), rsub _ hmem m (by simp)⟩
  intro n hn
  have hiter : ∀ k, (fun x => ((alookup cur x).getD []).headD x)^[k] n ∈ akeys cur ∧
      Relation.ReflTransGen (blocked_by_rel bb0) n
        ((fun x => ((alookup cur x).getD []).headD x)^[k] n) := by
    intro k
    induction k with
    | zero => exact ⟨hn, Relation.ReflTransGen.refl⟩
    | succ k ih =>
        rw [Function.iterate_succ_apply']
        exact ⟨(hstep _ ih.1).1, Relation.ReflTransGen.tail ih.2 (hstep _ ih.1).2⟩
  have hiter_tg : ∀ (k : Nat) (x), x ∈ akeys cur →
      Relation.TransGen (blocked_by_rel bb0) x
        ((fun x => ((alookup cur x).getD []).headD x)^[k + 1] x) := by
    intro k
    induction k with
    | zero =>
        intro x hx
        rw [Function.iterate_one]
        exact Relation.TransGen.single (hstep x hx).2
    | succ k ih =>
        intro x hx
        rw [Function.iterate_succ_apply]
        exact Relation.TransGen.head (hstep x hx).2 (ih _ (hstep x hx).1)
  have key : ∀ a b : Nat, a < b →
      (fun x => ((alookup cur x).getD []).headD x)^[a] n =
        (fun x => ((alookup cur x).getD []).headD x)^[b] n →
      reaches_cycle bb0 n := by
    intro a b hab habeq
    refine ⟨(fun x => ((alookup cur x).getD []).headD x)^[a] n, (hiter a).2, ?_⟩
    have hsplit : (fun x => ((alookup cur x).getD []).headD x)^[b] n =
        (fun x => ((alookup cur x).getD []).headD x)^[(b - a - 1) + 1]
          ((fun x => ((alookup cur x).getD []).headD x)^[a] n) := by
      rw [← Function.iterate_add_apply]
      congr 1
      omega
    have htg := hiter_tg (b - a - 1) _ (hiter a).1
    rw [← hsplit, ← habeq] at htg
    exact htg
  have hmap : ∀ i ∈ Finset.range ((akeys cur).length + 1),
      (fun x => ((alookup cur x).getD []).headD x)^[i] n ∈ (akeys cur).toFinset := by
    intro i _
    simpa using (hiter i).1
  have hcard : (akeys cur).toFinset.card < (Finset.range ((akeys cur).length + 1)).card := by
    rw [Finset.card_range]
    exact Nat.lt_succ_of_le (List.toFinset_card_le _)
  obtain ⟨i, _, j, _, hij, heq⟩ :=
    Finset.exists_ne_map_eq_of_card_lt_of_maps_to hcard hmap
  rcases lt_or_gt_of_ne hij with hlt | hgt
  · exact key i j hlt heq
  · exact key j i hgt heq.symm

theorem peel_characterization (bb0 : List (String × List String)) :
    ∀ (fuel : Nat) (cur : List (String × List String)),
      peel_inv bb0 cur → cur.length < fuel →
      ∀ n, n ∈ akeys (peel fuel cur) ↔ (n ∈ akeys bb0 ∧ reaches_cycle bb0 n) := by
  intro fuel
  induction fuel with
  | zero => intro cur _ hlen; omega
  | succ f ih =>
      intro cur hinv hlen n
      simp only [peel]
      by_cases htr : (to_remove_of cur).isEmpty = true
      · rw [if_pos htr]
        have hfix : to_remove_of cur = [] := by
          cases h : to_remove_of cur with
          | nil => rfl
          | cons a l => rw [h] at htr; simp at htr
        constructor
        · intro hmem
          exact ⟨hinv.2.2.1 n hmem, fixpoint_rc bb0 cur hinv hfix n hmem⟩
        · intro ⟨hmem, hrc⟩
          exact hinv.2.2.2.2.2.1 n hmem hrc
      · rw [if_neg htr]
        have hnd := hinv.1
        have htr_ne : to_remove_of cur ≠ [] := by
          intro h
          rw [h] at htr
          simp at htr
        have hspec := to_remove_spec hnd
        obtain ⟨hinv', hlen'⟩ :=
          remove_all_spec bb0 (to_remove_of cur) cur hinv (to_remove_nodup hnd)
            (fun t ht => (hspec t ht).2)
        refine ih (remove_all cur (to_remove_of cur)) hinv' ?_ n
        have hpos : 0 < (to_remove_of cur).length := by
          cases h : to_remove_of cur with
          | nil => exact absurd h htr_ne
          | cons a l => simp
        omega

theorem mem_aset {κ β : Type} [DecidableEq κ] {k : κ} {v : β} :
    ∀ {l : List (κ × β)} {p : κ × β}, p ∈ aset l k v → p = (k, v) ∨ p ∈ l := by
  intro l
  induction l with
  | nil => intro p h; simp [aset] at h; exact Or.inl h
  | cons hd tl ih =>
      intro p h
      obtain ⟨k0, v0⟩ := hd
      by_cases h0 : k0 = k
      · subst h0
        simp only [aset, if_pos rfl] at h
        rcases List.mem_cons.mp h with rfl | h
        · exact Or.inl rfl
        · exact Or.inr (List.mem_cons_of_mem _ h)
      · simp only [aset, if_neg h0] at h
        rcases List.mem_cons.mp h with rfl | h
        · exact Or.inr (by simp)
        · rcases ih h with h | h
          · exact Or.inl h
          · exact Or.inr (List.mem_cons_of_mem _ h)

theorem bb_add_row_spec (f : String) :
    ∀ (row : List (String × List (Nat × Bool))) (bb bb' : List (String × List String)),
      bb_add_row f bb row = Except.ok bb' →
      akeys bb' = akeys bb ∧
      ((∀ p ∈ bb, p.2.Nodup) → ∀ p ∈ bb', p.2.Nodup) ∧
      (∀ t m, blocked_by_rel bb' t m ↔ blocked_by_rel bb t m ∨
        (m = f ∧ ∃ socks, (t, socks) ∈ row ∧ any_true_sock socks = true)) := by
  intro row
  induction row with
  | nil =>
      intro bb bb' h
      simp only [bb_add_row] at h
      injection h with h1
      subst h1
      exact ⟨rfl, fun h p hp => h p hp, fun t m => by simp⟩
  | cons entry rest ih =>
      intro bb bb' h
      obtain ⟨t0, socks0⟩ := entry
      simp only [bb_add_row] at h
      by_cases hany : any_true_sock socks0 = true
      · rw [if_pos hany] at h
        cases hl : alookup bb t0 with
        | none => rw [hl] at h; exact absurd h (by simp)
        | some l =>
            rw [hl] at h
            obtain ⟨hk, hnd, hrel⟩ := ih _ _ h
            have hk1 : akeys (aset bb t0 (if f ∈ l then l else l ++ [f])) = akeys bb := by
              rw [akeys_aset, hl]
              simp
            refine ⟨by rw [hk, hk1], ?_, ?_⟩
            · intro hall p hp
              refine hnd ?_ p hp
              intro q hq
              rcases mem_aset hq with rfl | hq
              · by_cases hf : f ∈ l
                · rw [if_pos hf]
                  exact hall (t0, l) (alookup_mem hl)
                · rw [if_neg hf]
                  simp only [List.nodup_append, List.nodup_cons]
                  exact ⟨hall (t0, l) (alookup_mem hl), by simp, by simpa using hf⟩
              · exact hall q hq
            · intro t m
              rw [hrel t m]
              have hstep : blocked_by_rel (aset bb t0 (if f ∈ l then l else l ++ [f])) t m ↔
                  blocked_by_rel bb t m ∨ (m = f ∧ t = t0) := by
                unfold blocked_by_rel
                by_cases ht : t = t0
                · subst ht
                  rw [alookup_aset_self, hl]
                  simp only [Option.getD_some]
                  by_cases hf : f ∈ l
                  · rw [if_pos hf]
                    constructor
                    · intro hm; exact Or.inl hm
                    · intro hm
                      rcases hm with hm | ⟨rfl, _⟩
                      · exact hm
                      · exact hf
                  · rw [if_neg hf]
                    simp only [List.mem_append, List.mem_singleton]
                    constructor
                    · intro hm
                      rcases hm with hm | rfl
                      · exact Or.inl hm
                      · exact Or.inr ⟨rfl, trivial⟩
                    · intro hm
                      rcases hm with hm | ⟨rfl, _⟩
                      · exact Or.inl hm
                      · exact Or.inr rfl
                · rw [alookup_aset_ne _ _ _ _ (fun hc => ht hc.symm)]
                  constructor
                  · intro hm; exact Or.inl hm
                  · intro hm
                    rcases hm with hm | ⟨_, hteq⟩
                    · exact hm
                    · exact absurd hteq ht
              rw [hstep]
              constructor
              · intro hm
                rcases hm with (hm | ⟨rfl, rfl⟩) | ⟨rfl, socks, hsocks, htrue⟩
                · exact Or.inl hm
                · exact Or.inr ⟨rfl, socks0, by simp, hany⟩
                · exact Or.inr ⟨rfl, socks, List.mem_cons_of_mem _ hsocks, htrue⟩
              · intro hm
                rcases hm with hm | ⟨rfl, socks, hsocks, htrue⟩
                · exact Or.inl (Or.inl hm)
                · rcases List.mem_cons.mp hsocks with heq | hsocks
                  · injection heq with he1 he2
                    exact Or.inl (Or.inr ⟨rfl, he1⟩)
                  · exact Or.inr ⟨rfl, socks, hsocks, htrue⟩
      · rw [if_neg hany] at h
        obtain ⟨hk, hnd, hrel⟩ := ih _ _ h
        refine ⟨hk, hnd, ?_⟩
        intro t m
        rw [hrel t m]
        constructor
        · intro hm
          rcases hm with hm | ⟨rfl, socks, hsocks, htrue⟩
          · exact Or.inl hm
          · exact Or.inr ⟨rfl, socks, List.mem_cons_of_mem _ hsocks, htrue⟩
        · intro hm
          rcases hm with hm | ⟨rfl, socks, hsocks, htrue⟩
          · exact Or.inl hm
          · rcases List.mem_cons.mp hsocks with heq | hsocks
            · injection heq with he1 he2
              subst he2
              exact absurd htrue hany
            · exact Or.inr ⟨rfl, socks, hsocks, htrue⟩

theorem build_rows_spec :
    ∀ (rows : List (String × List (String × List (Nat × Bool))))
      (bb bb' : List (String × List String)),
      build_blocked_by_rows bb rows = Except.ok bb' →
      akeys bb' = akeys bb ∧
      ((∀ p ∈ bb, p.2.Nodup) → ∀ p ∈ bb', p.2.Nodup) ∧
      (∀ t m, blocked_by_rel bb' t m ↔ blocked_by_rel bb t m ∨
        ∃ row, (m, row) ∈ rows ∧ ∃ socks, (t, socks) ∈ row ∧ any_true_sock socks = true) := by
  intro rows
  induction rows with
  | nil =>
      intro bb bb' h
      simp only [build_blocked_by_rows] at h
      injection h with h1
      subst h1
      exact ⟨rfl, fun h p hp => h p hp, fun t m => by simp⟩
  | cons entry rest ih =>
      intro bb bb' h
      obtain ⟨f, row⟩ := entry
      simp only [build_blocked_by_rows] at h
      cases hstep : bb_add_row f bb row with
      | error e => rw [hstep, except_bind_err] at h; exact absurd h (by simp)
      | ok bb1 =>
          rw [hstep, except_bind_ok] at h
          obtain ⟨hk1, hnd1, hrel1⟩ := bb_add_row_spec f row bb bb1 hstep
          obtain ⟨hk2, hnd2, hrel2⟩ := ih bb1 bb' h
          refine ⟨by rw [hk2, hk1], fun hall => hnd2 (hnd1 hall), ?_⟩
          intro t m
          rw [hrel2 t m, hrel1 t m]
          constructor
          · intro hm
            rcases hm with (hm | ⟨rfl, socks, hsocks, htrue⟩) | ⟨r2, hr2, socks, hsocks, htrue⟩
            · exact Or.inl hm
            · exact Or.inr ⟨row, by simp, socks, hsocks, htrue⟩
            · exact Or.inr ⟨r2, List.mem_cons_of_mem _ hr2, socks, hsocks, htrue⟩
          · intro hm
            rcases hm with hm | ⟨r2, hr2, socks, hsocks, htrue⟩
            · exact Or.inl (Or.inl hm)
            · rcases List.mem_cons.mp hr2 with heq | hr2
              · injection heq with he1 he2
                subst he2
                exact Or.inl (Or.inr ⟨he1, socks, hsocks, htrue⟩)
              · exact Or.inr ⟨r2, hr2, socks, hsocks, htrue⟩

theorem alookup_map_nil (l : List String) (k : String) :
    (alookup (l.map (fun n => (n, ([] : List String)))) k).getD [] = [] := by
  induction l with
  | nil => rfl
  | cons a t ih =>
      by_cases h : a = k
      · simp [alookup, h]
      · simpa [alookup, h] using ih

theorem akeys_map_nil (l : List String) :
    akeys (l.map (fun n => (n, ([] : List String)))) = l := by
  induction l with
  | nil => rfl
  | cons a t ih => simpa [akeys] using ih

/-- C2, corrected.  On any well-formed scheduler state whose `blocked_by`
construction succeeds, `get_nodes_in_cycle` returns exactly the pending nodes
that lie on a dependency cycle of the block graph OR transitively depend on
such a node (`reaches_cycle`) — a possibly strict superset of the cycle
members the spec describes — where the block graph's relation coincides with
the true-socketed `blocking` edges of the state. -/
theorem c2_cycle_set (s : ExecState) (bb : List (String × List String))
    (hnd : s.pendingNodes.Nodup)
    (hknd : (akeys s.blocking).Nodup)
    (hrnd : ∀ p ∈ s.blocking, (akeys p.2).Nodup)
    (hsub : ∀ k ∈ akeys s.blocking, k ∈ s.pendingNodes)
    (hbuild : build_blocked_by s = Except.ok bb) :
    ∃ L, get_nodes_in_cycle s = Except.ok L ∧
      (∀ t m, blocked_by_rel bb t m ↔ dep_rel s t m) ∧
      (∀ n, n ∈ L ↔ n ∈ s.pendingNodes ∧ reaches_cycle bb n) := by
  have hbase0 : ∀ t m,
      ¬ blocked_by_rel (s.pendingNodes.map (fun n => (n, ([] : List String)))) t m := by
    intro t m hm
    unfold blocked_by_rel at hm
    rw [alookup_map_nil] at hm
    cases hm
  obtain ⟨hk, hrows, hrel⟩ := build_rows_spec s.blocking _ bb hbuild
  rw [akeys_map_nil] at hk
  have hrel' : ∀ t m, blocked_by_rel bb t m ↔
      ∃ row, (m, row) ∈ s.blocking ∧
        ∃ socks, (t, socks) ∈ row ∧ any_true_sock socks = true := by
    intro t m
    rw [hrel t m]
    constructor
    · intro h
      rcases h with h | h
      · exact absurd h (hbase0 t m)
      · exact h
    · exact Or.inr
  have hdep : ∀ t m, blocked_by_rel bb t m ↔ dep_rel s t m := by
    intro t m
    rw [hrel' t m]
    unfold dep_rel
    constructor
    · intro ⟨row, hrow, socks, hsocks, htrue⟩
      exact ⟨row, alookup_of_mem_nodup hrow hknd, socks,
        alookup_of_mem_nodup hsocks (hrnd (m, row) hrow), htrue⟩
    · intro ⟨row, hrow, socks, hsocks, htrue⟩
      exact ⟨row, alookup_mem hrow, socks, alookup_mem hsocks, htrue⟩
  have hwf : bb_wf bb := by
    refine ⟨by rw [hk]; exact hnd, ?_, ?_⟩
    · refine hrows ?_
      intro p hp
      obtain ⟨n, _, hn⟩ := List.mem_map.mp hp
      rw [← hn]
      exact List.nodup_nil
    · intro p hp m hm
      have hbr : blocked_by_rel bb p.1 m := by
        unfold blocked_by_rel
        rw [alookup_of_mem_nodup (show (p.1, p.2) ∈ bb from hp) (by rw [hk]; exact hnd)]
        exact hm
      obtain ⟨row, hrow, _⟩ := (hrel' p.1 m).mp hbr
      rw [hk]
      exact hsub m (List.mem_map_of_mem Prod.fst hrow)
  refine ⟨akeys (peel (bb.length + 1) bb), ?_, hdep, ?_⟩
  · unfold get_nodes_in_cycle
    rw [hbuild, except_bind_ok]
  · intro n
    rw [peel_characterization bb (bb.length + 1) bb (peel_inv_base hwf)
      (Nat.lt_succ_self _) n, hk]

theorem no_cycle_through_C :
    ¬ Relation.TransGen
      (blocked_by_rel [("C", ["A"]), ("A", ["B"]), ("B", ["A"])]) "C" "C" := by
  intro htg
  obtain ⟨b, _, hlast⟩ := (Relation.TransGen.tail'_iff).mp htg
  unfold blocked_by_rel at hlast
  by_cases h1 : b = "C"
  · subst h1; revert hlast; decide
  · by_cases h2 : b = "A"
    · subst h2; revert hlast; decide
    · by_cases h3 : b = "B"
      · subst h3; revert hlast; decide
      · have h1' : ¬("C" = b) := fun h => h1 h.symm
        have h2' : ¬("A" = b) := fun h => h2 h.symm
        have h3' : ¬("B" = b) := fun h => h3 h.symm
        rw [show alookup [("C", ["A"]), ("A", ["B"]), ("B", ["A"])] b = none from by
          simp only [alookup_cons, alookup_nil, if_neg h1', if_neg h2', if_neg h3']] at hlast
        cases hlast

/-- C2 counterexample: on the prompt whose node `C` consumes the two-cycle
`A ↔ B`, the peeling of `get_nodes_in_cycle` keeps `C` (it transitively
depends on the cycle), yet `C` lies on no dependency cycle of the block
graph — refuting "exactly the pending nodes that lie on a cycle, no more". -/
theorem c2_counterexample :
    get_nodes_in_cycle c2state = Except.ok ["C", "A", "B"] ∧
    "C" ∈ c2state.pendingNodes ∧
    build_blocked_by c2state =
      Except.ok [("C", ["A"]), ("A", ["B"]), ("B", ["A"])] ∧
    ¬ Relation.TransGen
      (blocked_by_rel [("C", ["A"]), ("A", ["B"]), ("B", ["A"])]) "C" "C" :=
  ⟨by decide, by decide, by decide, no_cycle_through_C⟩

/-- C2 witness: the corrected characterization instantiated on the concrete
`C → (A ↔ B)` state. -/
theorem c2_cycle_set_witness :
    ∃ L, get_nodes_in_cycle c2state = Except.ok L ∧
      (∀ t m, blocked_by_rel [("C", ["A"]), ("A", ["B"]), ("B", ["A"])] t m ↔
        dep_rel c2state t m) ∧
      (∀ n, n ∈ L ↔ n ∈ c2state.pendingNodes ∧
        reaches_cycle [("C", ["A"]), ("A", ["B"]), ("B", ["A"])] n) :=
  c2_cycle_set c2state [("C", ["A"]), ("A", ["B"]), ("B", ["A"])]
    (by decide) (by decide) (by decide) (by decide) (by decide)

theorem blame_loop_spec (dp : DynamicPrompt) (acc : String) :
    ∀ (l : List String) (b : String),
      blame_loop dp acc l = Except.ok b →
      (b = acc ∧ ∀ n ∈ l, get_display_node_id dp n = some n) ∨
      ∃ n ∈ l, get_display_node_id dp n = some b ∧ b ≠ n := by
  intro l
  induction l with
  | nil =>
      intro b h
      simp only [blame_loop] at h
      injection h with h1
      exact Or.inl ⟨h1.symm, by simp⟩
  | cons nid rest ih =>
      intro b h
      simp only [blame_loop] at h
      cases hd : get_display_node_id dp nid with
      | none =>
          simp only [hd] at h
          exact absurd h (by simp)
      | some disp =>
          simp only [hd] at h
          by_cases hne : disp = nid
          · rw [if_neg (fun hc => hc hne)] at h
            rcases ih b h with ⟨hb, hall⟩ | ⟨n, hn, hdn, hbn⟩
            · refine Or.inl ⟨hb, ?_⟩
              intro n hn
              rcases List.mem_cons.mp hn with rfl | hn
              · rw [hd, hne]
              · exact hall n hn
            · exact Or.inr ⟨n, List.mem_cons_of_mem _ hn, hdn, hbn⟩
          · rw [if_pos hne] at h
            injection h with h1
            subst h1
            exact Or.inr ⟨nid, by simp, hd, hne⟩

/-- C3, corrected.  With the slot empty, the pending set non-empty and no
ready node, `stage_node_execution` returns a `DependencyCycleError` without
touching the state (the slot stays empty); the blamed node is the display id
of the first PEELED-set member whose display id differs from its own id,
defaulting to the first peeled-set member — but the peeled set is the cycle
nodes together with their transitive dependents, so the blamed node need not
belong to any cycle. -/
theorem c3_cycle_error (env : Env) (dp : DynamicPrompt) (s : ExecState)
    (bb : List (String × List String)) (L : List String) (first blamed : String)
    (hslot : s.staged_node_id = none)
    (hne : s.pendingNodes ≠ [])
    (hready : get_ready_nodes s = Except.ok [])
    (hnd : s.pendingNodes.Nodup)
    (hsub : ∀ k ∈ akeys s.blocking, k ∈ s.pendingNodes)
    (hbuild : build_blocked_by s = Except.ok bb)
    (hcyc : get_nodes_in_cycle s = Except.ok L)
    (hfirst : L.head? = some first)
    (hblame : blame_loop dp first L = Except.ok blamed) :
    stage_node_execution env dp s =
      Except.ok ((none,
        some { node_id := blamed,
               exception_message := "Dependency cycle detected",
               exception_type := "graph.DependencyCycleError",
               traceback := [],
               current_inputs := [] },
        some (ExnVal.dependencyCycleError "Dependency cycle detected")), s) ∧
    ((blamed = first ∧ ∀ n ∈ L, get_display_node_id dp n = some n) ∨
      ∃ n ∈ L, get_display_node_id dp n = some blamed ∧ blamed ≠ n) ∧
    (∀ n ∈ L, n ∈ s.pendingNodes ∧ reaches_cycle bb n) := by
  have hie : is_empty s = false := by
    unfold is_empty
    cases hpn : s.pendingNodes with
    | nil => exact absurd hpn hne
    | cons a t => simp
  refine ⟨?_, blame_loop_spec dp first L blamed hblame, ?_⟩
  · cases L with
    | nil => cases hfirst
    | cons c rest =>
        have hc : c = first := Option.some.inj hfirst
        rw [← hc] at hblame
        simp only [stage_node_execution, hslot]
        rw [if_neg (show ¬(is_empty s = true) by rw [hie]; exact Bool.false_ne_true)]
        rw [hready]
        simp only [except_bind_ok, List.isEmpty_nil, if_true]
        rw [hcyc]
        simp only [except_bind_ok, except_bind_pure]
        rw [hblame]
        simp only [except_bind_ok]
  · intro n hn
    have hbase0 : ∀ t m,
        ¬ blocked_by_rel (s.pendingNodes.map (fun x => (x, ([] : List String)))) t m := by
      intro t m hm
      unfold blocked_by_rel at hm
      rw [alookup_map_nil] at hm
      cases hm
    obtain ⟨hk, hrows, hrel⟩ := build_rows_spec s.blocking _ bb hbuild
    rw [akeys_map_nil] at hk
    have hwf : bb_wf bb := by
      refine ⟨by rw [hk]; exact hnd, ?_, ?_⟩
      · refine hrows ?_
        intro p hp
        obtain ⟨x, _, hx⟩ := List.mem_map.mp hp
        rw [← hx]
        exact List.nodup_nil
      · intro p hp m hm
        have hbr : blocked_by_rel bb p.1 m := by
          unfold blocked_by_rel
          rw [alookup_of_mem_nodup (show (p.1, p.2) ∈ bb from hp) (by rw [hk]; exact hnd)]
          exact hm
        rcases (hrel p.1 m).mp hbr with hb | ⟨row, hrow, _⟩
        · exact absurd hb (hbase0 p.1 m)
        · rw [hk]
          exact hsub m (List.mem_map_of_mem Prod.fst hrow)
    have hLform : L = akeys (peel (bb.length + 1) bb) := by
      unfold get_nodes_in_cycle at hcyc
      rw [hbuild, except_bind_ok] at hcyc
      injection hcyc with h1
      exact h1.symm
    rw [hLform] at hn
    have := (peel_characterization bb (bb.length + 1) bb (peel_inv_base hwf)
      (Nat.lt_succ_self _) n).mp hn
    exact ⟨hk ▸ this.1, this.2⟩

/-- C3 counterexample: on the `C → (A ↔ B)` prompt (no display mappings),
the cycle branch blames `"C"`, a node that lies on no dependency cycle —
refuting "the blamed node is a member of the minimal cycle set". -/
theorem c3_counterexample :
    (∃ exn, stage_node_execution envC2 dpC2 c2state =
      Except.ok ((none,
        some { node_id := "C",
               exception_message := "Dependency cycle detected",
               exception_type := "graph.DependencyCycleError",
               traceback := [],
               current_inputs := [] }, some exn), c2state)) ∧
    build_blocked_by c2state =
      Except.ok [("C", ["A"]), ("A", ["B"]), ("B", ["A"])] ∧
    ¬ Relation.TransGen
      (blocked_by_rel [("C", ["A"]), ("A", ["B"]), ("B", ["A"])]) "C" "C" :=
  ⟨⟨ExnVal.dependencyCycleError "Dependency cycle detected", by decide⟩,
    by decide, no_cycle_through_C⟩

/-- C3 witness: the corrected cycle-error behaviour instantiated on the
concrete `C → (A ↔ B)` state, where the blamed node is `"C"`. -/
theorem c3_cycle_error_witness :
    stage_node_execution envC2 dpC2 c2state =
      Except.ok ((none,
        some { node_id := "C",
               exception_message := "Dependency cycle detected",
               exception_type := "graph.DependencyCycleError",
               traceback := [],
               current_inputs := [] },
        some (ExnVal.dependencyCycleError "Dependency cycle detected")), c2state) ∧
    ((("C" : String) = "C" ∧
        ∀ n ∈ ["C", "A", "B"], get_display_node_id dpC2 n = some n) ∨
      ∃ n ∈ ["C", "A", "B"], get_display_node_id dpC2 n = some "C" ∧ "C" ≠ n) ∧
    (∀ n ∈ ["C", "A", "B"], n ∈ c2state.pendingNodes ∧
      reaches_cycle [("C", ["A"]), ("A", ["B"]), ("B", ["A"])] n) :=
  c3_cycle_error envC2 dpC2 c2state [("C", ["A"]), ("A", ["B"]), ("B", ["A"])]
    ["C", "A", "B"] "C" "C" (by decide) (by decide) (by decide) (by decide)
    (by decide) (by decide) (by decide) (by decide) (by decide)

theorem countTargeting_cons (p : String × List (String × List (Nat × Bool)))
    (l : List (String × List (String × List (Nat × Bool)))) (n : String) :
    countTargeting (p :: l) n =
      (if n ∈ akeys p.2 then 1 else 0) + countTargeting l n := by
  by_cases h : n ∈ akeys p.2 <;> simp [countTargeting, List.filter_cons, h] <;> omega

theorem countTargeting_zero_iff
    (bk : List (String × List (String × List (Nat × Bool)))) (n : String) :
    countTargeting bk n = 0 ↔ ∀ p ∈ bk, n ∉ akeys p.2 := by
  induction bk with
  | nil => simp [countTargeting]
  | cons p l ih =>
      rw [countTargeting_cons]
      by_cases h : n ∈ akeys p.2
      · rw [if_pos h]
        constructor
        · intro h0; exact absurd h0 (by omega)
        · intro hall; exact absurd h (hall p (by simp))
      · rw [if_neg h, Nat.zero_add, ih]
        constructor
        · intro hall q hq
          rcases List.mem_cons.mp hq with rfl | hq
          · exact h
          · exact hall q hq
        · intro hall q hq
          exact hall q (List.mem_cons_of_mem _ hq)

theorem countTargeting_append
    (l1 l2 : List (String × List (String × List (Nat × Bool)))) (n : String) :
    countTargeting (l1 ++ l2) n = countTargeting l1 n + countTargeting l2 n := by
  simp [countTargeting, List.filter_append]

theorem aset_append_of_none {κ β : Type} [DecidableEq κ] {l : List (κ × β)} {k : κ} (v : β)
    (h : alookup l k = none) : aset l k v = l ++ [(k, v)] := by
  induction l with
  | nil => rfl
  | cons hd tl ih =>
      obtain ⟨k0, v0⟩ := hd
      by_cases h0 : k0 = k
      · rw [alookup_cons, if_pos h0] at h; cases h
      · rw [alookup_cons, if_neg h0] at h
        simp [aset, h0, ih h]

theorem countTargeting_aset_congr {f n : String}
    {row row' : List (String × List (Nat × Bool))}
    (hiff : n ∈ akeys row' ↔ n ∈ akeys row) :
    ∀ {bk : List (String × List (String × List (Nat × Bool)))},
      alookup bk f = some row →
      countTargeting (aset bk f row') n = countTargeting bk n := by
  intro bk
  induction bk with
  | nil => intro h; cases h
  | cons hd tl ih =>
      intro h
      obtain ⟨k0, v0⟩ := hd
      by_cases h0 : k0 = f
      · subst h0
        rw [alookup_cons, if_pos rfl] at h
        injection h with hv
        subst hv
        simp only [aset, eq_self_iff_true, if_true]
        rw [countTargeting_cons, countTargeting_cons]
        by_cases hn : n ∈ akeys v0
        · rw [if_pos hn, if_pos (hiff.mpr hn)]
        · rw [if_neg hn, if_neg (fun hc => hn (hiff.mp hc))]
      · rw [alookup_cons, if_neg h0] at h
        simp only [aset, if_neg h0]
        rw [countTargeting_cons, countTargeting_cons, ih h]

theorem countTargeting_aset_add {f n : String}
    {row row' : List (String × List (Nat × Bool))}
    (hold : n ∉ akeys row) (hnew : n ∈ akeys row') :
    ∀ {bk : List (String × List (String × List (Nat × Bool)))},
      alookup bk f = some row →
      countTargeting (aset bk f row') n = countTargeting bk n + 1 := by
  intro bk
  induction bk with
  | nil => intro h; cases h
  | cons hd tl ih =>
      intro h
      obtain ⟨k0, v0⟩ := hd
      by_cases h0 : k0 = f
      · subst h0
        rw [alookup_cons, if_pos rfl] at h
        injection h with hv
        subst hv
        simp only [aset, eq_self_iff_true, if_true]
        rw [countTargeting_cons, countTargeting_cons, if_pos hnew, if_neg hold]
        omega
      · rw [alookup_cons, if_neg h0] at h
        simp only [aset, if_neg h0]
        rw [countTargeting_cons, countTargeting_cons, ih h]
        omega

theorem countTargeting_adel_eq {f n : String} {row : List (String × List (Nat × Bool))} :
    ∀ {bk : List (String × List (String × List (Nat × Bool)))},
      alookup bk f = some row →
      countTargeting bk n =
        (if n ∈ akeys row then 1 else 0) + countTargeting (adel bk f) n := by
  intro bk
  induction bk with
  | nil => intro h; cases h
  | cons hd tl ih =>
      intro h
      obtain ⟨k0, v0⟩ := hd
      by_cases h0 : k0 = f
      · subst h0
        rw [alookup_cons, if_pos rfl] at h
        injection h with hv
        subst hv
        simp only [adel, eq_self_iff_true, if_true]
        rw [countTargeting_cons]
      · rw [alookup_cons, if_neg h0] at h
        simp only [adel, if_neg h0]
        rw [countTargeting_cons, countTargeting_cons, ih h]
        omega

theorem any_true_sock_aset_true (socks : List (Nat × Bool)) (k : Nat) :
    any_true_sock (aset socks k true) = true := by
  induction socks with
  | nil => rfl
  | cons hd tl ih =>
      obtain ⟨k0, b0⟩ := hd
      by_cases h0 : k0 = k
      · simp [aset, h0, any_true_sock]
      · simp only [aset, if_neg h0, any_true_sock, List.any_cons]
        unfold any_true_sock at ih
        rw [ih]
        simp

theorem mem_akeys_aset_self {κ β : Type} [DecidableEq κ] (l : List (κ × β)) (k : κ) (v : β) :
    k ∈ akeys (aset l k v) := by
  rw [akeys_aset]
  by_cases h : (alookup l k).isSome
  · rw [if_pos h]
    cases hl : alookup l k with
    | none => rw [hl] at h; simp at h
    | some w => exact mem_akeys_of_alookup hl
  · rw [if_neg h]
    simp

theorem dec_all_spec :
    ∀ (row : List (String × List (Nat × Bool))) (bc bc' : List (String × Int)),
      dec_all bc row = Except.ok bc' → (akeys row).Nodup →
      ∀ m, alookup bc' m =
        if m ∈ akeys row then (alookup bc m).map (fun c => c - 1) else alookup bc m := by
  intro row
  induction row with
  | nil =>
      intro bc bc' h _ m
      simp only [dec_all] at h
      injection h with h1
      subst h1
      simp [akeys]
  | cons hd rest ih =>
      intro bc bc' h hnd m
      obtain ⟨t, socks⟩ := hd
      simp only [dec_all] at h
      cases hbc : alookup bc t with
      | none =>
          simp only [hbc] at h
          exact absurd h (by simp [except_bind_err])
      | some c =>
          simp only [hbc, except_bind_pure] at h
          simp only [akeys, List.map_cons, List.nodup_cons] at hnd
          have hrec := ih _ _ h (by simpa [akeys] using hnd.2) m
          by_cases hm : m = t
          · subst hm
            have hmr : m ∉ akeys rest := by simpa [akeys] using hnd.1
            rw [hrec, if_neg hmr, alookup_aset_self]
            rw [if_pos (show m ∈ akeys ((m, socks) :: rest) by simp [akeys]), hbc]
            rfl
          · rw [hrec]
            have hlu : alookup (aset bc t (c - 1)) m = alookup bc m :=
              alookup_aset_ne bc t m (c - 1) (fun he => hm he.symm)
            by_cases hmr : m ∈ akeys rest
            · rw [if_pos hmr, if_pos (show m ∈ akeys ((t, socks) :: rest) from by
                simp only [akeys, List.map_cons]
                exact List.mem_cons_of_mem _ hmr), hlu]
            · rw [if_neg hmr, hlu,
                if_neg (show m ∉ akeys ((t, socks) :: rest) from by
                  simp only [akeys, List.map_cons, List.mem_cons]
                  intro hc
                  rcases hc with hc | hc
                  · exact hm hc
                  · exact hmr hc)]

theorem collect_inputs_links_to (env : Env) (dp : DynamicPrompt) (il : Bool)
    (sg : Option (List String)) (s : ExecState) (u : String) :
    ∀ (inputs : List (String × InputVal)) (ps : List String) (ls : List Link),
      collect_inputs env dp il sg s u inputs = Except.ok (ps, ls) →
      ∀ l ∈ ls, l.to_node_id = u := by
  intro inputs
  induction inputs with
  | nil =>
      intro ps ls h l hl
      simp only [collect_inputs] at h
      injection h with h1
      injection h1 with hps hls
      subst hls
      cases hl
  | cons entry rest ih =>
      intro ps ls h l hl
      obtain ⟨input_name, value⟩ := entry
      have step :
          ∀ (ps0 : List String) (ls0 : List Link),
            (∀ l0 ∈ ls0, l0.to_node_id = u) →
            ((pure (ps0, ls0) : Except PyErr (List String × List Link)) >>=
              (fun x =>
                collect_inputs env dp il sg s u rest >>= fun y =>
                  Except.ok (x.1 ++ y.1, x.2 ++ y.2))) = Except.ok (ps, ls) →
            ∀ l0 ∈ ls, l0.to_node_id = u := by
        intro ps0 ls0 hls0 hh l0 hl0
        rw [except_bind_pure] at hh
        cases hrec : collect_inputs env dp il sg s u rest with
        | error e => rw [hrec, except_bind_err] at hh; exact absurd hh (by simp)
        | ok pr =>
            rw [hrec, except_bind_ok] at hh
            injection hh with h1
            injection h1 with hps hls
            subst hls
            rcases List.mem_append.mp hl0 with hm | hm
            · exact hls0 l0 hm
            · exact ih pr.1 pr.2 (by rw [hrec]) l0 hm
      cases value with
      | const cval =>
          simp only [collect_inputs] at h
          exact step [] [] (fun l0 hl0 => absurd hl0 (List.not_mem_nil l0)) h l hl
      | link f fs =>
          simp only [collect_inputs] at h
          split at h
          · exact step [] [] (fun l0 hl0 => absurd hl0 (List.not_mem_nil l0)) h l hl
          · cases hti : ts_get_input_info env dp u input_name with
            | error e =>
                simp only [hti, except_bind_err] at h
                exact absurd h (by simp)
            | ok info =>
                simp only [hti, except_bind_ok] at h
                split at h
                · refine step [f] [⟨f, fs, u⟩] ?_ h l hl
                  intro l0 hl0
                  rcases List.mem_cons.mp hl0 with rfl | hl0
                  · rfl
                  · exact absurd hl0 (List.not_mem_nil l0)
                · exact step [] [] (fun l0 hl0 => absurd hl0 (List.not_mem_nil l0)) h l hl

theorem fresh_node_inv {s : ExecState} {u : String} (hs : StateInv s)
    (hu : u ∉ s.pendingNodes) :
    StateInv { s with pendingNodes := s.pendingNodes ++ [u],
                      blockCount := aset s.blockCount u 0,
                      blocking := aset s.blocking u [] } := by
  obtain ⟨hnd, hk, hcnt, hrows⟩ := hs
  have hnone : alookup s.blocking u = none :=
    alookup_eq_none_of_not_mem (by rw [hk]; exact hu)
  have hbk : aset s.blocking u [] = s.blocking ++ [(u, [])] :=
    aset_append_of_none _ hnone
  refine ⟨?_, ?_, ?_, ?_⟩
  · simp [List.nodup_append, hnd, hu]
  · show akeys (aset s.blocking u []) = s.pendingNodes ++ [u]
    rw [hbk]
    simp [akeys, hk]
    rw [show List.map Prod.fst s.blocking = akeys s.blocking from rfl, hk]
  · intro n hn
    show alookup (aset s.blockCount u 0) n =
      some ((countTargeting (aset s.blocking u []) n : Int))
    rcases List.mem_append.mp hn with hn | hn
    · have hne : u ≠ n := fun he => hu (he ▸ hn)
      rw [alookup_aset_ne _ _ _ _ hne, hcnt n hn, hbk,
        countTargeting_append, countTargeting_cons]
      simp [akeys, countTargeting]
    · have hn' : n = u := by simpa using hn
      subst hn'
      have hz : countTargeting s.blocking n = 0 := by
        rw [countTargeting_zero_iff]
        intro p hp hmem
        obtain ⟨q, hq, hq1⟩ := List.mem_map.mp hmem
        exact hu (hq1 ▸ ((hrows p hp).2 q hq).1)
      rw [alookup_aset_self, hbk, countTargeting_append, hz, countTargeting_cons]
      simp [akeys, countTargeting]
  · intro p hp
    show (akeys p.2).Nodup ∧ ∀ q ∈ p.2, q.1 ∈ s.pendingNodes ++ [u] ∧
      any_true_sock q.2 = true
    have hp' : p ∈ s.blocking ++ [(u, [])] := by
      rw [← hbk]
      exact hp
    rcases List.mem_append.mp hp' with hp | hp
    · obtain ⟨hqnd, hq⟩ := hrows p hp
      exact ⟨hqnd, fun q hq' => ⟨List.mem_append_left _ (hq q hq').1, (hq q hq').2⟩⟩
    · have hpu : p = (u, []) := by simpa using hp
      subst hpu
      exact ⟨List.nodup_nil, fun q hq => absurd hq (List.not_mem_nil q)⟩

theorem scan_inv (env : Env) (dp : DynamicPrompt) (il : Bool)
    (sg : Option (List String)) :
    ∀ (fuel : Nat) (stack : List String) (links : List Link) (s s1 : ExecState)
      (links' : List Link),
      scan env dp il sg fuel stack links s = Except.ok (s1, links') →
      StateInv s → (∀ l ∈ links, l.to_node_id ∈ s.pendingNodes) →
      StateInv s1 ∧ ∀ l ∈ links', l.to_node_id ∈ s1.pendingNodes := by
  intro fuel
  induction fuel with
  | zero => intro stack links s s1 links' h _ _; exact absurd h (by simp [scan])
  | succ f ih =>
      intro stack links s s1 links' h hs hlinks
      cases stack with
      | nil =>
          simp only [scan] at h
          injection h with h1
          injection h1 with hsa hla
          subst hsa
          subst hla
          exact ⟨hs, hlinks⟩
      | cons u rest =>
          simp only [scan] at h
          by_cases hmem : u ∈ s.pendingNodes
          · rw [if_pos hmem] at h
            exact ih rest links s s1 links' h hs hlinks
          · rw [if_neg hmem] at h
            cases hg : get_node dp u with
            | error e => simp only [hg] at h; exact absurd h (by simp)
            | ok r =>
                simp only [hg] at h
                cases hc : collect_inputs env dp il sg
                    { s with pendingNodes := s.pendingNodes ++ [u],
                             blockCount := aset s.blockCount u 0,
                             blocking := aset s.blocking u [] } u r.inputs with
                | error e => simp only [hc] at h; exact absurd h (by simp)
                | ok pl =>
                    obtain ⟨pushes, newLinks⟩ := pl
                    simp only [hc] at h
                    have hs1 : StateInv
                        { s with pendingNodes := s.pendingNodes ++ [u],
                                 blockCount := aset s.blockCount u 0,
                                 blocking := aset s.blocking u [] } :=
                      fresh_node_inv ⟨hs.1, hs.2.1, hs.2.2.1, hs.2.2.2⟩ hmem
                    refine ih _ _ _ _ _ h hs1 ?_
                    intro l hl
                    rcases List.mem_append.mp hl with hl | hl
                    · exact List.mem_append_left _ (hlinks l hl)
                    · have hto : l.to_node_id = u :=
                        collect_inputs_links_to env dp il sg _ u r.inputs
                          pushes newLinks hc l hl
                      rw [hto]
                      exact List.mem_append_right _ (by simp)

theorem branch_update_inv {s : ExecState} {f : String} {sock : Nat} {t : String}
    {s' : ExecState} (hs : StateInv s) (ht : t ∈ s.pendingNodes)
    (h : branch_update s f sock t = Except.ok s') : StateInv s' := by
  obtain ⟨hnd, hk, hcnt, hrows⟩ := hs
  unfold branch_update at h
  cases hrow : alookup s.blocking f with
  | none => simp only [hrow, except_bind_err] at h; exact absurd h (by simp)
  | some row =>
      simp only [hrow, except_bind_pure] at h
      have hfmem : (f, row) ∈ s.blocking := alookup_mem hrow
      have hrow_nd : (akeys row).Nodup := (hrows (f, row) hfmem).1
      have hfsome : (alookup s.blocking f).isSome = true := by rw [hrow]; rfl
      cases hrt : alookup row t with
      | some socks =>
          simp only [hrt] at h
          injection h with h1
          subst h1
          have hkeys : akeys (aset row t (aset socks sock true)) = akeys row := by
            rw [akeys_aset, if_pos (show (alookup row t).isSome = true by rw [hrt]; rfl)]
          refine ⟨hnd, ?_, ?_, ?_⟩
          · show akeys (aset s.blocking f (aset row t (aset socks sock true))) =
              s.pendingNodes
            rw [akeys_aset, if_pos hfsome]
            exact hk
          · intro n hn
            show alookup s.blockCount n =
              some ((countTargeting
                (aset s.blocking f (aset row t (aset socks sock true))) n : Int))
            rw [countTargeting_aset_congr (by rw [hkeys]) hrow]
            exact hcnt n hn
          · intro p hp
            show (akeys p.2).Nodup ∧ ∀ q ∈ p.2, q.1 ∈ s.pendingNodes ∧
              any_true_sock q.2 = true
            rcases mem_aset hp with hp1 | hp1
            · subst hp1
              refine ⟨by rw [hkeys]; exact hrow_nd, ?_⟩
              intro q hq
              rcases mem_aset hq with hq1 | hq1
              · subst hq1
                exact ⟨ht, any_true_sock_aset_true socks sock⟩
              · exact (hrows (f, row) hfmem).2 q hq1
            · exact hrows p hp1
      | none =>
          simp only [hrt] at h
          cases hbc : alookup s.blockCount t with
          | none => simp only [hbc, except_bind_err] at h; exact absurd h (by simp)
          | some c =>
              simp only [hbc, except_bind_pure] at h
              injection h with h1
              subst h1
              have htrow : t ∉ akeys row := by
                intro hmem
                have hsm := alookup_isSome_of_mem_akeys hmem
                rw [hrt] at hsm
                simp at hsm
              have hrow' : aset row t [(sock, true)] = row ++ [(t, [(sock, true)])] :=
                aset_append_of_none _ hrt
              refine ⟨hnd, ?_, ?_, ?_⟩
              · show akeys (aset s.blocking f (aset row t [(sock, true)])) =
                  s.pendingNodes
                rw [akeys_aset, if_pos hfsome]
                exact hk
              · intro n hn
                show alookup (aset s.blockCount t (c + 1)) n =
                  some ((countTargeting
                    (aset s.blocking f (aset row t [(sock, true)])) n : Int))
                by_cases hnt : n = t
                · subst hnt
                  rw [alookup_aset_self,
                    countTargeting_aset_add htrow (mem_akeys_aset_self row n _) hrow]
                  have hceq : c = ((countTargeting s.blocking n : Nat) : Int) := by
                    have hx := hcnt n hn
                    rw [hbc] at hx
                    injection hx
                  rw [hceq]
                  norm_cast
                · rw [alookup_aset_ne s.blockCount t n (c + 1) (fun he => hnt he.symm),
                    countTargeting_aset_congr ?_ hrow]
                  · exact hcnt n hn
                  · rw [hrow']
                    simp only [akeys, List.map_append, List.mem_append]
                    constructor
                    · intro hx
                      rcases hx with hx | hx
                      · exact hx
                      · simp at hx
                        exact absurd hx hnt
                    · intro hx
                      exact Or.inl hx
              · intro p hp
                show (akeys p.2).Nodup ∧ ∀ q ∈ p.2, q.1 ∈ s.pendingNodes ∧
                  any_true_sock q.2 = true
                rcases mem_aset hp with hp1 | hp1
                · subst hp1
                  refine ⟨?_, ?_⟩
                  · rw [hrow']
                    simp only [akeys, List.map_append, List.nodup_append]
                    refine ⟨hrow_nd, by simp, ?_⟩
                    intro a ha hb
                    simp at hb
                    subst hb
                    exact htrow ha
                  · intro q hq
                    rw [hrow'] at hq
                    rcases List.mem_append.mp hq with hq1 | hq1
                    · exact (hrows (f, row) hfmem).2 q hq1
                    · have hqe : q = (t, [(sock, true)]) := by simpa using hq1
                      subst hqe
                      exact ⟨ht, rfl⟩
                · exact hrows p hp1

theorem strong_link_core_inv {env : Env} {dp : DynamicPrompt} {fuel : Nat}
    (IH : ∀ (il : Bool) (sg : Option (List String)) (n : String) (a b : ExecState),
      add_nodeF env dp fuel il sg n a = Except.ok b → StateInv a → StateInv b)
    {f : String} {sock : Nat} {t : String} {s s' : ExecState}
    (hs : StateInv s) (ht : t ∈ s.pendingNodes)
    (h : strong_link_core (add_nodeF env dp fuel false none) f sock t s =
      Except.ok s') : StateInv s' := by
  simp only [strong_link_core, is_cached, Bool.false_eq_true, if_false] at h
  cases han : add_nodeF env dp fuel false none f s with
  | error e => rw [han, except_bind_err] at h; exact absurd h (by simp)
  | ok sa =>
      rw [han, except_bind_ok] at h
      have hsa : StateInv sa := IH false none f s sa han hs
      obtain ⟨new, hnew⟩ := add_nodeF_mono env dp fuel false none f s sa han
      exact branch_update_inv hsa
        (by rw [hnew]; exact List.mem_append_left _ ht) h

theorem fold_links_inv (env : Env) (dp : DynamicPrompt) (fuel : Nat)
    (IH : ∀ (il : Bool) (sg : Option (List String)) (n : String) (a b : ExecState),
      add_nodeF env dp fuel il sg n a = Except.ok b → StateInv a → StateInv b) :
    ∀ (links : List Link) (s s' : ExecState), StateInv s →
      (∀ l ∈ links, l.to_node_id ∈ s.pendingNodes) →
      links.foldlM
        (fun st l =>
          strong_link_core (add_nodeF env dp fuel false none)
            l.from_node_id l.from_socket l.to_node_id st) s = Except.ok s' →
      StateInv s' := by
  intro links
  induction links with
  | nil =>
      intro s s' hs _ h
      simp only [List.foldlM_nil] at h
      injection h with h1
      subst h1
      exact hs
  | cons l rest ih =>
      intro s s' hs hcons h
      rw [List.foldlM_cons] at h
      cases hstep : strong_link_core (add_nodeF env dp fuel false none)
          l.from_node_id l.from_socket l.to_node_id s with
      | error e => rw [hstep, except_bind_err] at h; exact absurd h (by simp)
      | ok s1 =>
          rw [hstep, except_bind_ok] at h
          have hs1 : StateInv s1 :=
            strong_link_core_inv IH hs (hcons l (by simp)) hstep
          obtain ⟨n1, hn1⟩ := strong_link_core_mono
            (fun tg a b => add_nodeF_mono env dp fuel false none tg a b) hstep
          refine ih s1 s' hs1 ?_ h
          intro l2 hl2
          rw [hn1]
          exact List.mem_append_left _ (hcons l2 (List.mem_cons_of_mem _ hl2))

theorem add_nodeF_inv (env : Env) (dp : DynamicPrompt) :
    ∀ (fuel : Nat) (il : Bool) (sg : Option (List String)) (n : String)
      (s s' : ExecState),
      add_nodeF env dp fuel il sg n s = Except.ok s' → StateInv s → StateInv s' := by
  intro fuel
  induction fuel with
  | zero => intro il sg n s s' h _; exact absurd h (by simp [add_nodeF])
  | succ fl ih =>
      intro il sg n s s' h hs
      simp only [add_nodeF] at h
      cases hscan : scan env dp il sg (scanFuel dp) [n] [] s with
      | error e => rw [hscan, except_bind_err] at h; exact absurd h (by simp)
      | ok pair =>
          rw [hscan, except_bind_ok] at h
          obtain ⟨s1, L⟩ := pair
          obtain ⟨hs1, hL⟩ := scan_inv env dp il sg (scanFuel dp) [n] [] s s1 L hscan hs
            (fun l hl => absurd hl (List.not_mem_nil l))
          exact fold_links_inv env dp fl ih L s1 s' hs1 hL h

theorem pop_node_inv {s : ExecState} {n : String} {s' : ExecState}
    (hs : StateInv s) (hzero : alookup s.blockCount n = some 0)
    (h : pop_node s n = Except.ok s') : StateInv s' := by
  obtain ⟨hnd, hk, hcnt, hrows⟩ := hs
  unfold pop_node at h
  by_cases hmem : n ∈ s.pendingNodes
  · rw [if_pos hmem] at h
    cases hrow : alookup s.blocking n with
    | none => simp only [hrow] at h; exact absurd h (by simp)
    | some row =>
        simp only [hrow] at h
        cases hdec : dec_all s.blockCount row with
        | error e => rw [hdec, except_bind_err] at h; exact absurd h (by simp)
        | ok bc' =>
            rw [hdec, except_bind_ok] at h
            injection h with h1
            subst h1
            have hct0 : countTargeting s.blocking n = 0 := by
              have hx := hcnt n hmem
              rw [hzero] at hx
              injection hx with h2
              exact_mod_cast h2.symm
            have hnotarget : ∀ p ∈ s.blocking, n ∉ akeys p.2 :=
              (countTargeting_zero_iff _ _).mp hct0
            have hrow_nd : (akeys row).Nodup := (hrows (n, row) (alookup_mem hrow)).1
            have hdecspec := dec_all_spec row s.blockCount bc' hdec hrow_nd
            refine ⟨hnd.erase n, ?_, ?_, ?_⟩
            · show akeys (adel s.blocking n) = s.pendingNodes.erase n
              rw [akeys_adel, hk]
            · intro m hm
              have hm' : m ≠ n ∧ m ∈ s.pendingNodes :=
                (List.Nodup.mem_erase_iff hnd).mp hm
              show alookup bc' m =
                some ((countTargeting (adel s.blocking n) m : Int))
              rw [hdecspec m]
              have hsplit := countTargeting_adel_eq (n := m) hrow
              by_cases hmr : m ∈ akeys row
              · rw [if_pos hmr]
                rw [hcnt m hm'.2]
                rw [if_pos hmr] at hsplit
                have : countTargeting s.blocking m =
                    1 + countTargeting (adel s.blocking n) m := hsplit
                rw [this]
                simp only [Option.map_some']
                congr 1
                push_cast
                ring
              · rw [if_neg hmr]
                rw [hcnt m hm'.2]
                rw [if_neg hmr] at hsplit
                have : countTargeting s.blocking m =
                    0 + countTargeting (adel s.blocking n) m := hsplit
                rw [this, Nat.zero_add]
            · intro p hp
              show (akeys p.2).Nodup ∧ ∀ q ∈ p.2, q.1 ∈ s.pendingNodes.erase n ∧
                any_true_sock q.2 = true
              have hp' : p ∈ s.blocking := mem_of_mem_adel hp
              obtain ⟨hqnd, hq⟩ := hrows p hp'
              refine ⟨hqnd, ?_⟩
              intro q hq'
              have hq1 : q.1 ≠ n := by
                intro he
                exact hnotarget p hp'
                  (he ▸ List.mem_map_of_mem Prod.fst hq')
              exact ⟨(List.Nodup.mem_erase_iff hnd).mpr ⟨hq1, (hq q hq').1⟩,
                (hq q hq').2⟩
  · rw [if_neg hmem] at h
    exact absurd h (by simp)

theorem reachable_inv (env : Env) (dp : DynamicPrompt) :
    ∀ {s : ExecState}, Reachable env dp s → StateInv s := by
  intro s h
  induction h with
  | init =>
      refine ⟨List.nodup_nil, rfl, ?_, ?_⟩
      · intro n hn; cases hn
      · intro p hp; cases hp
  | add hr heq ih =>
      exact add_nodeF_inv env dp (nodeFuel dp) false none _ _ _ heq ih
  | strong hr hpend heq ih =>
      exact strong_link_core_inv
        (fun il sg m a b hh ha => add_nodeF_inv env dp (nodeFuel dp) il sg m a b hh ha)
        ih hpend heq
  | pop hr hzero heq ih =>
      exact pop_node_inv ih hzero heq

/-- C5, corrected.  Under the executing driver's discipline — captured by
`Reachable`: successful operations only, `add_strong_link` only toward a
pending consumer, `pop_node` only on a ready node — every state satisfies
the block-graph invariant: a pending node's `blockCount` is zero exactly
when no pending node's blocking row records it behind a true socket, and
`pop_node` decrements each dependent's count exactly once per dependent
(not once per socket).  For arbitrary operation sequences the invariant
fails (see the counterexample). -/
theorem c5_block_graph_invariant (env : Env) (dp : DynamicPrompt) (s : ExecState)
    (hreach : Reachable env dp s) :
    (∀ n ∈ s.pendingNodes,
      (alookup s.blockCount n = some 0 ↔ ¬ ∃ m ∈ s.pendingNodes, dep_rel s n m)) ∧
    (∀ (u : String) (s' : ExecState), pop_node s u = Except.ok s' →
      ∃ row, alookup s.blocking u = some row ∧ (akeys row).Nodup ∧
        ∀ t, alookup s'.blockCount t =
          if t ∈ akeys row then (alookup s.blockCount t).map (fun c => c - 1)
          else alookup s.blockCount t) := by
  obtain ⟨hnd, hk, hcnt, hrows⟩ := reachable_inv env dp hreach
  constructor
  · intro n hn
    have hiff : (some ((countTargeting s.blocking n : Nat) : Int) = some 0) ↔
        countTargeting s.blocking n = 0 := by
      constructor
      · intro hx
        injection hx with hx1
        exact_mod_cast hx1
      · intro hx
        rw [hx]
        rfl
    rw [hcnt n hn, hiff, countTargeting_zero_iff]
    constructor
    · intro hall hex
      obtain ⟨m, hm, row, hrowm, socks, hsocks, htrue⟩ := hex
      exact hall (m, row) (alookup_mem hrowm) (mem_akeys_of_alookup hsocks)
    · intro hnone p hp hmem
      apply hnone
      obtain ⟨socks, hsocks⟩ : ∃ socks, alookup p.2 n = some socks := by
        have hsm := alookup_isSome_of_mem_akeys hmem
        cases hx : alookup p.2 n with
        | none => rw [hx] at hsm; simp at hsm
        | some w => exact ⟨w, rfl⟩
      refine ⟨p.1, ?_, p.2, ?_, socks, hsocks, ?_⟩
      · rw [← hk]
        exact List.mem_map_of_mem Prod.fst hp
      · exact alookup_of_mem_nodup (show (p.1, p.2) ∈ s.blocking from hp)
          (by rw [hk]; exact hnd)
      · exact ((hrows p hp).2 (n, socks) (alookup_mem hsocks)).2
  · intro u s' hpop
    unfold pop_node at hpop
    by_cases hmem : u ∈ s.pendingNodes
    · rw [if_pos hmem] at hpop
      cases hrow : alookup s.blocking u with
      | none => simp only [hrow] at hpop; exact absurd hpop (by simp)
      | some row =>
          simp only [hrow] at hpop
          cases hdec : dec_all s.blockCount row with
          | error e => rw [hdec, except_bind_err] at hpop; exact absurd hpop (by simp)
          | ok bc' =>
              rw [hdec, except_bind_ok] at hpop
              injection hpop with h1
              subst h1
              have hrow_nd : (akeys row).Nodup := (hrows (u, row) (alookup_mem hrow)).1
              exact ⟨row, rfl, hrow_nd,
                fun t => dec_all_spec row s.blockCount bc' hdec hrow_nd t⟩
    · rw [if_neg hmem] at hpop
      exact absurd hpop (by simp)

/-- C5 counterexample: after the successful sequence `add_node "X"`,
`pop_node "X"`, `add_strong_link "P" 0 "X"`, `add_node "X"`, node `X` is
pending with `blockCount` zero while the pending node `P`'s blocking row
records `X` behind a true socket — refuting the invariant for arbitrary
operation sequences (re-adding a popped node resets its count while a stale
edge toward it survives). -/
theorem c5_counterexample :
    (add_node envC6 dpC6 false none "X" (initState []) >>= fun s1 =>
      pop_node s1 "X" >>= fun s2 =>
        add_strong_link envC6 dpC6 "P" 0 "X" s2 >>= fun s3 =>
          add_node envC6 dpC6 false none "X" s3) =
      Except.ok (⟨["P", "X"], [("X", 0), ("P", 0)],
        [("P", [("X", [(0, true)])]), ("X", [])], [], none, none⟩ : ExecState) ∧
    "X" ∈ (["P", "X"] : List String) ∧
    "P" ∈ (["P", "X"] : List String) ∧
    alookup [("X", (0 : Int)), ("P", 0)] "X" = some 0 ∧
    dep_rel (⟨["P", "X"], [("X", 0), ("P", 0)],
      [("P", [("X", [(0, true)])]), ("X", [])], [], none, none⟩ : ExecState)
      "X" "P" := by
  refine ⟨by decide, by decide, by decide, by decide, ?_⟩
  exact ⟨[("X", [(0, true)])], by decide, [(0, true)], by decide, by decide⟩

/-- C5 witness: the corrected invariant instantiated on the reachable state
after `add_node "C"` on the cyclic prompt. -/
theorem c5_block_graph_invariant_witness :
    (∀ n ∈ c2state.pendingNodes,
      (alookup c2state.blockCount n = some 0 ↔
        ¬ ∃ m ∈ c2state.pendingNodes, dep_rel c2state n m)) ∧
    (∀ (u : String) (s' : ExecState), pop_node c2state u = Except.ok s' →
      ∃ row, alookup c2state.blocking u = some row ∧ (akeys row).Nodup ∧
        ∀ t, alookup s'.blockCount t =
          if t ∈ akeys row then
            (alookup c2state.blockCount t).map (fun c => c - 1)
          else alookup c2state.blockCount t) :=
  c5_block_graph_invariant envC2 dpC2 c2state
    (Reachable.add Reachable.init
      (show add_node envC2 dpC2 false none "C" (initState []) = Except.ok c2state
        by decide))

theorem branch_update_notarget {s s' : ExecState} {f X : String} {sock : Nat}
    {t : String} (hX : t ≠ X) (hno : ∀ p ∈ s.blocking, X ∉ akeys p.2)
    (h : branch_update s f sock t = Except.ok s') :
    (∀ p ∈ s'.blocking, X ∉ akeys p.2) ∧
    alookup s'.blockCount X = alookup s.blockCount X ∧
    s'.pendingNodes = s.pendingNodes := by
  unfold branch_update at h
  cases hrow : alookup s.blocking f with
  | none => simp only [hrow, except_bind_err] at h; exact absurd h (by simp)
  | some row =>
      simp only [hrow, except_bind_pure] at h
      have hXrow : X ∉ akeys row := hno (f, row) (alookup_mem hrow)
      cases hrt : alookup row t with
      | some socks =>
          simp only [hrt] at h
          injection h with h1
          subst h1
          refine ⟨?_, rfl, rfl⟩
          intro p hp
          rcases mem_aset hp with hp1 | hp1
          · subst hp1
            show X ∉ akeys (aset row t (aset socks sock true))
            rw [akeys_aset,
              if_pos (show (alookup row t).isSome = true by rw [hrt]; rfl)]
            exact hXrow
          · exact hno p hp1
      | none =>
          simp only [hrt] at h
          cases hbc : alookup s.blockCount t with
          | none => simp only [hbc, except_bind_err] at h; exact absurd h (by simp)
          | some c =>
              simp only [hbc, except_bind_pure] at h
              injection h with h1
              subst h1
              refine ⟨?_, ?_, rfl⟩
              · intro p hp
                rcases mem_aset hp with hp1 | hp1
                · subst hp1
                  show X ∉ akeys (aset row t [(sock, true)])
                  rw [aset_append_of_none _ hrt]
                  simp only [akeys, List.map_append, List.mem_append]
                  intro hc2
                  rcases hc2 with hc2 | hc2
                  · exact hXrow hc2
                  · simp at hc2
                    exact hX hc2.symm
                · exact hno p hp1
              · show alookup (aset s.blockCount t (c + 1)) X = alookup s.blockCount X
                exact alookup_aset_ne s.blockCount t X (c + 1) hX

theorem scan_notarget (env : Env) (dp : DynamicPrompt) (il : Bool)
    (sg : Option (List String)) (X : String) :
    ∀ (fuel : Nat) (stack : List String) (links : List Link) (s s1 : ExecState)
      (L : List Link),
      scan env dp il sg fuel stack links s = Except.ok (s1, L) →
      X ∈ s.pendingNodes → (∀ p ∈ s.blocking, X ∉ akeys p.2) →
      (∀ l ∈ links, l.to_node_id ≠ X) →
      X ∈ s1.pendingNodes ∧ (∀ p ∈ s1.blocking, X ∉ akeys p.2) ∧
      alookup s1.blockCount X = alookup s.blockCount X ∧
      (∀ l ∈ L, l.to_node_id ≠ X) := by
  intro fuel
  induction fuel with
  | zero => intro stack links s s1 L h _ _ _; exact absurd h (by simp [scan])
  | succ f ih =>
      intro stack links s s1 L h hX hno hlinks
      cases stack with
      | nil =>
          simp only [scan] at h
          injection h with h1
          injection h1 with hsa hla
          subst hsa
          subst hla
          exact ⟨hX, hno, rfl, hlinks⟩
      | cons u rest =>
          simp only [scan] at h
          by_cases hmem : u ∈ s.pendingNodes
          · rw [if_pos hmem] at h
            exact ih rest links s s1 L h hX hno hlinks
          · rw [if_neg hmem] at h
            have hune : u ≠ X := fun he => hmem (he ▸ hX)
            cases hg : get_node dp u with
            | error e => simp only [hg] at h; exact absurd h (by simp)
            | ok r =>
                simp only [hg] at h
                cases hc : collect_inputs env dp il sg
                    { s with pendingNodes := s.pendingNodes ++ [u],
                             blockCount := aset s.blockCount u 0,
                             blocking := aset s.blocking u [] } u r.inputs with
                | error e => simp only [hc] at h; exact absurd h (by simp)
                | ok pl =>
                    obtain ⟨pushes, newLinks⟩ := pl
                    simp only [hc] at h
                    have hX' : X ∈ s.pendingNodes ++ [u] := List.mem_append_left _ hX
                    have hno' : ∀ p ∈ aset s.blocking u [], X ∉ akeys p.2 := by
                      intro p hp
                      rcases mem_aset hp with hp1 | hp1
                      · subst hp1
                        simp [akeys]
                      · exact hno p hp1
                    have hlinks' : ∀ l ∈ links ++ newLinks, l.to_node_id ≠ X := by
                      intro l hl
                      rcases List.mem_append.mp hl with hl | hl
                      · exact hlinks l hl
                      · rw [collect_inputs_links_to env dp il sg _ u r.inputs
                          pushes newLinks hc l hl]
                        exact hune
                    obtain ⟨hX1, hno1, hcnt1, hL1⟩ := ih _ _ _ _ _ h hX' hno' hlinks'
                    refine ⟨hX1, hno1, ?_, hL1⟩
                    rw [hcnt1]
                    show alookup (aset s.blockCount u 0) X = alookup s.blockCount X
                    exact alookup_aset_ne s.blockCount u X 0 hune

theorem fold_links_notarget (env : Env) (dp : DynamicPrompt) (fuel : Nat) (X : String)
    (IH : ∀ (il : Bool) (sg : Option (List String)) (n : String) (a b : ExecState),
      add_nodeF env dp fuel il sg n a = Except.ok b → X ∈ a.pendingNodes →
      (∀ p ∈ a.blocking, X ∉ akeys p.2) →
      X ∈ b.pendingNodes ∧ (∀ p ∈ b.blocking, X ∉ akeys p.2) ∧
      alookup b.blockCount X = alookup a.blockCount X) :
    ∀ (links : List Link) (s s' : ExecState),
      X ∈ s.pendingNodes → (∀ p ∈ s.blocking, X ∉ akeys p.2) →
      (∀ l ∈ links, l.to_node_id ≠ X) →
      links.foldlM
        (fun st l =>
          strong_link_core (add_nodeF env dp fuel false none)
            l.from_node_id l.from_socket l.to_node_id st) s = Except.ok s' →
      X ∈ s'.pendingNodes ∧ (∀ p ∈ s'.blocking, X ∉ akeys p.2) ∧
      alookup s'.blockCount X = alookup s.blockCount X := by
  intro links
  induction links with
  | nil =>
      intro s s' hX hno _ h
      simp only [List.foldlM_nil] at h
      injection h with h1
      subst h1
      exact ⟨hX, hno, rfl⟩
  | cons l rest ih =>
      intro s s' hX hno hcons h
      rw [List.foldlM_cons] at h
      cases hstep : strong_link_core (add_nodeF env dp fuel false none)
          l.from_node_id l.from_socket l.to_node_id s with
      | error e => rw [hstep, except_bind_err] at h; exact absurd h (by simp)
      | ok s1 =>
          rw [hstep, except_bind_ok] at h
          have hstep' := hstep
          simp only [strong_link_core, is_cached, Bool.false_eq_true, if_false]
            at hstep'
          obtain ⟨hX1, hno1, hcnt1⟩ :
              X ∈ s1.pendingNodes ∧ (∀ p ∈ s1.blocking, X ∉ akeys p.2) ∧
              alookup s1.blockCount X = alookup s.blockCount X := by
            cases han : add_nodeF env dp fuel false none l.from_node_id s with
            | error e => rw [han, except_bind_err] at hstep'; exact absurd hstep' (by simp)
            | ok sa =>
                rw [han, except_bind_ok] at hstep'
                obtain ⟨hXa, hnoa, hcnta⟩ := IH false none l.from_node_id s sa han hX hno
                obtain ⟨hnob, hcntb, hpendb⟩ :=
                  branch_update_notarget (hcons l (by simp)) hnoa hstep'
                exact ⟨by rw [hpendb]; exact hXa, hnob, by rw [hcntb, hcnta]⟩
          obtain ⟨hX2, hno2, hcnt2⟩ := ih s1 s' hX1 hno1
            (fun l2 hl2 => hcons l2 (List.mem_cons_of_mem _ hl2)) h
          exact ⟨hX2, hno2, by rw [hcnt2, hcnt1]⟩

theorem add_nodeF_notarget (env : Env) (dp : DynamicPrompt) (X : String) :
    ∀ (fuel : Nat) (il : Bool) (sg : Option (List String)) (n : String)
      (s s' : ExecState),
      add_nodeF env dp fuel il sg n s = Except.ok s' → X ∈ s.pendingNodes →
      (∀ p ∈ s.blocking, X ∉ akeys p.2) →
      X ∈ s'.pendingNodes ∧ (∀ p ∈ s'.blocking, X ∉ akeys p.2) ∧
      alookup s'.blockCount X = alookup s.blockCount X := by
  intro fuel
  induction fuel with
  | zero => intro il sg n s s' h _ _; exact absurd h (by simp [add_nodeF])
  | succ fl ih =>
      intro il sg n s s' h hX hno
      simp only [add_nodeF] at h
      cases hscan : scan env dp il sg (scanFuel dp) [n] [] s with
      | error e => rw [hscan, except_bind_err] at h; exact absurd h (by simp)
      | ok pair =>
          rw [hscan, except_bind_ok] at h
          obtain ⟨s1, L⟩ := pair
          obtain ⟨hX1, hno1, hcnt1, hL1⟩ := scan_notarget env dp il sg X
            (scanFuel dp) [n] [] s s1 L hscan hX hno
            (fun l hl => absurd hl (List.not_mem_nil l))
          obtain ⟨hX2, hno2, hcnt2⟩ :=
            fold_links_notarget env dp fl X ih L s1 s' hX1 hno1 hL1 h
          exact ⟨hX2, hno2, by rw [hcnt2, hcnt1]⟩

theorem collect_inputs_all_lazy (env : Env) (dp : DynamicPrompt) (X : String)
    (s' : ExecState) :
    ∀ (inputs : List (String × InputVal)),
      (∀ q ∈ inputs, ∀ Q sk, q.2 = InputVal.link Q sk →
        ∃ ty cat extra,
          ts_get_input_info env dp X q.1 = Except.ok (some (ty, cat, extra)) ∧
          (alookup extra "lazy").getD false = true) →
      collect_inputs env dp false none s' X inputs = Except.ok ([], []) := by
  intro inputs
  induction inputs with
  | nil => intro _; rfl
  | cons entry rest ih =>
      intro hall
      obtain ⟨nm, v⟩ := entry
      have hrest := ih (fun q hq Q sk hv => hall q (List.mem_cons_of_mem _ hq) Q sk hv)
      cases v with
      | const cval =>
          simp [collect_inputs, hrest, except_bind_ok, except_bind_pure]
      | link Q sk =>
          obtain ⟨ty, cat, extra, hti, hlz⟩ :=
            hall (nm, InputVal.link Q sk) (by simp) Q sk rfl
          simp [collect_inputs, hti, hlz, hrest, is_cached,
            except_bind_ok, except_bind_err, except_bind_pure]

theorem scan_fresh_all_lazy (env : Env) (dp : DynamicPrompt) (X : String)
    (r : NodeRecord) (s : ExecState)
    (hget : get_node dp X = Except.ok r)
    (hlazyall : ∀ q ∈ r.inputs, ∀ Q sk, q.2 = InputVal.link Q sk →
      ∃ ty cat extra,
        ts_get_input_info env dp X q.1 = Except.ok (some (ty, cat, extra)) ∧
        (alookup extra "lazy").getD false = true)
    (hXfresh : X ∉ s.pendingNodes) :
    ∀ (fuel : Nat), scan env dp false none (fuel + 2) [X] [] s =
      Except.ok ({ s with
        pendingNodes := s.pendingNodes ++ [X],
        blockCount := aset s.blockCount X 0,
        blocking := aset s.blocking X [] }, []) := by
  intro fuel
  show scan env dp false none (fuel + 1 + 1) [X] [] s = _
  simp only [scan]
  rw [if_neg hXfresh]
  have hcoll := collect_inputs_all_lazy env dp X
    { s with pendingNodes := s.pendingNodes ++ [X],
             blockCount := aset s.blockCount X 0,
             blocking := aset s.blocking X [] } r.inputs hlazyall
  simp only [hget, hcoll]
  simp only [List.reverse_nil, List.nil_append, List.append_nil, scan]

theorem add_node_all_lazy (env : Env) (dp : DynamicPrompt) (X : String)
    (r : NodeRecord) (s : ExecState)
    (hget : get_node dp X = Except.ok r)
    (hlazyall : ∀ q ∈ r.inputs, ∀ Q sk, q.2 = InputVal.link Q sk →
      ∃ ty cat extra,
        ts_get_input_info env dp X q.1 = Except.ok (some (ty, cat, extra)) ∧
        (alookup extra "lazy").getD false = true)
    (hXfresh : X ∉ s.pendingNodes) :
    add_node env dp false none X s = Except.ok
      { s with pendingNodes := s.pendingNodes ++ [X],
               blockCount := aset s.blockCount X 0,
               blocking := aset s.blocking X [] } := by
  unfold add_node
  rw [nodeFuel_succ]
  simp only [add_nodeF]
  obtain ⟨k, hk2⟩ := scanFuel_ge_two dp
  rw [hk2, scan_fresh_all_lazy env dp X r s hget hlazyall hXfresh k, except_bind_ok]
  simp only [List.foldlM_nil]
  rfl

/-- C9.  Lazy-edge deferral: when every link input of consumer `X` is
declared lazy, `add_node(X)` with `include_lazy = False` records no blocking
edge and does not enqueue the producer — `X` is pending with `blockCount`
zero while `P` is neither pending nor has a blocking row — and a subsequent
`make_input_strong_link(X, i)` for the lazy input makes `P` pending and
records `blocking[P][X][sock] = True`, raising `X`'s `blockCount` to one:
the producer becomes a hard prerequisite. -/
theorem c9_lazy_edge_deferral (env : Env) (dp : DynamicPrompt)
    (X P i : String) (sock : Nat) (r : NodeRecord) (s s1 s2 : ExecState)
    (hs : StateInv s)
    (hget : get_node dp X = Except.ok r)
    (hinput : alookup r.inputs i = some (InputVal.link P sock))
    (hlazyall : ∀ q ∈ r.inputs, ∀ Q sk, q.2 = InputVal.link Q sk →
      ∃ ty cat extra,
        ts_get_input_info env dp X q.1 = Except.ok (some (ty, cat, extra)) ∧
        (alookup extra "lazy").getD false = true)
    (hXfresh : X ∉ s.pendingNodes) (hPfresh : P ∉ s.pendingNodes) (hPne : P ≠ X)
    (hadd : add_node env dp false none X s = Except.ok s1)
    (hmk : make_input_strong_link env dp X i s1 = Except.ok s2) :
    (X ∈ s1.pendingNodes ∧ alookup s1.blockCount X = some 0 ∧
      P ∉ s1.pendingNodes ∧ alookup s1.blocking P = none) ∧
    (P ∈ s2.pendingNodes ∧
      (∃ row socks, alookup s2.blocking P = some row ∧
        alookup row X = some socks ∧ alookup socks sock = some true) ∧
      alookup s2.blockCount X = some 1) := by
  have hs1eq : s1 = { s with
      pendingNodes := s.pendingNodes ++ [X],
      blockCount := aset s.blockCount X 0,
      blocking := aset s.blocking X [] } := by
    have hx := add_node_all_lazy env dp X r s hget hlazyall hXfresh
    rw [hadd] at hx
    exact Except.ok.inj hx
  subst hs1eq
  obtain ⟨hnd, hk, hcnt, hrows⟩ := hs
  have hProwNone : alookup s.blocking P = none :=
    alookup_eq_none_of_not_mem (by rw [hk]; exact hPfresh)
  have hXp1 : X ∈ s.pendingNodes ++ [X] := List.mem_append_right _ (by simp)
  refine ⟨⟨hXp1, ?_, ?_, ?_⟩, ?_⟩
  · show alookup (aset s.blockCount X 0) X = some 0
    exact alookup_aset_self s.blockCount X 0
  · show P ∉ s.pendingNodes ++ [X]
    intro hc
    rcases List.mem_append.mp hc with hc | hc
    · exact hPfresh hc
    · exact hPne (by simpa using hc)
  · show alookup (aset s.blocking X []) P = none
    rw [alookup_aset_ne s.blocking X P [] (fun he => hPne he.symm)]
    exact hProwNone
  · unfold make_input_strong_link at hmk
    simp only [hget, except_bind_ok, hinput] at hmk
    unfold add_strong_link at hmk
    simp only [strong_link_core, is_cached, Bool.false_eq_true, if_false] at hmk
    cases han : add_nodeF env dp (nodeFuel dp) false none P
        { s with
          pendingNodes := s.pendingNodes ++ [X],
          blockCount := aset s.blockCount X 0,
          blocking := aset s.blocking X [] } with
    | error e => rw [han, except_bind_err] at hmk; exact absurd hmk (by simp)
    | ok sa =>
        rw [han, except_bind_ok] at hmk
        have hnoX : ∀ p ∈ aset s.blocking X [], X ∉ akeys p.2 := by
          intro p hp
          rcases mem_aset hp with hp1 | hp1
          · subst hp1
            simp [akeys]
          · intro hmem
            obtain ⟨q, hq, hq1⟩ := List.mem_map.mp hmem
            exact hXfresh (hq1 ▸ ((hrows p hp1).2 q hq).1)
        obtain ⟨hXsa, hnoXsa, hcntXsa⟩ :=
          add_nodeF_notarget env dp X (nodeFuel dp) false none P _ sa han hXp1 hnoX
        unfold branch_update at hmk
        cases hrowP : alookup sa.blocking P with
        | none => simp only [hrowP, except_bind_err] at hmk; exact absurd hmk (by simp)
        | some rowP =>
            simp only [hrowP, except_bind_pure] at hmk
            have hXnotin : alookup rowP X = none :=
              alookup_eq_none_of_not_mem
                (fun hmem => hnoXsa (P, rowP) (alookup_mem hrowP) hmem)
            simp only [hXnotin] at hmk
            have hbc0 : alookup sa.blockCount X = some 0 := by
              rw [hcntXsa]
              exact alookup_aset_self s.blockCount X 0
            simp only [hbc0, except_bind_pure] at hmk
            injection hmk with h2
            subst h2
            refine ⟨?_, ?_, ?_⟩
            · show P ∈ sa.pendingNodes
              obtain ⟨m1, hm1⟩ : ∃ m1, nodeFuel dp = m1 + 1 :=
                ⟨_, nodeFuel_succ dp⟩
              rw [hm1] at han
              exact add_nodeF_target_pending env dp m1 false none P _ sa han
            · refine ⟨aset rowP X [(sock, true)], [(sock, true)], ?_, ?_, ?_⟩
              · show alookup (aset sa.blocking P (aset rowP X [(sock, true)])) P =
                  some (aset rowP X [(sock, true)])
                exact alookup_aset_self sa.blocking P _
              · exact alookup_aset_self rowP X _
              · simp [alookup]
            · show alookup (aset sa.blockCount X (0 + 1)) X = some 1
              rw [alookup_aset_self]
              norm_num

/-- C9 witness: the lazy deferral instantiated on the concrete prompt whose
consumer `X` has the single lazy input `a` linking from `P`. -/
theorem c9_lazy_edge_deferral_witness :
    (("X" : String) ∈ c9state1.pendingNodes ∧
      alookup c9state1.blockCount "X" = some 0 ∧
      ("P" : String) ∉ c9state1.pendingNodes ∧
      alookup c9state1.blocking "P" = none) ∧
    (("P" : String) ∈ c9state2.pendingNodes ∧
      (∃ row socks, alookup c9state2.blocking "P" = some row ∧
        alookup row "X" = some socks ∧ alookup socks 0 = some true) ∧
      alookup c9state2.blockCount "X" = some 1) :=
  c9_lazy_edge_deferral envC9 dpC9 "X" "P" "a" 0 ⟨"KX", [("a", .link "P" 0)]⟩
    (initState []) c9state1 c9state2
    ⟨List.nodup_nil, rfl, fun n hn => absurd hn (List.not_mem_nil n),
      fun p hp => absurd hp (List.not_mem_nil p)⟩
    (by decide) (by decide)
    (by
      intro q hq Q sk hv
      have hq' : q = ("a", InputVal.link "P" 0) := by simpa using hq
      subst hq'
      injection hv with hv1 hv2
      subst hv1
      subst hv2
      exact ⟨"T", InputCat.required, [("lazy", true)], by decide, by decide⟩)
    (by decide) (by decide) (by decide) (by decide) (by decide)

end ComfySched
